import Mathlib

/-!
# Verification of the astrodendro HDF5 topology codec

This file gives a shallow embedding, in Lean 4, of `astrodendro/io/hdf5.py`:
the newick-style topology-string parser `_parse_newick`, the label/value
aggregation loop of `dendro_import_hdf5`, and the tree builder
`_construct_tree`, together with theorems checking the natural-language
specification of that module against the code.

Modelling conventions:

* Python strings are `List Char`; string slices, `str.find`, and the
  level-by-level excision of `_parse_newick` are translated index for index.
* Python numbers (float heights, int identities, numpy label values) are
  modelled by `Dec`, exact decimals in normal form.  The code only ever
  parses decimal literals and copies the resulting numbers around — it
  performs no arithmetic on them — so exact decimals are a faithful carrier,
  and Python's cross-type equality (`1 == 1.0`, used implicitly by dict
  lookups keyed by identities) becomes plain equality of normal forms.
* Python dicts are insertion-ordered association lists.  All dict iteration
  performed by the code (`for idx in repr`, `itervalues().next()`) is
  deterministic in CPython for a fixed sequence of operations, which the
  association-list model reflects.
* `eval("{%s}" % inner)` is modelled by a parser for exactly the
  dict-literal grammar `key:value, ...` with signed decimal numeric tokens,
  the only shape of text the surrounding code can feed it on inputs in the
  topology format; other Python expression forms are mapped to `synErr`.
* The recursion of the `collect` phase is modelled with fuel
  `items.length + 1`.  Any acyclic chain of branch references has depth at
  most `items.length`, so the fuel is exhausted exactly on cyclic reference
  chains, where CPython raises `RecursionError`.  `collect`'s in-place
  mutation of shared sub-dicts is modelled functionally; the two agree
  whenever no identity is referenced from two different mappings (true in
  particular for every string in the encoder's format, where identities are
  unique).
* Exceptions (`KeyError`, `SyntaxError` from `eval`, `ValueError` from
  `int()`, `IndexError`, `StopIteration`, `RecursionError`) are the error
  cases of `Except PyErr`.
-/

/-- The Python exceptions the decoder can raise. -/
inductive PyErr where
  | keyErr
  | synErr
  | valErr
  | idxErr
  | stopIter
  | recurErr
deriving DecidableEq, Repr

instance {ε α : Type} [DecidableEq ε] [DecidableEq α] : DecidableEq (Except ε α) :=
  fun a b =>
    match a, b with
    | .error e, .error e' =>
        decidable_of_iff (e = e') ⟨by intro h; cases h; rfl, by intro h; cases h; rfl⟩
    | .error _, .ok _ => isFalse (by intro h; cases h)
    | .ok _, .error _ => isFalse (by intro h; cases h)
    | .ok x, .ok y =>
        decidable_of_iff (x = y) ⟨by intro h; cases h; rfl, by intro h; cases h; rfl⟩

/-- An exact decimal number `m / 10 ^ e`, kept in normal form (`m` not
divisible by 10 unless `e = 0`).  This carries every numeric value the
decoder touches: float heights, int identities, data values, labels. -/
structure Dec where
  m : Int
  e : Nat
deriving DecidableEq, Repr

/-- Strip factors of 10 from `m` into the exponent, yielding a normal form. -/
def normDecAux : Int → Nat → Int × Nat
  | m, 0 => (m, 0)
  | m, k + 1 => if m % 10 = 0 then normDecAux (m / 10) k else (m, k + 1)

/-- The decimal `m / 10 ^ e` in normal form; two decimal literals denote the
same Python number exactly when their `Dec.make` normal forms are equal. -/
def Dec.make (m : Int) (e : Nat) : Dec :=
  let p := normDecAux m e
  ⟨p.1, p.2⟩

instance (n : Nat) : OfNat Dec n := ⟨⟨n, 0⟩⟩

/-- The rational value of a `Dec` (used only in specifications). -/
def Dec.val (d : Dec) : ℚ := (d.m : ℚ) / (10 : ℚ) ^ d.e

/-- A node identity: `none` is the reserved `'trunk'` key, `some q` a numeric
identity (Python int or float, both carried as `Dec`). -/
abbrev Ident := Option Dec

/-- Association-list lookup (Python dict `d[k]` / `k in d`). -/
def lookupA {α β : Type} [DecidableEq α] : List (α × β) → α → Option β
  | [], _ => none
  | (k', v) :: rest, k => if k' = k then some v else lookupA rest k

/-- Association-list update (Python dict `d[k] = v`): an existing key keeps
its position, a new key is appended. -/
def upsertA {α β : Type} [DecidableEq α] : List (α × β) → α → β → List (α × β)
  | [], k, v => [(k, v)]
  | (k', v') :: rest, k, v =>
      if k' = k then (k', v) :: rest else (k', v') :: upsertA rest k v

/-- Numeric value of a list of decimal digit characters. -/
def digitsToNat (ds : List Char) : Nat :=
  ds.foldl (fun a c => 10 * a + (c.toNat - 48)) 0

/-- The fractional continuation of an unsigned numeric literal. -/
def puFrac (ip1 fp1 fp2 : List Char) : Option (Nat × Nat × List Char) :=
  if ip1.isEmpty && fp1.isEmpty then none
  else some (digitsToNat (ip1 ++ fp1), fp1.length, fp2)

/-- The continuation of an unsigned numeric literal after its integer
digits. -/
def puTail (ip1 : List Char) : List Char → Option (Nat × Nat × List Char)
  | c :: t =>
      if c = '.' then puFrac ip1 (t.span Char.isDigit).1 (t.span Char.isDigit).2
      else if ip1.isEmpty then none
      else some (digitsToNat ip1, 0, c :: t)
  | [] => if ip1.isEmpty then none else some (digitsToNat ip1, 0, [])

/-- Parse an unsigned numeric literal (`digits[.digits]`, `digits.`, or
`.digits`) returning mantissa, number of fractional digits, and the rest. -/
def parseUnsigned (s : List Char) : Option (Nat × Nat × List Char) :=
  puTail (s.span Char.isDigit).1 (s.span Char.isDigit).2

/-- Parse a signed Python numeric literal (`-?` then an unsigned literal)
from the front of the text, returning the value and the rest.  This is the
literal form `eval` can see inside a topology-format mapping literal. -/
def parseNum? (s : List Char) : Option (Dec × List Char) :=
  match s with
  | c :: t =>
      if c = '-' then (parseUnsigned t).map (fun r => (Dec.make (-(r.1 : Int)) r.2.1, r.2.2))
      else (parseUnsigned (c :: t)).map (fun r => (Dec.make (r.1 : Int) r.2.1, r.2.2))
  | [] => none

/-- Python's `int(text)` builtin on a decimal string: optional surrounding
spaces, optional sign, one or more digits; anything else is a `ValueError`
(`none`). -/
def pyInt? (s : List Char) : Option Int :=
  let s1 := s.dropWhile (fun c => c = ' ')
  let sgn : Bool × List Char :=
    match s1 with
    | c :: t => if c = '-' then (true, t) else if c = '+' then (false, t) else (false, c :: t)
    | [] => (false, [])
  let dp := sgn.2.span Char.isDigit
  if dp.1.isEmpty then none
  else if (dp.2.dropWhile (fun c => c = ' ')).isEmpty then
    some (if sgn.1 then -(digitsToNat dp.1 : Int) else (digitsToNat dp.1 : Int))
  else none

/-- One mapping literal as produced by `eval("{%s}" % inner)`: keys and
values both numeric.  Duplicate keys follow Python dict-literal semantics
(last value wins, first position kept). -/
def evalEntriesF : Nat → List Char → List (Dec × Dec) → Except PyErr (List (Dec × Dec))
  | 0, _, _ => .error .synErr
  | f + 1, s, acc =>
      match parseNum? s with
      | none => .error .synErr
      | some (k, s1) =>
          match s1 with
          | c :: s2 =>
              if c = ':' then
                match parseNum? s2 with
                | none => .error .synErr
                | some (v, s3) =>
                    let acc' := upsertA acc k v
                    match s3 with
                    | [] => .ok acc'
                    | c' :: s4 => if c' = ',' then evalEntriesF f s4 acc' else .error .synErr
              else .error .synErr
          | [] => .error .synErr

/-- `eval("{%s}" % inner)` restricted to the mapping-literal grammar the
topology format produces; any other text is a `SyntaxError`. -/
def evalDict (inner : List Char) : Except PyErr (List (Dec × Dec)) :=
  if inner.isEmpty then .ok [] else evalEntriesF (inner.length + 1) inner []

/-- The first scan of `_parse_newick`: the running parenthesis depth, and its
maximum over the whole string (`max_level`). -/
def maxLevelAux : List Char → Int → Int → Int
  | [], _, m => m
  | c :: rest, cl, m =>
      let cl' := if c = '(' then cl + 1 else if c = ')' then cl - 1 else cl
      maxLevelAux rest cl' (max m cl')

/-- `max_level` of `_parse_newick`. -/
def maxLevel (s : List Char) : Int := maxLevelAux s 0 0

/-- The per-level scan of `_parse_newick`: record `(start, i)` for every `')'`
seen at depth `level`, where `start` is the most recent `'('` that brought the
depth up to `level`.  The `st` argument carries Python's `start` variable. -/
def findPairsAux (level : Int) : List Char → Nat → Int → Nat → List (Nat × Nat) →
    List (Nat × Nat)
  | [], _, _, _, acc => acc
  | c :: rest, i, cl, st, acc =>
      if c = '(' then
        let cl' := cl + 1
        findPairsAux level rest (i + 1) cl' (if cl' = level then i else st) acc
      else if c = ')' then
        findPairsAux level rest (i + 1) (cl - 1) st
          (if cl = level then acc ++ [(st, i)] else acc)
      else findPairsAux level rest (i + 1) cl st acc

/-- All matched spans whose opening parenthesis is at depth `level`. -/
def findPairs (s : List Char) (level : Int) : List (Nat × Nat) :=
  findPairsAux level s 0 0 0 []

/-- Python's `string.find(c, start)`: first index `≥ start` holding `c`,
else `-1`. -/
def pyFind (s : List Char) (c : Char) (start : Nat) : Int :=
  match (s.drop start).findIdx? (fun x => x = c) with
  | some j => ((start + j : Nat) : Int)
  | none => -1

/-- Python slice `s[a:b]` with `0 ≤ a ≤ b`. -/
def pySliceNN (s : List Char) (a b : Nat) : List Char := (s.take b).drop a

/-- Python slice `s[a:-1]`. -/
def pySliceToLast (s : List Char) (a : Nat) : List Char := (s.take (s.length - 1)).drop a

/-- The flat results table of `_parse_newick` (`items`): branch identity to
evaluated mapping literal. -/
abbrev Items := List (Ident × List (Dec × Dec))

/-- The body of `_parse_newick`'s `for pair in pairs[::-1]` loop: read the
identity token after the closing parenthesis (empty ⇒ trunk, else `int()`),
evaluate the text strictly between the parentheses as a mapping literal,
store it in `items`, and excise the span from the string. -/
def processPair (acc : List Char × Items) (pr : Nat × Nat) :
    Except PyErr (List Char × Items) := do
  let s := acc.1
  let st := pr.1
  let en := pr.2
  let colon := pyFind s ':' en
  let idTxt := if colon < 0 then pySliceToLast s (en + 1) else pySliceNN s (en + 1) colon.toNat
  let bid : Ident ←
    if idTxt.isEmpty then .ok none
    else
      match pyInt? idTxt with
      | some n => .ok (some (Dec.make n 0))
      | none => .error .valErr
  let d ← evalDict (pySliceNN s (st + 1) en)
  .ok (s.take st ++ s.drop (en + 1), upsertA acc.2 bid d)

/-- One iteration of the level loop: find all spans at this level and process
them in reverse (right-to-left) order. -/
def processLevel (acc : List Char × Items) (level : Int) :
    Except PyErr (List Char × Items) :=
  (findPairs acc.1 level).reverse.foldlM processPair acc

/-- Python's `range(ml, 0, -1)`. -/
def levelRange (ml : Int) : List Int := (List.range ml.toNat).map (fun i => ml - i)

/-- The nested representation produced by `_parse_newick`: each identity maps
either to a bare height (leaf) or to a `(sub-mapping, height)` pair
(branch). -/
inductive NVal where
  | num (h : Dec)
  | pair (sub : List (Dec × NVal)) (h : Dec)

/-- A nested mapping of identities to `NVal`s. -/
abbrev NDict := List (Dec × NVal)

/-- The `collect` phase of `_parse_newick`: for each entry of a mapping whose
key is itself in `items`, recursively collect that sub-mapping and replace the
entry's bare height by the `(sub-mapping, height)` pair.  Fuel models
CPython's recursion limit: it can only run out on a cyclic reference chain. -/
def collectD (items : Items) : Nat → List (Dec × Dec) → Except PyErr NDict
  | 0, _ => .error .recurErr
  | fuel + 1, d =>
      d.foldlM
        (fun acc kv =>
          match lookupA items (some kv.1) with
          | some sub => do
              let sub' ← collectD items fuel sub
              .ok (acc ++ [(kv.1, NVal.pair sub' kv.2)])
          | none => .ok (acc ++ [(kv.1, NVal.num kv.2)]))
        []

/-- `_parse_newick`, exposing the final `items` table alongside the collected
trunk mapping (the table's size is reused as a recursion bound downstream). -/
def parseNewickAux (s : List Char) : Except PyErr (Items × NDict) := do
  let fin ← (levelRange (maxLevel s)).foldlM processLevel (s, ([] : Items))
  match lookupA fin.2 none with
  | none => .error .keyErr
  | some trunkD => do
      let rep ← collectD fin.2 (fin.2.length + 1) trunkD
      .ok (fin.2, rep)

/-- `_parse_newick`: decode a topology string into the nested mapping rooted
at the trunk identity, or fail with the exception the Python code raises. -/
def parseNewick (s : List Char) : Except PyErr NDict :=
  (parseNewickAux s).map (fun p => p.2)

/-- Modelled from the spec: the Node entity of §3 (class `Structure` of
`structure.py`, which is not part of the module under study).  Its
constructor simply stores the owned coordinates, owned values, children and
identity it is given at the call sites in `_construct_tree`; a merge height
and a cached depth (`_level`) are not among the constructor arguments there,
so both start out unset.  Coordinates are row-major flattened pixel indices
(for the 1-D arrays of the concrete scenarios, the index itself). -/
inductive Structure where
  | mk : Dec → List Nat → List Dec → List Structure → Option Dec → Option Nat → Structure

/-- The node's identity (`self.idx`). -/
def Structure.idx : Structure → Dec
  | .mk i _ _ _ _ _ => i

/-- The pixel coordinates owned directly by the node. -/
def Structure.coords : Structure → List Nat
  | .mk _ ix _ _ _ _ => ix

/-- The data values owned directly by the node, parallel to `coords`. -/
def Structure.vals : Structure → List Dec
  | .mk _ _ vs _ _ _ => vs

/-- The node's children. -/
def Structure.children : Structure → List Structure
  | .mk _ _ _ cs _ _ => cs

/-- The node's merge height, if one was ever stored. -/
def Structure.mergeHeight : Structure → Option Dec
  | .mk _ _ _ _ mh _ => mh

/-- The node's cached depth (`self._level`), if one was ever stored. -/
def Structure.levelCache : Structure → Option Nat
  | .mk _ _ _ _ _ lv => lv

/-- `node._level = 0`, the depth-cache write applied to each trunk node. -/
def setLevel0 : Structure → Structure
  | .mk i ix vs cs mh _ => .mk i ix vs cs mh (some 0)

/-- The dendrogram assembled by `dendro_import_hdf5`: data array, label
array (`index_map`), the identity→node index (`nodes_dict`), and the list of
top-level nodes (`trunk`). -/
structure Dendrogram where
  nDim : Nat
  ddata : List Dec
  dlabels : List Int
  nodesDict : List (Dec × Structure)
  trunk : List Structure

/-- The aggregation state: `indices_by_node` and `flux_by_node`. -/
abbrev AggState := List (Dec × List Nat) × List (Dec × List Dec)

/-- One step of the aggregation loop of `dendro_import_hdf5`: at coordinate
`i` with label `v ≠ 0`, append the data value and the coordinate to the
accumulators of identity `v`, creating them on the first occurrence. -/
def aggStep (st : AggState) (v : Int) (x : Dec) (i : Nat) : AggState :=
  let k := Dec.make v 0
  match lookupA st.2 k, lookupA st.1 k with
  | some fs, some ixs => (upsertA st.1 k (ixs ++ [i]), upsertA st.2 k (fs ++ [x]))
  | _, _ => (upsertA st.1 k [i], upsertA st.2 k [x])

/-- The aggregation loop: traverse coordinates `i, i+1, …` (row-major order)
while `rem` coordinates remain, reading the label at each; a label array
shorter than the data array raises `IndexError` exactly where Python's
`index_map[coord]` would. -/
def aggAux (labels : List Int) (data : List Dec) :
    Nat → Nat → AggState → Except PyErr AggState
  | 0, _, st => .ok st
  | rem + 1, i, st =>
      match labels.get? i with
      | none => .error .idxErr
      | some v =>
          if v ≠ 0 then aggAux labels data rem (i + 1) (aggStep st v (data.getD i 0) i)
          else aggAux labels data rem (i + 1) st

/-- The whole aggregation pass over the data array. -/
def aggregate (labels : List Int) (data : List Dec) : Except PyErr AggState :=
  aggAux labels data data.length 0 ([], [])

/-- `_construct_tree`: walk one level of the nested representation, building
a leaf for each bare-height entry and a branch (with recursively built
children) for each pair entry.  Every identity's owned coordinates and
values are looked up in the aggregation output — for branches no less than
for leaves — raising `KeyError` when the identity never occurs in the label
array.  The "correct merge levels" block reads the first child's height into
a variable that is never used; it is kept here (as `_hdead`) because its
`itervalues().next()` raises `StopIteration` on an empty sub-mapping.  The
fuel is structural bookkeeping only: the caller passes more fuel than the
representation's nesting depth, so the `recurErr` case is unreachable
there. -/
def constructTree (ibn : List (Dec × List Nat)) (fbn : List (Dec × List Dec)) :
    Nat → NDict → List (Dec × Structure) →
    Except PyErr (List Structure × List (Dec × Structure))
  | 0, _, _ => .error .recurErr
  | fuel + 1, rep, nd0 =>
      rep.foldlM
        (fun (acc : List Structure × List (Dec × Structure)) kv => do
          let nodes := acc.1
          let nd := acc.2
          let idx := kv.1
          let nodeIndices ←
            match lookupA ibn idx with
            | some ixs => Except.ok ixs
            | none => Except.error PyErr.keyErr
          let f ←
            match lookupA fbn idx with
            | some fs => Except.ok fs
            | none => Except.error PyErr.keyErr
          match kv.2 with
          | .pair subRep _h => do
              let sub ← constructTree ibn fbn fuel subRep nd
              let nd1 := sub.1.foldl (fun m n => upsertA m n.idx n) sub.2
              let b := Structure.mk idx nodeIndices f sub.1 none none
              match subRep with
              | [] => .error .stopIter
              | (_, v0) :: _ =>
                  let _hdead : Dec := match v0 with | .pair _ hh => hh | .num hh => hh
                  .ok (nodes ++ [b], upsertA nd1 idx b)
          | .num _h =>
              let l := Structure.mk idx nodeIndices f [] none none
              .ok (nodes ++ [l], upsertA nd idx l))
        ([], nd0)

/-- `dendro_import_hdf5`, applied to the already-unpacked file contents
(dimensionality attribute, newick text, `index_map` labels, `data`): run the
aggregation pass, parse the topology string, build the tree, and cache depth
0 on every trunk node.  In Python the trunk nodes are the same objects as
the corresponding `nodes_dict` entries; in this functional model the depth
write is visible on the `trunk` list. -/
def dendroImport (nDim : Nat) (newick : List Char) (labels : List Int)
    (data : List Dec) : Except PyErr Dendrogram := do
  let agg ← aggregate labels data
  let pf ← parseNewickAux newick
  let built ← constructTree agg.1 agg.2 (pf.1.length + 2) pf.2 []
  .ok ⟨nDim, data, labels, built.2, built.1.map setLevel0⟩

/-- All identities occurring anywhere in a nested representation, to nesting
depth `fuel` (with enough fuel, all of them). -/
def deepKeysF : Nat → NDict → List Dec
  | 0, _ => []
  | f + 1, d =>
      d.foldr
        (fun kv acc =>
          kv.1 :: (match kv.2 with | .num _ => [] | .pair sub _ => deepKeysF f sub) ++ acc)
        []

/-- `true` when the string has an opening parenthesis that is never matched
by a later closing one (scan with a depth counter clamped at zero). -/
def hasUnmatchedOpen (s : List Char) : Bool :=
  0 < s.foldl
    (fun (cl : Nat) c => if c = '(' then cl + 1 else if c = ')' then cl - 1 else cl) 0

/-- Concrete scenario A of the spec: two root leaves, no nesting. -/
def sA : List Char := ("(1:2.0,2:3.0):").toList

/-- Scenario A label array. -/
def labA : List Int := [1, 1, 0, 2, 2, 2]

/-- Scenario A data array. -/
def datA : List Dec := [10, 20, 30, 40, 50, 60]

/-- The leaf with identity 1 built from scenario A. -/
def leafA1 : Structure := .mk 1 [0, 1] [10, 20] [] none none

/-- The leaf with identity 2 built from scenario A. -/
def leafA2 : Structure := .mk 2 [3, 4, 5] [40, 50, 60] [] none none

/-- The dendrogram scenario A decodes to. -/
def dendA : Dendrogram :=
  ⟨1, datA, labA, [(1, leafA1), (2, leafA2)], [setLevel0 leafA1, setLevel0 leafA2]⟩

/-- Concrete scenario B of the spec, in the branch format the code actually
reads: the identity follows the closing parenthesis directly. -/
def sB : List Char := ("((1:1.0,2:1.5)3:4.0):").toList

/-- Scenario B topology string exactly as the spec prints it, with a colon
between the closing parenthesis and the branch identity. -/
def sBspec : List Char := ("((1:1.0,2:1.5):3:4.0):").toList

/-- Scenario B label array as the spec gives it (no pixel labeled 3). -/
def labBspec : List Int := [1, 1, 2, 2]

/-- A matching data array for `labBspec`. -/
def datBspec : List Dec := [1, 2, 3, 4]

/-- Scenario B label array extended so the branch identity 3 also labels a
pixel, which `_construct_tree` requires. -/
def labB : List Int := [1, 1, 2, 2, 3]

/-- A matching data array for `labB`. -/
def datB : List Dec := [1, 2, 3, 4, 5]

/-- The leaf with identity 1 built from scenario B. -/
def leafB1 : Structure := .mk 1 [0, 1] [1, 2] [] none none

/-- The leaf with identity 2 built from scenario B. -/
def leafB2 : Structure := .mk 2 [2, 3] [3, 4] [] none none

/-- The branch with identity 3 built from scenario B: it owns the pixel
labeled 3, and no merge height is ever stored on it. -/
def branchB3 : Structure := .mk 3 [4] [5] [leafB1, leafB2] none none

/-- The dendrogram scenario B (in code format, with extended labels)
decodes to. -/
def dendB : Dendrogram :=
  ⟨1, datB, labB, [(1, leafB1), (2, leafB2), (3, branchB3)], [setLevel0 branchB3]⟩

/-- The aggregation state scenario B produces. -/
def aggB : AggState :=
  ([(1, [0, 1]), (2, [2, 3]), (3, [4])], [(1, [1, 2]), (2, [3, 4]), (3, [5])])

/-- A topology listing only leaf 1, used with a label array that also
contains the value 2: the label 2 has no topology entry. -/
def sDrop : List Char := ("(1:2.0):").toList

/-- Label array with an extra positive value 2 absent from `sDrop`. -/
def labDrop : List Int := [1, 2]

/-- A matching data array for `labDrop`. -/
def datDrop : List Dec := [5, 6]

/-- A topology string with an unmatched opening parenthesis that the code
nevertheless decodes without complaint. -/
def sUnb : List Char := ("((1:2.0):").toList

/-- A topology string with an unmatched opening parenthesis and no closing
parenthesis at all. -/
def sOpen : List Char := ("(1:2.0").toList

/-- The coordinates with label `v` among the first `n` row-major
coordinates, in traversal order (the reference value for the aggregation
pass). -/
def labelCoords (labels : List Int) (n : Nat) (v : Int) : List Nat :=
  (List.range n).filter (fun i => labels.get? i = some v)

/-- `some xs` for a non-empty list, `none` for the empty one: the shape of an
accumulator lookup after aggregation. -/
def neOpt {α : Type} (xs : List α) : Option (List α) :=
  if xs.isEmpty then none else some xs

/-- The specification of the aggregation pass after traversing the first
`i` coordinates: the accumulated coordinates of each non-zero label value
`v` are exactly the coordinates labeled `v` so far, in traversal order, and
the accumulated values are the data values at those coordinates, parallel to
them; the label 0 owns nothing. -/
def AggSpec (l : List Int) (dat : List Dec) (i : Nat) (st : AggState) : Prop :=
  ∀ v : Int,
    lookupA st.1 (Dec.make v 0) = (if v = 0 then none else neOpt (labelCoords l i v)) ∧
    lookupA st.2 (Dec.make v 0) =
      (if v = 0 then none else neOpt ((labelCoords l i v).map (fun j => dat.getD j 0)))

/-- The aggregation state scenario A produces. -/
def aggApair : AggState :=
  ([(1, [0, 1]), (2, [3, 4, 5])], [(1, [10, 20]), (2, [40, 50, 60])])

/-- The leaf built from the `sDrop` scenario. -/
def leafDrop : Structure := .mk 1 [0] [5] [] none none

/-- The dendrogram the `sDrop` scenario decodes to (label 2's pixel owned by
nobody). -/
def dendDrop : Dendrogram :=
  ⟨1, datDrop, labDrop, [(1, leafDrop)], [setLevel0 leafDrop]⟩

/-- The parser output for `sDrop`: items table and collected trunk
mapping. -/
def pfDrop : Items × NDict := ([(none, [(1, 2)])], [(1, NVal.num 2)])

/-- Whether a decode attempt returned a dendrogram (`true`) or raised
(`false`). -/
def exIsOk {ε α : Type} : Except ε α → Bool
  | .ok _ => true
  | .error _ => false

/-! ### Round-trip layer: the spec-modelled encoder and its segment
decomposition (claim C4) -/

def natDigitsAux : Nat → Nat → List Char
  | 0, _ => []
  | f + 1, n => if n < 10 then [Nat.digitChar n] else natDigitsAux f (n / 10) ++ [Nat.digitChar (n % 10)]

def natDigits (n : Nat) : List Char := natDigitsAux (n + 1) n

def padDigitsAux : Nat → Nat → List Char
  | 0, _ => []
  | k + 1, n => padDigitsAux k (n / 10) ++ [Nat.digitChar (n % 10)]

def decTok (h : Dec) : List Char :=
  if h.e = 0 then natDigits h.m.toNat
  else natDigits (h.m.toNat / 10 ^ h.e) ++ '.' :: padDigitsAux h.e h.m.toNat

/-- The top-level heights of a nested mapping: what `eval` sees for a span
whose nested groups have already been excised. -/
def shallow (d : NDict) : List (Dec × Dec) :=
  d.map (fun kv => (kv.1, match kv.2 with | .num h => h | .pair _ h => h))

/-- Comma-join of already-encoded entries. -/
def joinComma : List (List Char) → List Char
  | [] => []
  | [x] => x
  | x :: y :: xs => x ++ ',' :: joinComma (y :: xs)

/-- Modelled from the spec: `to_newick`, the encoder (absent from the module
under study), as the exact mirror of the decode path: a leaf entry is
`identity:height`, a branch entry is `(entries)identity:height`, and the
whole topology is `(entries):` — the identity token directly follows the
closing parenthesis, which is the shape `_parse_newick` reads back.  Numbers
are printed as unsigned decimal literals.  The fuel bounds the nesting
depth; `ndOkF` guarantees it is never exhausted. -/
def encEntryF : Nat → Dec × NVal → List Char
  | 0, _ => []
  | F + 1, kv =>
      match kv.2 with
      | .num h => natDigits kv.1.m.toNat ++ ':' :: decTok h
      | .pair sub h =>
          '(' :: joinComma (sub.map (encEntryF F)) ++
            ')' :: (natDigits kv.1.m.toNat ++ ':' :: decTok h)

/-- The encoded topology string of a whole nested mapping. -/
def encodeTrunkF (F : Nat) (d : NDict) : List Char :=
  '(' :: joinComma (d.map (encEntryF F)) ++ [')', ':']

/-- Structural well-formedness of a nested mapping, fuel-bounded: every
identity is a non-negative integer, every height a non-negative normalized
decimal. -/
def ndOkF : Nat → NDict → Bool
  | 0, _ => false
  | F + 1, d =>
      d.all fun kv =>
        decide (0 ≤ kv.1.m) && decide (kv.1.e = 0) &&
          match kv.2 with
          | .num h => decide (Dec.make h.m h.e = h) && decide (0 ≤ h.m)
          | .pair sub h => decide (Dec.make h.m h.e = h) && decide (0 ≤ h.m) && ndOkF F sub

/-- A well-formed nested mapping: structurally well-formed within the fuel
bound, with globally distinct identities. -/
def NDGood (F : Nat) (d : NDict) : Prop := ndOkF F d = true ∧ (deepKeysF F d).Nodup

/-- The height carried by a nested-mapping value. -/
def hgt : NVal → Dec
  | .num h => h
  | .pair _ h => h

/-- The flat text of one `identity:height` entry. -/
def flatEnc (kv : Dec × Dec) : List Char :=
  natDigits kv.1.m.toNat ++ ':' :: decTok kv.2

/-- A segment of a topology string at one resolution level: plain text, or a
parenthesized group carrying its identity, height and flat interior
entries. -/
inductive Seg where
  | txt (cs : List Char)
  | sg (n : Nat) (h : Dec) (es : List (Dec × Dec))

/-- The text of a segment. -/
def segStr : Seg → List Char
  | .txt cs => cs
  | .sg n h es => '(' :: joinComma (es.map flatEnc) ++ ')' :: flatEnc (⟨(n : Int), 0⟩, h)

/-- The text a segment leaves behind once its group is excised. -/
def segFlat : Seg → List Char
  | .txt cs => cs
  | .sg n h _ => flatEnc (⟨(n : Int), 0⟩, h)

/-- The text of a whole segment list. -/
def renderL : List Seg → List Char
  | [] => []
  | s :: ss => segStr s ++ renderL ss

/-- The text of a whole segment list with every group excised. -/
def renderF : List Seg → List Char
  | [] => []
  | s :: ss => segFlat s ++ renderF ss

/-- Comma-join a list of segment lists. -/
def joinSegs : List (List Seg) → List Seg
  | [] => []
  | [x] => x
  | x :: y :: xs => x ++ .txt [','] :: joinSegs (y :: xs)

/-- Decompose the encoding of one entry into segments, marking as groups the
branches sitting `t` levels down (`t = 1`: this entry itself, if a branch). -/
def segsE : Nat → Nat → Dec × NVal → List Seg
  | 0, _, _ => []
  | F + 1, t, kv =>
      match kv.2 with
      | .num h => [.txt (flatEnc (kv.1, h))]
      | .pair sub h =>
          match t with
          | 0 => [.txt (flatEnc (kv.1, h))]
          | 1 => [.sg kv.1.m.toNat h (shallow sub)]
          | t' + 2 =>
              .txt ['('] :: joinSegs (sub.map (segsE F (t' + 1))) ++
                [.txt (')' :: flatEnc (kv.1, h))]

/-- Decompose the encoding of a nested mapping into segments. -/
def segsD (F t : Nat) (d : NDict) : List Seg := joinSegs (d.map (segsE F t))

/-- The `(start, end)` index pairs of the groups of a segment list laid out
from index `i`. -/
def pairsSegs : Nat → List Seg → List (Nat × Nat)
  | _, [] => []
  | i, .txt cs :: ss => pairsSegs (i + cs.length) ss
  | i, .sg n h es :: ss =>
      (i, i + (joinComma (es.map flatEnc)).length + 1) ::
        pairsSegs (i + (segStr (.sg n h es)).length) ss

/-- The `items` rows a segment list contributes, in left-to-right order. -/
def itemsSegs : List Seg → Items
  | [] => []
  | .txt _ :: ss => itemsSegs ss
  | .sg n _ es :: ss => (some ⟨(n : Int), 0⟩, es) :: itemsSegs ss

/-- Group-nesting depth of a nested mapping (`0` when flat). -/
def gdF : Nat → NDict → Nat
  | 0, _ => 0
  | F + 1, d =>
      d.foldr
        (fun kv a => max a (match kv.2 with | .num _ => 0 | .pair sub _ => gdF F sub + 1)) 0

/-- `[k, k-1, …, 1]` as integers. -/
def downFrom : Nat → List Int
  | 0 => []
  | k + 1 => ((k + 1 : Nat) : Int) :: downFrom k

/-- Keys of the leaf entries of a nested mapping, at every depth. -/
def leafKeysF : Nat → NDict → List Dec
  | 0, _ => []
  | F + 1, d =>
      d.foldr
        (fun kv acc =>
          (match kv.2 with | .num _ => [kv.1] | .pair sub _ => leafKeysF F sub) ++ acc) []

/-- Keys of the branch entries of a nested mapping, at every depth. -/
def branchKeysF : Nat → NDict → List Dec
  | 0, _ => []
  | F + 1, d =>
      d.foldr
        (fun kv acc =>
          (match kv.2 with | .num _ => [] | .pair sub _ => kv.1 :: branchKeysF F sub) ++ acc) []

/-- The `items` rows of every branch of a nested mapping, depth-first in
dictionary order. -/
def branchItems : Nat → NDict → Items
  | 0, _ => []
  | F + 1, d =>
      d.foldr
        (fun kv acc =>
          (match kv.2 with
           | .num _ => []
           | .pair sub _ => (some kv.1, shallow sub) :: branchItems F sub) ++ acc) []

/-- The `items` rows recorded while processing targets `k, k-1, …, 1`. -/
def itemsAll : Nat → Nat → NDict → Items
  | _, 0, _ => []
  | F, k + 1, d => (itemsSegs (segsD F (k + 1) d)).reverse ++ itemsAll F k d

/-- One step of the parenthesis-depth scan. -/
def dstep (c : Char) (cl : Int) : Int :=
  if c = '(' then cl + 1 else if c = ')' then cl - 1 else cl

/-- Final depth after scanning a chunk from depth `cl`. -/
def dFin : List Char → Int → Int
  | [], cl => cl
  | c :: r, cl => dFin r (dstep c cl)

/-- Maximum depth over a scan of a chunk from depth `cl` (the starting depth
included). -/
def dMax : List Char → Int → Int
  | [], cl => cl
  | c :: r, cl => max cl (dMax r (dstep c cl))

/-- The full state of the per-level span scan of `_parse_newick`:
`(i, current_level, start, pairs)`. -/
def scanPairs (level : Int) : List Char → Nat × Int × Nat × List (Nat × Nat) →
    Nat × Int × Nat × List (Nat × Nat)
  | [], s => s
  | c :: rest, (i, cl, st, acc) =>
      if c = '(' then
        scanPairs level rest (i + 1, cl + 1, if cl + 1 = level then i else st, acc)
      else if c = ')' then
        scanPairs level rest (i + 1, cl - 1, st, if cl = level then acc ++ [(st, i)] else acc)
      else scanPairs level rest (i + 1, cl, st, acc)

/-- Chunks without parentheses. -/
def NoParen (cs : List Char) : Prop := ∀ c ∈ cs, c ≠ '(' ∧ c ≠ ')'

/-- Segment lists of plain parenthesis-free text only. -/
def AllTxtNP (ss : List Seg) : Prop := ∀ s ∈ ss, ∃ T, s = .txt T ∧ NoParen T

/-- A group segment whose interior evaluates cleanly: integer keys, normal
non-negative heights, distinct keys. -/
def sgOK : Seg → Prop
  | .txt _ => True
  | .sg _ _ es =>
      (∀ kv ∈ es, 0 ≤ kv.1.m ∧ kv.1.e = 0 ∧ Dec.make kv.2.m kv.2.e = kv.2 ∧ 0 ≤ kv.2.m)
        ∧ (es.map Prod.fst).Nodup

/-- The `items` rows one entry contributes over targets `k, k-1, …, 1`. -/
def itemsAllE : Nat → Nat → Dec × NVal → Items
  | _, 0, _ => []
  | F, k + 1, kv => (itemsSegs (segsE F (k + 1) kv)).reverse ++ itemsAllE F k kv

/-- A minimal branch topology string following the grammar of the spec
literally (a branch entry is `group ":" identity`): inner group `(1:2.0)`,
colon, identity `3`, height `4.5`, wrapped as the trunk group. -/
def sC4spec : List Char := ("((1:2.0):3:4.5):").toList

/-- The nested mapping of the amended-C4 witness: branch 3 at height 4
merging leaves 1 (height 1) and 2 (height 1.5). -/
def dC4 : NDict :=
  [(⟨3, 0⟩, .pair [(⟨1, 0⟩, .num ⟨1, 0⟩), (⟨2, 0⟩, .num ⟨15, 1⟩)] ⟨4, 0⟩)]

/-! ## Helper lemmas -/

theorem exBind_ok {ε α β : Type} (x : α) (f : α → Except ε β) :
    (Except.ok x >>= f) = f x := rfl

theorem exBind_err {ε α β : Type} (e : ε) (f : α → Except ε β) :
    ((Except.error e : Except ε α) >>= f) = .error e := rfl

/-- Invariant preservation along a monadic fold that succeeds. -/
theorem foldlM_inv {α β : Type} {P : β → Prop} {step : β → α → Except PyErr β} :
    ∀ (l : List α) (init out : β),
      (∀ acc x, x ∈ l → P acc → ∀ r, step acc x = .ok r → P r) →
      P init → l.foldlM step init = .ok out → P out := by
  intro l
  induction l with
  | nil =>
      intro init out _ hP hfold
      simp only [List.foldlM_nil] at hfold
      cases hfold
      exact hP
  | cons x xs ih =>
      intro init out hstep hP hfold
      rw [List.foldlM_cons] at hfold
      cases hx : step init x with
      | error e => rw [hx, exBind_err] at hfold; exact Except.noConfusion hfold
      | ok b =>
          rw [hx, exBind_ok] at hfold
          exact ih b out (fun acc y hy => hstep acc y (List.mem_cons_of_mem _ hy))
            (hstep init x (List.mem_cons_self _ _) hP b hx) hfold

/-- A successful `dendro_import_hdf5` run decomposes into a successful
aggregation, parse, and construction, and assembles exactly their outputs. -/
theorem dendroImport_ok_parts {nd : Nat} {nwk : List Char} {l : List Int} {dat : List Dec}
    {D : Dendrogram} (h : dendroImport nd nwk l dat = .ok D) :
    ∃ agg pf built, aggregate l dat = .ok agg ∧ parseNewickAux nwk = .ok pf ∧
      constructTree agg.1 agg.2 (pf.1.length + 2) pf.2 [] = .ok built ∧
      D = ⟨nd, dat, l, built.2, built.1.map setLevel0⟩ := by
  unfold dendroImport at h
  cases hA : aggregate l dat with
  | error e => rw [hA, exBind_err] at h; exact Except.noConfusion h
  | ok agg =>
      rw [hA, exBind_ok] at h
      cases hP : parseNewickAux nwk with
      | error e => rw [hP, exBind_err] at h; exact Except.noConfusion h
      | ok pf =>
          rw [hP, exBind_ok] at h
          cases hC : constructTree agg.1 agg.2 (pf.1.length + 2) pf.2 [] with
          | error e => rw [hC, exBind_err] at h; exact Except.noConfusion h
          | ok built =>
              rw [hC, exBind_ok] at h
              injection h with h'
              exact ⟨agg, pf, built, rfl, rfl, hC, h'.symm⟩

/-! ## Claim theorems -/

/-- C1, counterexample: decoding the topology string exactly as the spec
prints it — `"((1:1.0,2:1.5):3:4.0):"`, with a colon between `)` and the
branch identity — together with labels `[1,1,2,2]` does not succeed: the
inner excision reads an empty identity (storing the children under `trunk`),
and the next level hands `eval` the text `{:3:4.0}`, a `SyntaxError`. -/
theorem c1_counterexample :
    dendroImport 1 sBspec labBspec datBspec = .error .synErr ∧
    parseNewick sBspec = .error .synErr := ⟨rfl, rfl⟩

/-- C1, amended: with the branch format the code actually reads
(`"((1:1.0,2:1.5)3:4.0):"`) and a label array `[1,1,2,2,3]` in which the
branch identity 3 also labels a pixel (otherwise `_construct_tree` raises
`KeyError`), decode succeeds and produces exactly one root node: the branch
with identity 3, whose children are the leaves 1 (owning coordinates 0, 1)
and 2 (owning coordinates 2, 3).  The decoded topology does pair identity 3
with height 4.0, but the constructed branch's merge height is never set —
the code reads the first child's height into a dead variable and passes no
height to the node constructor. -/
theorem c1_amended_thm :
    dendroImport 1 sB labB datB = .ok dendB ∧
    parseNewick sB = .ok [(3, .pair [(1, .num 1), (2, .num (Dec.make 15 1))] 4)] ∧
    dendB.trunk = [setLevel0 branchB3] ∧
    branchB3.children = [leafB1, leafB2] ∧
    leafB1.coords = [0, 1] ∧ leafB2.coords = [2, 3] ∧
    branchB3.mergeHeight = none :=
  ⟨rfl, rfl, rfl, rfl, rfl, rfl, rfl⟩

/-- C2, counterexample: a successful decode in which the branch node owns
pixels.  `_construct_tree` passes `indices_by_node[idx]` to every node it
builds, branches included, so the scenario-B branch owns the coordinate
labeled 3 — its `ownedCoordinates` is `[4]`, not empty. -/
theorem c2_counterexample :
    dendroImport 1 sB labB datB = .ok dendB ∧
    dendB.trunk = [setLevel0 branchB3] ∧
    (setLevel0 branchB3).children.length = 2 ∧
    (setLevel0 branchB3).coords = [4] :=
  ⟨rfl, rfl, rfl, rfl⟩

/-- C3, counterexample: labels `[1,2]` contain the positive value 2, which
never appears in the topology `"(1:2.0):"`; decode nevertheless succeeds,
building a single leaf 1 that owns only coordinate 0 — the pixel labeled 2
is silently dropped, and no `ConsistencyError` (or any error) is raised. -/
theorem c3_counterexample :
    dendroImport 1 sDrop labDrop datDrop =
      .ok ⟨1, datDrop, labDrop, [(1, .mk 1 [0] [5] [] none none)],
        [.mk 1 [0] [5] [] none (some 0)]⟩ ∧
    labDrop.get? 1 = some 2 ∧
    parseNewick sDrop = .ok [(1, .num 2)] :=
  ⟨rfl, rfl, rfl⟩

/-- C6, counterexample: `"((1:2.0):"` has an unmatched opening parenthesis,
yet decode succeeds and returns a tree: the level-2 span `(1:2.0)` is
excised (its identity reads as empty, i.e. trunk), the leftover unmatched
`'('` produces no pair at level 1, and the trunk entry stored at level 2 is
collected as usual. -/
theorem c6_counterexample :
    hasUnmatchedOpen sUnb = true ∧
    dendroImport 1 sUnb [1] [7] =
      .ok ⟨1, [7], [1], [(1, .mk 1 [0] [7] [] none none)],
        [.mk 1 [0] [7] [] none (some 0)]⟩ :=
  ⟨rfl, rfl⟩

/-- C7: after a successful decode, every node directly listed in the trunk
has its cached depth set to 0 (`node._level = 0`). -/
theorem c7_thm : ∀ nd nwk l dat D, dendroImport nd nwk l dat = .ok D →
    ∀ n ∈ D.trunk, n.levelCache = some 0 := by
  intro nd nwk l dat D h n hn
  obtain ⟨agg, pf, built, _, _, _, rfl⟩ := dendroImport_ok_parts h
  obtain ⟨m, _, rfl⟩ := List.mem_map.1 hn
  cases m with
  | mk i ix vs cs mh lv => rfl

/-- Witness for C7 at scenario A. -/
theorem c7_witness :
    dendroImport 1 sA labA datA = .ok dendA ∧ (setLevel0 leafA1).levelCache = some 0 :=
  ⟨rfl, c7_thm 1 sA labA datA dendA rfl (setLevel0 leafA1)
    (show setLevel0 leafA1 ∈ dendA.trunk from List.mem_cons_self _ _)⟩

/-- C8: the code cannot round-trip merge heights, because the tree builder
drops every decoded height: the comment block in `_construct_tree` announces
a merge-level correction, reads the first child's height into a local
variable, and never uses it, and `Structure` is constructed without any
height argument.  At the scenario-B input the decoded representation pairs
identity 3 with height 4.0 (and the leaves with 1.0 and 1.5), yet every
constructed node's merge height is unset, so no re-encoding of the built
tree can reproduce the heights. -/
theorem c8_heights_dropped :
    parseNewick sB = .ok [(3, .pair [(1, .num 1), (2, .num (Dec.make 15 1))] 4)] ∧
    dendroImport 1 sB labB datB = .ok dendB ∧
    dendB.nodesDict.map (fun p => p.2.mergeHeight) = [none, none, none] ∧
    dendB.trunk.map Structure.mergeHeight = [none] :=
  ⟨rfl, rfl, rfl, rfl⟩

/-- C9: decode is deterministic — two runs on the same topology string,
labels and data yield equal dendrograms, in particular identical
`nodes_dict` child sequences. -/
theorem c9_thm : ∀ nd nwk l dat D D', dendroImport nd nwk l dat = .ok D →
    dendroImport nd nwk l dat = .ok D' →
    D = D' ∧ D.trunk = D'.trunk ∧
      D.nodesDict.map (fun p => p.2.children) = D'.nodesDict.map (fun p => p.2.children) := by
  intro nd nwk l dat D D' h h'
  rw [h] at h'
  injection h' with h''
  exact ⟨h'', by rw [h''], by rw [h'']⟩

/-- Witness for C9 at scenario A. -/
theorem c9_witness :
    dendroImport 1 sA labA datA = .ok dendA ∧ dendA = dendA :=
  ⟨rfl, (c9_thm 1 sA labA datA dendA dendA rfl rfl).1⟩

/-- Without `'('` the depth counter never rises, so `max_level` keeps its
starting value. -/
theorem maxLevelAux_no_open : ∀ (s : List Char) (cl m : Int),
    (∀ c ∈ s, c ≠ '(') → cl ≤ m → maxLevelAux s cl m = m := by
  intro s
  induction s with
  | nil => intro cl m _ _; rfl
  | cons c rest ih =>
      intro cl m hno hcl
      have hc : c ≠ '(' := hno c (List.mem_cons_self _ _)
      have hrest : ∀ x ∈ rest, x ≠ '(' := fun x hx => hno x (List.mem_cons_of_mem _ hx)
      show maxLevelAux rest (if c = '(' then cl + 1 else if c = ')' then cl - 1 else cl)
          (max m (if c = '(' then cl + 1 else if c = ')' then cl - 1 else cl)) = m
      rw [if_neg hc]
      by_cases hcp : c = ')'
      · rw [if_pos hcp, max_eq_left (by omega)]
        exact ih _ _ hrest (by omega)
      · rw [if_neg hcp, max_eq_left hcl]
        exact ih _ _ hrest hcl

/-- A string with no `'('` has `max_level = 0`. -/
theorem maxLevel_no_open (s : List Char) (h : ∀ c ∈ s, c ≠ '(') : maxLevel s = 0 :=
  maxLevelAux_no_open s 0 0 h le_rfl

/-- Without `')'` the per-level scan records no pairs at all. -/
theorem findPairsAux_no_close (lv : Int) : ∀ (s : List Char) (i : Nat) (cl : Int) (st : Nat)
    (acc : List (Nat × Nat)), (∀ c ∈ s, c ≠ ')') → findPairsAux lv s i cl st acc = acc := by
  intro s
  induction s with
  | nil => intro i cl st acc _; rfl
  | cons c rest ih =>
      intro i cl st acc hno
      have hc : c ≠ ')' := hno c (List.mem_cons_self _ _)
      have hrest : ∀ x ∈ rest, x ≠ ')' := fun x hx => hno x (List.mem_cons_of_mem _ hx)
      by_cases hop : c = '('
      · show findPairsAux lv (c :: rest) i cl st acc = acc
        unfold findPairsAux
        rw [if_pos hop]
        exact ih _ _ _ _ hrest
      · show findPairsAux lv (c :: rest) i cl st acc = acc
        unfold findPairsAux
        rw [if_neg hop, if_neg hc]
        exact ih _ _ _ _ hrest

/-- Without `')'` a level iteration leaves the string and the table
untouched. -/
theorem processLevel_no_close {s : List Char} {items : Items} (lv : Int)
    (h : ∀ c ∈ s, c ≠ ')') : processLevel (s, items) lv = .ok (s, items) := by
  unfold processLevel findPairs
  rw [findPairsAux_no_close lv s 0 0 0 [] h]
  rfl

/-- Without `')'` the whole level loop is inert. -/
theorem levelFold_no_close {s : List Char} {items : Items}
    (h : ∀ c ∈ s, c ≠ ')') : ∀ (lvs : List Int),
    lvs.foldlM processLevel (s, items) = .ok (s, items) := by
  intro lvs
  induction lvs with
  | nil => rfl
  | cons lv rest ih =>
      rw [List.foldlM_cons, processLevel_no_close lv h, exBind_ok]
      exact ih

/-- A topology string with no closing parenthesis at all never stores a
trunk entry, so `_parse_newick` ends in `KeyError`. -/
theorem parseNewick_no_close {s : List Char} (h : ∀ c ∈ s, c ≠ ')') :
    parseNewickAux s = .error .keyErr := by
  unfold parseNewickAux
  rw [levelFold_no_close h, exBind_ok]
  rfl

/-- A topology string with no opening parenthesis has `max_level = 0`, the
level loop never runs, and `_parse_newick` ends in `KeyError`. -/
theorem parseNewick_no_open {s : List Char} (h : ∀ c ∈ s, c ≠ '(') :
    parseNewickAux s = .error .keyErr := by
  unfold parseNewickAux
  rw [maxLevel_no_open s h]
  rfl

/-- A parse failure makes the whole import fail. -/
theorem dendroImport_parse_err {nwk : List Char} {e : PyErr}
    (h : parseNewickAux nwk = .error e) :
    ∀ (nd : Nat) (l : List Int) (dat : List Dec),
      exIsOk (dendroImport nd nwk l dat) = false := by
  intro nd l dat
  unfold dendroImport
  cases hA : aggregate l dat with
  | error e' => rw [exBind_err]; rfl
  | ok agg => rw [exBind_ok, h, exBind_err]; rfl

/-- C10: for every input string containing no `'('` at all (the empty string
included), `_parse_newick` raises: the level loop never executes, nothing is
ever stored under the reserved trunk identity, and the final lookup of the
trunk mapping fails with `KeyError`; consequently no dendrogram is
returned. -/
theorem c10_thm : ∀ (s : List Char) (nd : Nat) (l : List Int) (dat : List Dec),
    (∀ c ∈ s, c ≠ '(') →
    parseNewick s = .error .keyErr ∧ exIsOk (dendroImport nd s l dat) = false := by
  intro s nd l dat h
  have hp := parseNewick_no_open h
  refine ⟨?_, dendroImport_parse_err hp nd l dat⟩
  unfold parseNewick
  rw [hp]
  rfl

/-- Witness for C10 at the concrete parenthesis-free string `"1:2.0"`. -/
theorem c10_witness :
    parseNewick (("1:2.0").toList) = .error .keyErr ∧
      exIsOk (dendroImport 1 (("1:2.0").toList) [1] [5]) = false :=
  c10_thm (("1:2.0").toList) 1 [1] [5] (by decide)

/-- C6, amended: decode does not in general reject unbalanced parentheses
(see the counterexample for a string with an unmatched `'('` that decodes
successfully); what does hold is that a string with an opening parenthesis
and no closing one at all never forms a trunk entry, so `_parse_newick`
fails with `KeyError` before any node is constructed and no partial tree is
returned. -/
theorem c6_amended_thm : ∀ (s : List Char) (nd : Nat) (l : List Int) (dat : List Dec),
    '(' ∈ s → (∀ c ∈ s, c ≠ ')') →
    parseNewick s = .error .keyErr ∧ exIsOk (dendroImport nd s l dat) = false := by
  intro s nd l dat _ h
  have hp := parseNewick_no_close h
  refine ⟨?_, dendroImport_parse_err hp nd l dat⟩
  unfold parseNewick
  rw [hp]
  rfl

/-- Witness for the amended C6 at the concrete string `"(1:2.0"`. -/
theorem c6_amended_witness :
    parseNewick sOpen = .error .keyErr ∧ exIsOk (dendroImport 1 sOpen [1] [5]) = false :=
  c6_amended_thm sOpen 1 [1] [5] (by decide) (by decide)

/-- Unfolding equation for `lookupA` on a cons cell. -/
theorem lookupA_cons {α β : Type} [DecidableEq α] (k' : α) (v' : β)
    (rest : List (α × β)) (k : α) :
    lookupA ((k', v') :: rest) k = if k' = k then some v' else lookupA rest k := rfl

/-- Unfolding equation for `upsertA` on a cons cell. -/
theorem upsertA_cons {α β : Type} [DecidableEq α] (k' : α) (v' : β)
    (rest : List (α × β)) (k : α) (v : β) :
    upsertA ((k', v') :: rest) k v =
      if k' = k then (k', v) :: rest else (k', v') :: upsertA rest k v := rfl

/-- A successful lookup points at an entry of the list. -/
theorem lookupA_mem {α β : Type} [DecidableEq α] :
    ∀ (xs : List (α × β)) (k : α) (v : β), lookupA xs k = some v → (k, v) ∈ xs := by
  intro xs
  induction xs with
  | nil => intro k v h; exact Option.noConfusion h
  | cons p rest ih =>
      intro k v h
      cases p with
      | mk k' v' =>
          rw [lookupA_cons] at h
          by_cases hk : k' = k
          · rw [if_pos hk] at h
            injection h with h'
            subst hk
            subst h'
            exact List.mem_cons_self _ _
          · rw [if_neg hk] at h
            exact List.mem_cons_of_mem _ (ih k v h)

/-- Looking up the key just written returns the written value. -/
theorem lookupA_upsert_eq {α β : Type} [DecidableEq α] :
    ∀ (xs : List (α × β)) (k : α) (v : β), lookupA (upsertA xs k v) k = some v := by
  intro xs
  induction xs with
  | nil => intro k v; show lookupA [(k, v)] k = some v; rw [lookupA_cons, if_pos rfl]
  | cons p rest ih =>
      intro k v
      cases p with
      | mk k' v' =>
          rw [upsertA_cons]
          by_cases hk : k' = k
          · rw [if_pos hk, lookupA_cons, if_pos hk]
          · rw [if_neg hk, lookupA_cons, if_neg hk]
            exact ih k v

/-- Writing one key leaves lookups of other keys unchanged. -/
theorem lookupA_upsert_ne {α β : Type} [DecidableEq α] :
    ∀ (xs : List (α × β)) (k k' : α) (v : β), k' ≠ k →
      lookupA (upsertA xs k v) k' = lookupA xs k' := by
  intro xs
  induction xs with
  | nil =>
      intro k k' v hne
      show lookupA [(k, v)] k' = lookupA [] k'
      rw [lookupA_cons, if_neg (fun h => hne h.symm)]
  | cons p rest ih =>
      intro k k' v hne
      cases p with
      | mk k0 v0 =>
          rw [upsertA_cons]
          by_cases hk : k0 = k
          · rw [if_pos hk, lookupA_cons, lookupA_cons,
              if_neg (by rw [hk]; exact fun h => hne h.symm),
              if_neg (by rw [hk]; exact fun h => hne h.symm)]
          · rw [if_neg hk, lookupA_cons, lookupA_cons]
            by_cases h0 : k0 = k'
            · rw [if_pos h0, if_pos h0]
            · rw [if_neg h0, if_neg h0]
              exact ih k k' v hne

/-- A pointwise property of entries survives an upsert whose new entry has
it. -/
theorem upsert_forall {α β : Type} [DecidableEq α] {R : α × β → Prop} :
    ∀ (xs : List (α × β)) (k : α) (v : β),
      (∀ p ∈ xs, R p) → R (k, v) → ∀ p ∈ upsertA xs k v, R p := by
  intro xs
  induction xs with
  | nil =>
      intro k v _ hv p hp
      rcases List.mem_singleton.1 hp with rfl
      exact hv
  | cons q rest ih =>
      intro k v hxs hv p hp
      cases q with
      | mk k' v' =>
          rw [upsertA_cons] at hp
          by_cases hk : k' = k
          · rw [if_pos hk] at hp
            rcases List.mem_cons.1 hp with rfl | htail
            · subst hk; exact hv
            · exact hxs _ (List.mem_cons_of_mem _ htail)
          · rw [if_neg hk] at hp
            rcases List.mem_cons.1 hp with rfl | htail
            · exact hxs _ (List.mem_cons_self _ _)
            · exact ih k v (fun q hq => hxs q (List.mem_cons_of_mem _ hq)) hv p htail

/-- An integer identity embeds into `Dec` unchanged. -/
theorem decMakeZero (v : Int) : Dec.make v 0 = ⟨v, 0⟩ := rfl

/-- The integer embedding into `Dec` is injective. -/
theorem decMakeZero_inj {v w : Int} (h : Dec.make v 0 = Dec.make w 0) : v = w :=
  congrArg Dec.m h

/-- `aggStep` when the identity already has accumulators: append to both. -/
theorem aggStep_eq_app {st : AggState} {v : Int} {x : Dec} {i : Nat}
    {fs : List Dec} {ixs : List Nat}
    (h2 : lookupA st.2 (Dec.make v 0) = some fs)
    (h1 : lookupA st.1 (Dec.make v 0) = some ixs) :
    aggStep st v x i =
      (upsertA st.1 (Dec.make v 0) (ixs ++ [i]), upsertA st.2 (Dec.make v 0) (fs ++ [x])) := by
  simp only [aggStep]
  rw [h2, h1]

/-- `aggStep` when either accumulator is missing: create both afresh. -/
theorem aggStep_eq_fresh {st : AggState} {v : Int} {x : Dec} {i : Nat}
    (h : lookupA st.2 (Dec.make v 0) = none ∨ lookupA st.1 (Dec.make v 0) = none) :
    aggStep st v x i =
      (upsertA st.1 (Dec.make v 0) [i], upsertA st.2 (Dec.make v 0) [x]) := by
  simp only [aggStep]
  rcases h with h2 | h1
  · rw [h2]
  · cases h2 : lookupA st.2 (Dec.make v 0) with
    | none => rfl
    | some fs => rw [h1]

/-- One aggregation step preserves the two accumulator invariants: every
coordinate list is non-empty, and every stored coordinate carries the label
of its key. -/
theorem aggStep_good {l : List Int} {st : AggState} {v : Int} {x : Dec} {i : Nat}
    (h1 : ∀ p ∈ st.1, p.2 ≠ ([] : List Nat))
    (h2 : ∀ p ∈ st.1, ∀ j ∈ p.2, ∃ w : Int, l.get? j = some w ∧ w ≠ 0 ∧ Dec.make w 0 = p.1)
    (hv : l.get? i = some v) (hv0 : v ≠ 0) :
    (∀ p ∈ (aggStep st v x i).1, p.2 ≠ ([] : List Nat)) ∧
    (∀ p ∈ (aggStep st v x i).1, ∀ j ∈ p.2,
      ∃ w : Int, l.get? j = some w ∧ w ≠ 0 ∧ Dec.make w 0 = p.1) := by
  cases hl1 : lookupA st.1 (Dec.make v 0) with
  | none =>
      rw [aggStep_eq_fresh (Or.inr hl1)]
      constructor
      · exact upsert_forall st.1 _ _ h1 (by intro h; exact List.noConfusion h)
      · refine upsert_forall st.1 _ _ h2 ?_
        intro j hj
        rcases List.mem_singleton.1 hj with rfl
        exact ⟨v, hv, hv0, rfl⟩
  | some ixs =>
      cases hl2 : lookupA st.2 (Dec.make v 0) with
      | none =>
          rw [aggStep_eq_fresh (Or.inl hl2)]
          constructor
          · exact upsert_forall st.1 _ _ h1 (by intro h; exact List.noConfusion h)
          · refine upsert_forall st.1 _ _ h2 ?_
            intro j hj
            rcases List.mem_singleton.1 hj with rfl
            exact ⟨v, hv, hv0, rfl⟩
      | some fs =>
          rw [aggStep_eq_app hl2 hl1]
          constructor
          · refine upsert_forall st.1 _ _ h1 ?_
            intro h
            exact absurd (List.append_eq_nil.1 h).2 (by intro h'; exact List.noConfusion h')
          · refine upsert_forall st.1 _ _ h2 ?_
            intro j hj
            rcases List.mem_append.1 hj with hin | hone
            · exact h2 _ (lookupA_mem st.1 _ _ hl1) j hin
            · rcases List.mem_singleton.1 hone with rfl
              exact ⟨v, hv, hv0, rfl⟩

/-- The aggregation loop preserves the accumulator invariants. -/
theorem aggAux_good {l : List Int} {dat : List Dec} : ∀ (rem i : Nat) (st out : AggState),
    aggAux l dat rem i st = .ok out →
    (∀ p ∈ st.1, p.2 ≠ ([] : List Nat)) →
    (∀ p ∈ st.1, ∀ j ∈ p.2, ∃ w : Int, l.get? j = some w ∧ w ≠ 0 ∧ Dec.make w 0 = p.1) →
    (∀ p ∈ out.1, p.2 ≠ ([] : List Nat)) ∧
    (∀ p ∈ out.1, ∀ j ∈ p.2,
      ∃ w : Int, l.get? j = some w ∧ w ≠ 0 ∧ Dec.make w 0 = p.1) := by
  intro rem
  induction rem with
  | zero =>
      intro i st out h h1 h2
      injection h with h'
      subst h'
      exact ⟨h1, h2⟩
  | succ rem ih =>
      intro i st out h h1 h2
      unfold aggAux at h
      cases hv : l.get? i with
      | none => rw [hv] at h; exact Except.noConfusion h
      | some v =>
          rw [hv] at h
          dsimp only at h
          by_cases hv0 : v ≠ 0
          · rw [if_pos hv0] at h
            obtain ⟨g1, g2⟩ := aggStep_good h1 h2 hv hv0
            exact ih (i + 1) _ out h g1 g2
          · rw [if_neg hv0] at h
            exact ih (i + 1) st out h h1 h2

/-- After a successful aggregation pass every accumulated coordinate list is
non-empty and contains only coordinates labeled with its key. -/
theorem aggregate_good {l : List Int} {dat : List Dec} {agg : AggState}
    (h : aggregate l dat = .ok agg) :
    (∀ p ∈ agg.1, p.2 ≠ ([] : List Nat)) ∧
    (∀ p ∈ agg.1, ∀ j ∈ p.2,
      ∃ w : Int, l.get? j = some w ∧ w ≠ 0 ∧ Dec.make w 0 = p.1) :=
  aggAux_good dat.length 0 ([], []) agg h (by intro p hp; cases hp)
    (by intro p hp; cases hp)

/-- `neOpt` of the empty list. -/
theorem neOpt_nil {α : Type} : neOpt ([] : List α) = none := rfl

/-- `neOpt` of a non-empty list. -/
theorem neOpt_of_ne_nil {α : Type} {xs : List α} (h : xs ≠ []) : neOpt xs = some xs := by
  cases xs with
  | nil => exact absurd rfl h
  | cons a t => rfl

/-- Extending the traversal by one coordinate extends each label's
coordinate list by that coordinate exactly when the label matches. -/
theorem labelCoords_succ (l : List Int) (i : Nat) (v : Int) :
    labelCoords l (i + 1) v =
      labelCoords l i v ++ (if l.get? i = some v then [i] else []) := by
  unfold labelCoords
  rw [List.range_succ, List.filter_append]
  congr 1
  by_cases h : l.get? i = some v
  · simp [List.filter_cons, h]
  · simp [List.filter_cons, h]

/-- The aggregation loop satisfies its traversal-order specification. -/
theorem aggAux_char {l : List Int} {dat : List Dec} : ∀ (rem i : Nat) (st out : AggState),
    aggAux l dat rem i st = .ok out → AggSpec l dat i st → AggSpec l dat (i + rem) out := by
  intro rem
  induction rem with
  | zero =>
      intro i st out h hs
      injection h with h'
      subst h'
      rw [Nat.add_zero]
      exact hs
  | succ rem ih =>
      intro i st out h hs
      unfold aggAux at h
      cases hv : l.get? i with
      | none => rw [hv] at h; exact Except.noConfusion h
      | some w =>
          rw [hv] at h
          dsimp only at h
          rw [show i + (rem + 1) = (i + 1) + rem from by omega]
          by_cases hw0 : w ≠ 0
          · rw [if_pos hw0] at h
            refine ih (i + 1) _ out h ?_
            obtain ⟨hw1, hw2⟩ := hs w
            rw [if_neg hw0] at hw1 hw2
            by_cases hemp : labelCoords l i w = []
            · have h1' : lookupA st.1 (Dec.make w 0) = none := by
                rw [hw1, hemp, neOpt_nil]
              have h2' : lookupA st.2 (Dec.make w 0) = none := by
                rw [hw2, hemp]
                rfl
              rw [aggStep_eq_fresh (Or.inr h1')]
              intro v
              by_cases hv0 : v = 0
              · subst hv0
                have hne : Dec.make (0 : Int) 0 ≠ Dec.make w 0 := fun hEq =>
                  hw0 (decMakeZero_inj hEq).symm
                rw [lookupA_upsert_ne _ _ _ _ hne, lookupA_upsert_ne _ _ _ _ hne]
                obtain ⟨z1, z2⟩ := hs 0
                rw [if_pos rfl] at z1 z2
                exact ⟨by rw [z1, if_pos rfl], by rw [z2, if_pos rfl]⟩
              · by_cases hvw : v = w
                · subst hvw
                  rw [lookupA_upsert_eq, lookupA_upsert_eq, if_neg hv0, if_neg hv0,
                    labelCoords_succ, hemp, if_pos hv, List.nil_append]
                  exact ⟨by rw [neOpt_of_ne_nil (by intro hq; exact List.noConfusion hq)],
                    by rw [List.map_singleton,
                      neOpt_of_ne_nil (by intro hq; exact List.noConfusion hq)]⟩
                · have hne : Dec.make v 0 ≠ Dec.make w 0 := fun hEq => hvw (decMakeZero_inj hEq)
                  rw [lookupA_upsert_ne _ _ _ _ hne, lookupA_upsert_ne _ _ _ _ hne,
                    if_neg hv0, if_neg hv0, labelCoords_succ,
                    if_neg (by rw [hv]; intro hq; exact hvw (Option.some.inj hq).symm),
                    List.append_nil]
                  obtain ⟨z1, z2⟩ := hs v
                  rw [if_neg hv0] at z1 z2
                  exact ⟨z1, z2⟩
            · have h1' : lookupA st.1 (Dec.make w 0) = some (labelCoords l i w) := by
                rw [hw1, neOpt_of_ne_nil hemp]
              have h2' : lookupA st.2 (Dec.make w 0) =
                  some ((labelCoords l i w).map (fun j => dat.getD j 0)) := by
                rw [hw2, neOpt_of_ne_nil (by
                  intro hq
                  exact hemp (List.map_eq_nil_iff.1 hq))]
              rw [aggStep_eq_app h2' h1']
              intro v
              by_cases hv0 : v = 0
              · subst hv0
                have hne : Dec.make (0 : Int) 0 ≠ Dec.make w 0 := fun hEq =>
                  hw0 (decMakeZero_inj hEq).symm
                rw [lookupA_upsert_ne _ _ _ _ hne, lookupA_upsert_ne _ _ _ _ hne]
                obtain ⟨z1, z2⟩ := hs 0
                rw [if_pos rfl] at z1 z2
                exact ⟨by rw [z1, if_pos rfl], by rw [z2, if_pos rfl]⟩
              · by_cases hvw : v = w
                · subst hvw
                  rw [lookupA_upsert_eq, lookupA_upsert_eq, if_neg hv0, if_neg hv0,
                    labelCoords_succ, if_pos hv]
                  constructor
                  · rw [neOpt_of_ne_nil (by
                      intro hq
                      exact (List.append_ne_nil_of_right_ne_nil _
                        (by intro hq'; exact List.noConfusion hq') hq))]
                  · rw [List.map_append, List.map_singleton,
                      neOpt_of_ne_nil (by
                        intro hq
                        exact (List.append_ne_nil_of_right_ne_nil _
                          (by intro hq'; exact List.noConfusion hq') hq))]
                · have hne : Dec.make v 0 ≠ Dec.make w 0 := fun hEq => hvw (decMakeZero_inj hEq)
                  rw [lookupA_upsert_ne _ _ _ _ hne, lookupA_upsert_ne _ _ _ _ hne,
                    if_neg hv0, if_neg hv0, labelCoords_succ,
                    if_neg (by rw [hv]; intro hq; exact hvw (Option.some.inj hq).symm),
                    List.append_nil]
                  obtain ⟨z1, z2⟩ := hs v
                  rw [if_neg hv0] at z1 z2
                  exact ⟨z1, z2⟩
          · rw [if_neg hw0] at h
            have hw0' : w = 0 := by omega
            subst hw0'
            refine ih (i + 1) st out h ?_
            intro v
            obtain ⟨z1, z2⟩ := hs v
            by_cases hv0 : v = 0
            · subst hv0
              rw [if_pos rfl] at z1 z2 ⊢
              exact ⟨z1, by rw [z2, if_pos rfl]⟩
            · rw [if_neg hv0] at z1 z2 ⊢
              rw [labelCoords_succ,
                if_neg (by rw [hv]; intro hq; exact hv0 (Option.some.inj hq).symm),
                List.append_nil]
              refine ⟨z1, ?_⟩
              first
              | exact z2
              | (rw [if_neg hv0]; exact z2)

/-- The whole aggregation pass meets its specification. -/
theorem aggregate_char {l : List Int} {dat : List Dec} {st : AggState}
    (h : aggregate l dat = .ok st) : AggSpec l dat dat.length st := by
  have hbase : AggSpec l dat 0 (([], []) : AggState) := by
    intro v
    constructor
    · show none = if v = 0 then none else neOpt (labelCoords l 0 v)
      rw [show labelCoords l 0 v = [] from rfl, neOpt_nil, ite_self]
    · show none = if v = 0 then none else neOpt ((labelCoords l 0 v).map fun j => dat.getD j 0)
      rw [show labelCoords l 0 v = [] from rfl, List.map_nil, neOpt_nil, ite_self]
  have hmain := aggAux_char dat.length 0 ([], []) st h hbase
  rw [Nat.zero_add] at hmain
  exact hmain

/-- C5: the label aggregation performs one row-major traversal, appending
each non-zero-labeled coordinate and its data value to that label's
accumulators in traversal order (`AggSpec` — coordinates of label `v` are
exactly the coordinates labeled `v`, in order, with the parallel data
values); and decoding scenario A (`"(1:2.0,2:3.0):"` with labels
`[1,1,0,2,2,2]`) yields two root leaves, leaf 1 owning coordinates 0, 1 and
leaf 2 owning coordinates 3, 4, 5. -/
theorem c5_thm :
    (∀ (l : List Int) (dat : List Dec) (st : AggState),
        aggregate l dat = .ok st → AggSpec l dat dat.length st) ∧
    dendroImport 1 sA labA datA = .ok dendA ∧
    dendA.trunk.map (fun n => (n.idx, n.coords, n.vals)) =
      [(1, [0, 1], [10, 20]), (2, [3, 4, 5], [40, 50, 60])] :=
  ⟨fun _ _ _ h => aggregate_char h, rfl, rfl⟩

/-- Witness for C5: the aggregation specification evaluated at scenario A
and label value 2. -/
theorem c5_witness :
    aggregate labA datA = .ok aggApair ∧
    lookupA aggApair.1 (Dec.make 2 0) = some [3, 4, 5] ∧
    lookupA aggApair.2 (Dec.make 2 0) = some [40, 50, 60] := by
  refine ⟨rfl, ?_, ?_⟩
  · have h := (c5_thm.1 labA datA aggApair rfl 2).1
    rw [h]
    decide
  · have h := (c5_thm.1 labA datA aggApair rfl 2).2
    rw [h]
    decide

/-- Projections are unchanged by the depth-cache write. -/
theorem setLevel0_idx (n : Structure) : (setLevel0 n).idx = n.idx := by
  cases n with
  | mk i ix vs cs mh lv => rfl

/-- Coordinates are unchanged by the depth-cache write. -/
theorem setLevel0_coords (n : Structure) : (setLevel0 n).coords = n.coords := by
  cases n with
  | mk i ix vs cs mh lv => rfl

/-- Values are unchanged by the depth-cache write. -/
theorem setLevel0_vals (n : Structure) : (setLevel0 n).vals = n.vals := by
  cases n with
  | mk i ix vs cs mh lv => rfl

/-- Unfolding equation for `deepKeysF` on a cons cell. -/
theorem deepKeysF_cons (f : Nat) (kv : Dec × NVal) (rest : NDict) :
    deepKeysF (f + 1) (kv :: rest) =
      kv.1 :: (match kv.2 with | .num _ => [] | .pair sub _ => deepKeysF f sub)
        ++ deepKeysF (f + 1) rest := rfl

/-- Every top-level key of a mapping is among its deep keys. -/
theorem mem_deepKeysF_head : ∀ {rep : NDict} {k : Dec} {v : NVal} (f : Nat),
    (k, v) ∈ rep → k ∈ deepKeysF (f + 1) rep := by
  intro rep
  induction rep with
  | nil => intro k v f h; cases h
  | cons kv rest ih =>
      intro k v f h
      rw [deepKeysF_cons]
      rcases List.mem_cons.1 h with rfl | htail
      · exact List.mem_cons_self _ _
      · exact List.mem_cons_of_mem _ (List.mem_append_right _ (ih f htail))

/-- Deep keys of a sub-mapping are deep keys of the mapping holding it. -/
theorem mem_deepKeysF_sub : ∀ {rep : NDict} {k : Dec} {sub : NDict} {h : Dec} (f : Nat),
    (k, NVal.pair sub h) ∈ rep → ∀ x ∈ deepKeysF f sub, x ∈ deepKeysF (f + 1) rep := by
  intro rep
  induction rep with
  | nil => intro k sub h f hmem; cases hmem
  | cons kv rest ih =>
      intro k sub h f hmem x hx
      rw [deepKeysF_cons]
      rcases List.mem_cons.1 hmem with rfl | htail
      · exact List.mem_cons_of_mem _ (List.mem_append_left _ hx)
      · exact List.mem_cons_of_mem _ (List.mem_append_right _ (ih f htail x hx))

/-- Folding a batch of nodes into the node index preserves a pointwise node
property. -/
theorem foldl_upsert_forall {R : Structure → Prop} :
    ∀ (ns : List Structure) (m : List (Dec × Structure)),
      (∀ p ∈ m, R p.2) → (∀ n ∈ ns, R n) →
      ∀ p ∈ ns.foldl (fun acc n => upsertA acc n.idx n) m, R p.2 := by
  intro ns
  induction ns with
  | nil => intro m hm _ p hp; exact hm p hp
  | cons n rest ih =>
      intro m hm hns p hp
      rw [List.foldl_cons] at hp
      refine ih (upsertA m n.idx n) ?_ (fun q hq => hns q (List.mem_cons_of_mem _ hq)) p hp
      exact upsert_forall m n.idx n hm (hns n (List.mem_cons_self _ _))

/-- Invariant of `_construct_tree`: whenever it succeeds, every node it ever
built — the returned top-level nodes and everything registered in
`nodes_dict` — has its owned coordinates and values taken verbatim from the
aggregation accumulators of its identity, and its identity among the deep
keys of the representation (collected in any superset `K`). -/
theorem constructTree_inv {ibn : List (Dec × List Nat)} {fbn : List (Dec × List Dec)}
    {K : List Dec} :
    ∀ (fuel : Nat) (rep : NDict) (nd0 : List (Dec × Structure))
      (out : List Structure × List (Dec × Structure)),
      constructTree ibn fbn fuel rep nd0 = .ok out →
      (∀ k ∈ deepKeysF fuel rep, k ∈ K) →
      (∀ p ∈ nd0, lookupA ibn p.2.idx = some p.2.coords ∧
        lookupA fbn p.2.idx = some p.2.vals ∧ p.2.idx ∈ K) →
      (∀ n ∈ out.1, lookupA ibn n.idx = some n.coords ∧
        lookupA fbn n.idx = some n.vals ∧ n.idx ∈ K) ∧
      (∀ p ∈ out.2, lookupA ibn p.2.idx = some p.2.coords ∧
        lookupA fbn p.2.idx = some p.2.vals ∧ p.2.idx ∈ K) := by
  intro fuel
  induction fuel with
  | zero => intro rep nd0 out h _ _; exact Except.noConfusion h
  | succ fuel ih =>
      intro rep nd0 out h hK hnd0
      unfold constructTree at h
      refine @foldlM_inv (Dec × NVal) (List Structure × List (Dec × Structure))
        (fun acc => (∀ n ∈ acc.1, lookupA ibn n.idx = some n.coords ∧
            lookupA fbn n.idx = some n.vals ∧ n.idx ∈ K) ∧
          (∀ p ∈ acc.2, lookupA ibn p.2.idx = some p.2.coords ∧
            lookupA fbn p.2.idx = some p.2.vals ∧ p.2.idx ∈ K))
        _ rep ([], nd0) out ?_
        ⟨fun n hn => absurd hn (List.not_mem_nil n), hnd0⟩ h
      intro acc kv hkv hacc r hr
      dsimp only at hr
      cases hibn : lookupA ibn kv.1 with
      | none => rw [hibn] at hr; dsimp only at hr; exact Except.noConfusion hr
      | some nodeIndices =>
          rw [hibn] at hr
          dsimp only at hr
          rw [exBind_ok] at hr
          cases hfbn : lookupA fbn kv.1 with
          | none => rw [hfbn] at hr; dsimp only at hr; exact Except.noConfusion hr
          | some fvals =>
              rw [hfbn] at hr
              dsimp only at hr
              rw [exBind_ok] at hr
              cases hv : kv.2 with
              | num h0 =>
                  rw [hv] at hr
                  dsimp only at hr
                  injection hr with hr'
                  subst hr'
                  have hkvmem : (kv.1, NVal.num h0) ∈ rep := by rw [← hv]; exact hkv
                  have hQ : lookupA ibn (Structure.mk kv.1 nodeIndices fvals [] none none).idx =
                        some (Structure.mk kv.1 nodeIndices fvals [] none none).coords ∧
                      lookupA fbn (Structure.mk kv.1 nodeIndices fvals [] none none).idx =
                        some (Structure.mk kv.1 nodeIndices fvals [] none none).vals ∧
                      (Structure.mk kv.1 nodeIndices fvals [] none none).idx ∈ K :=
                    ⟨hibn, hfbn, hK _ (mem_deepKeysF_head fuel hkvmem)⟩
                  constructor
                  · intro n hn
                    rcases List.mem_append.1 hn with hold | hnew
                    · exact hacc.1 n hold
                    · rcases List.mem_singleton.1 hnew with rfl
                      exact hQ
                  · exact upsert_forall acc.2 kv.1 _ hacc.2 hQ
              | pair subRep h0 =>
                  rw [hv] at hr
                  dsimp only at hr
                  cases hsub : constructTree ibn fbn fuel subRep acc.2 with
                  | error e => rw [hsub, exBind_err] at hr; exact Except.noConfusion hr
                  | ok sub =>
                      rw [hsub, exBind_ok] at hr
                      have hkvmem : (kv.1, NVal.pair subRep h0) ∈ rep := by rw [← hv]; exact hkv
                      have hsubK : ∀ k ∈ deepKeysF fuel subRep, k ∈ K := fun k hk =>
                        hK k (mem_deepKeysF_sub fuel hkvmem k hk)
                      obtain ⟨hsub1, hsub2⟩ := ih subRep acc.2 sub hsub hsubK hacc.2
                      cases subRep with
                      | nil => exact Except.noConfusion hr
                      | cons q rest' =>
                          dsimp only at hr
                          injection hr with hr'
                          subst hr'
                          have hQ : lookupA ibn
                                (Structure.mk kv.1 nodeIndices fvals sub.1 none none).idx =
                                some (Structure.mk kv.1 nodeIndices fvals sub.1
                                  none none).coords ∧
                              lookupA fbn
                                (Structure.mk kv.1 nodeIndices fvals sub.1 none none).idx =
                                some (Structure.mk kv.1 nodeIndices fvals sub.1 none none).vals ∧
                              (Structure.mk kv.1 nodeIndices fvals sub.1 none none).idx ∈ K :=
                            ⟨hibn, hfbn, hK _ (mem_deepKeysF_head fuel hkvmem)⟩
                          constructor
                          · intro n hn
                            rcases List.mem_append.1 hn with hold | hnew
                            · exact hacc.1 n hold
                            · rcases List.mem_singleton.1 hnew with rfl
                              exact hQ
                          · refine upsert_forall _ kv.1 _ ?_ hQ
                            exact foldl_upsert_forall sub.1 sub.2 hsub2 hsub1

/-- C2, amended: branches do not own nothing — every node of a successful
decode, branch or leaf, owns exactly the aggregation accumulator of its own
identity, which is never empty.  (`_construct_tree` passes
`indices_by_node[idx]` to branches and leaves alike, and fails with
`KeyError` whenever an identity labels no pixel, so decode only succeeds
when every branch owns at least one pixel.) -/
theorem c2_amended_thm : ∀ (nd : Nat) (nwk : List Char) (l : List Int) (dat : List Dec)
    (D : Dendrogram) (agg : AggState),
    dendroImport nd nwk l dat = .ok D → aggregate l dat = .ok agg →
    (∀ p ∈ D.nodesDict, lookupA agg.1 p.2.idx = some p.2.coords ∧ p.2.coords ≠ []) ∧
    (∀ n ∈ D.trunk, lookupA agg.1 n.idx = some n.coords ∧ n.coords ≠ []) := by
  intro nd nwk l dat D agg hok hagg
  obtain ⟨agg', pf, built, hA, hP, hC, rfl⟩ := dendroImport_ok_parts hok
  rw [hagg] at hA
  injection hA with hA'
  subst hA'
  obtain ⟨hns, hnd⟩ := constructTree_inv (K := deepKeysF (pf.1.length + 2) pf.2)
    (pf.1.length + 2) pf.2 [] built hC (fun k hk => hk)
    (fun p hp => absurd hp (List.not_mem_nil p))
  obtain ⟨hne, _⟩ := aggregate_good hagg
  constructor
  · intro p hp
    obtain ⟨h1, _, _⟩ := hnd p hp
    exact ⟨h1, hne _ (lookupA_mem _ _ _ h1)⟩
  · intro n hn
    obtain ⟨m, hm, rfl⟩ := List.mem_map.1 hn
    obtain ⟨h1, _, _⟩ := hns m hm
    rw [setLevel0_idx, setLevel0_coords]
    exact ⟨h1, hne _ (lookupA_mem _ _ _ h1)⟩

/-- Witness for the amended C2 at scenario B: the branch node's owned
coordinates are the aggregator's entry for identity 3 and are non-empty. -/
theorem c2_amended_witness :
    dendroImport 1 sB labB datB = .ok dendB ∧ aggregate labB datB = .ok aggB ∧
    lookupA aggB.1 branchB3.idx = some branchB3.coords ∧ branchB3.coords ≠ [] := by
  have h := (c2_amended_thm 1 sB labB datB dendB aggB rfl rfl).1 (3, branchB3)
    (show (3, branchB3) ∈ dendB.nodesDict from
      List.mem_cons_of_mem _ (List.mem_cons_of_mem _ (List.mem_cons_self _ _)))
  exact ⟨rfl, rfl, h.1, h.2⟩

/-- C3, amended: a positive label value `v` that never appears among the
decoded identities does not make decode fail; the pixels labeled `v` are
silently dropped — after a successful decode no node, in the node index or
in the trunk, owns a coordinate labeled `v`.  (The concrete counterexample
theorem shows such a decode succeeding.) -/
theorem c3_amended_thm : ∀ (nd : Nat) (nwk : List Char) (l : List Int) (dat : List Dec)
    (v : Int) (i : Nat) (D : Dendrogram) (pf : Items × NDict),
    dendroImport nd nwk l dat = .ok D → parseNewickAux nwk = .ok pf →
    (∀ F : Nat, Dec.make v 0 ∉ deepKeysF F pf.2) →
    0 < v → l.get? i = some v →
    (∀ p ∈ D.nodesDict, i ∉ p.2.coords) ∧ (∀ n ∈ D.trunk, i ∉ n.coords) := by
  intro nd nwk l dat v i D pf hok hpf hnot hv hlab
  obtain ⟨agg, pf', built, hA, hP, hC, rfl⟩ := dendroImport_ok_parts hok
  rw [hpf] at hP
  injection hP with hP'
  subst hP'
  obtain ⟨hns, hnd⟩ := constructTree_inv (K := deepKeysF (pf.1.length + 2) pf.2)
    (pf.1.length + 2) pf.2 [] built hC (fun k hk => hk)
    (fun p hp => absurd hp (List.not_mem_nil p))
  obtain ⟨_, hmem⟩ := aggregate_good hA
  have hcore : ∀ (n : Structure), lookupA agg.1 n.idx = some n.coords →
      n.idx ∈ deepKeysF (pf.1.length + 2) pf.2 → i ∉ n.coords := by
    intro n h1 hKm hin
    obtain ⟨w, hw, _, hwmk⟩ := hmem _ (lookupA_mem _ _ _ h1) i hin
    rw [hlab] at hw
    injection hw with hw'
    subst hw'
    have hwmk' : Dec.make v 0 = n.idx := hwmk
    rw [← hwmk'] at hKm
    exact hnot (pf.1.length + 2) hKm
  constructor
  · intro p hp
    obtain ⟨h1, _, hK⟩ := hnd p hp
    exact hcore p.2 h1 hK
  · intro n hn
    obtain ⟨m, hm, rfl⟩ := List.mem_map.1 hn
    obtain ⟨h1, _, hK⟩ := hns m hm
    rw [setLevel0_coords]
    exact hcore m h1 hK

/-- Witness for the amended C3 at the `sDrop` scenario: label 2 labels
coordinate 1, appears nowhere in the decoded topology, and the built leaf
does not own coordinate 1. -/
theorem c3_amended_witness :
    dendroImport 1 sDrop labDrop datDrop = .ok dendDrop ∧
    parseNewickAux sDrop = .ok pfDrop ∧
    (1 : Nat) ∉ leafDrop.coords := by
  refine ⟨rfl, rfl, ?_⟩
  refine (c3_amended_thm 1 sDrop labDrop datDrop 2 1 dendDrop pfDrop rfl rfl ?_
    (by decide) (by decide)).1 (1, leafDrop)
    (show (1, leafDrop) ∈ dendDrop.nodesDict from List.mem_cons_self _ _)
  intro F
  cases F with
  | zero => exact fun h => absurd h (List.not_mem_nil _)
  | succ n => exact (show Dec.make 2 0 ∉ [(1 : Dec)] from by decide)

/-! ## Round-trip lemmas (claim C4) -/

theorem natDigitsAux_succ (f n : Nat) : natDigitsAux (f + 1) n =
    if n < 10 then [Nat.digitChar n]
    else natDigitsAux f (n / 10) ++ [Nat.digitChar (n % 10)] := rfl

theorem padDigitsAux_succ (k n : Nat) : padDigitsAux (k + 1) n =
    padDigitsAux k (n / 10) ++ [Nat.digitChar (n % 10)] := rfl

theorem digitChar_isDigit : ∀ r < 10, (Nat.digitChar r).isDigit = true := by decide

theorem digitChar_val : ∀ r < 10, (Nat.digitChar r).toNat - 48 = r := by decide

theorem digit_not_special : ∀ c : Char, c.isDigit = true →
    c ≠ '.' ∧ c ≠ ',' ∧ c ≠ ':' ∧ c ≠ '(' ∧ c ≠ ')' ∧ c ≠ '-' ∧ c ≠ ' ' ∧ c ≠ '+' := by
  intro c hc
  unfold Char.isDigit at hc
  refine ⟨?_, ?_, ?_, ?_, ?_, ?_, ?_, ?_⟩ <;>
    (intro h; subst h; simp at hc)

theorem foldl_digits : ∀ (b : List Char) (i : Nat),
    b.foldl (fun a c => 10 * a + (c.toNat - 48)) i =
      i * 10 ^ b.length + digitsToNat b := by
  intro b
  induction b with
  | nil => intro i; simp [digitsToNat]
  | cons c t ih =>
      intro i
      show t.foldl _ (10 * i + (c.toNat - 48)) = i * 10 ^ (t.length + 1) + digitsToNat (c :: t)
      rw [ih (10 * i + (c.toNat - 48))]
      have h2 : digitsToNat (c :: t) = (c.toNat - 48) * 10 ^ t.length + digitsToNat t := by
        show t.foldl _ (10 * 0 + (c.toNat - 48)) = _
        rw [ih (10 * 0 + (c.toNat - 48))]
        ring_nf
      rw [h2]
      ring

theorem digitsToNat_append (a b : List Char) :
    digitsToNat (a ++ b) = digitsToNat a * 10 ^ b.length + digitsToNat b := by
  unfold digitsToNat
  rw [List.foldl_append, foldl_digits]
  rfl

theorem digitsToNat_singleton (c : Char) : digitsToNat [c] = c.toNat - 48 := by
  show 10 * 0 + (c.toNat - 48) = _
  omega

theorem natDigitsAux_spec : ∀ (f n : Nat), n < f →
    (∀ c ∈ natDigitsAux f n, c.isDigit = true) ∧ natDigitsAux f n ≠ [] ∧
      digitsToNat (natDigitsAux f n) = n := by
  intro f
  induction f with
  | zero => intro n h; omega
  | succ f ih =>
      intro n hn
      rw [natDigitsAux_succ]
      by_cases h10 : n < 10
      · rw [if_pos h10]
        refine ⟨?_, ?_, ?_⟩
        · intro c hc
          rcases List.mem_singleton.1 hc with rfl
          exact digitChar_isDigit n h10
        · intro h
          exact List.noConfusion h
        · rw [digitsToNat_singleton, digitChar_val n h10]
      · rw [if_neg h10]
        have hdiv : n / 10 < f := by
          have h1 : n / 10 < n := Nat.div_lt_self (by omega) (by omega)
          omega
        obtain ⟨ihd, ihne, ihval⟩ := ih (n / 10) hdiv
        refine ⟨?_, ?_, ?_⟩
        · intro c hc
          rcases List.mem_append.1 hc with h | h
          · exact ihd c h
          · rcases List.mem_singleton.1 h with rfl
            exact digitChar_isDigit _ (Nat.mod_lt n (by omega))
        · intro h
          exact ihne (List.append_eq_nil.1 h).1
        · rw [digitsToNat_append, ihval, List.length_singleton, digitsToNat_singleton,
            digitChar_val _ (Nat.mod_lt n (by omega))]
          omega

theorem natDigits_spec (n : Nat) :
    (∀ c ∈ natDigits n, c.isDigit = true) ∧ natDigits n ≠ [] ∧
      digitsToNat (natDigits n) = n :=
  natDigitsAux_spec (n + 1) n (by omega)

theorem padDigitsAux_spec : ∀ (k n : Nat),
    (∀ c ∈ padDigitsAux k n, c.isDigit = true) ∧ (padDigitsAux k n).length = k ∧
      digitsToNat (padDigitsAux k n) = n % 10 ^ k := by
  intro k
  induction k with
  | zero =>
      intro n
      refine ⟨?_, rfl, ?_⟩
      · intro c hc
        cases hc
      · show 0 = n % 1
        omega
  | succ k ih =>
      intro n
      obtain ⟨ihd, ihlen, ihval⟩ := ih (n / 10)
      rw [padDigitsAux_succ]
      refine ⟨?_, ?_, ?_⟩
      · intro c hc
        rcases List.mem_append.1 hc with h | h
        · exact ihd c h
        · rcases List.mem_singleton.1 h with rfl
          exact digitChar_isDigit _ (Nat.mod_lt n (by omega))
      · rw [List.length_append, ihlen, List.length_singleton]
      · rw [digitsToNat_append, List.length_singleton, digitsToNat_singleton,
          digitChar_val _ (Nat.mod_lt n (by omega)), ihval]
        have hpow : 10 ^ (k + 1) = 10 * 10 ^ k := by ring
        rw [hpow, Nat.mod_mul]
        ring

theorem takeWhile_digits : ∀ (a b : List Char), (∀ c ∈ a, c.isDigit = true) →
    (∀ hd ∈ b.head?, hd.isDigit = false) →
    (a ++ b).takeWhile Char.isDigit = a := by
  intro a
  induction a with
  | nil =>
      intro b _ hb
      cases b with
      | nil => rfl
      | cons hd t =>
          rw [List.nil_append, List.takeWhile_cons, hb hd rfl]
          rfl
  | cons c a' ih =>
      intro b ha hb
      rw [List.cons_append, List.takeWhile_cons, ha c (List.mem_cons_self _ _),
        if_pos rfl, ih b (fun x hx => ha x (List.mem_cons_of_mem _ hx)) hb]

theorem dropWhile_digits : ∀ (a b : List Char), (∀ c ∈ a, c.isDigit = true) →
    (∀ hd ∈ b.head?, hd.isDigit = false) →
    (a ++ b).dropWhile Char.isDigit = b := by
  intro a
  induction a with
  | nil =>
      intro b _ hb
      cases b with
      | nil => rfl
      | cons hd t =>
          rw [List.nil_append, List.dropWhile_cons, hb hd rfl]
          rfl
  | cons c a' ih =>
      intro b ha hb
      rw [List.cons_append, List.dropWhile_cons, ha c (List.mem_cons_self _ _), if_pos rfl]
      exact ih b (fun x hx => ha x (List.mem_cons_of_mem _ hx)) hb

theorem span_digits (a b : List Char) (ha : ∀ c ∈ a, c.isDigit = true)
    (hb : ∀ hd ∈ b.head?, hd.isDigit = false) :
    (a ++ b).span Char.isDigit = (a, b) := by
  rw [List.span_eq_take_drop, takeWhile_digits a b ha hb, dropWhile_digits a b ha hb]

theorem puTail_cons (ip1 : List Char) (c : Char) (t : List Char) :
    puTail ip1 (c :: t) =
      if c = '.' then puFrac ip1 (t.span Char.isDigit).1 (t.span Char.isDigit).2
      else if ip1.isEmpty then none else some (digitsToNat ip1, 0, c :: t) := rfl

theorem puTail_nil (ip1 : List Char) :
    puTail ip1 [] = if ip1.isEmpty then none else some (digitsToNat ip1, 0, []) := rfl

theorem parseNum?_cons (c : Char) (t : List Char) : parseNum? (c :: t) =
    if c = '-' then (parseUnsigned t).map (fun r => (Dec.make (-(r.1 : Int)) r.2.1, r.2.2))
    else (parseUnsigned (c :: t)).map (fun r => (Dec.make (r.1 : Int) r.2.1, r.2.2)) := rfl

theorem parseUnsigned_digits (a rest : List Char) (ha : ∀ c ∈ a, c.isDigit = true)
    (hne : a ≠ []) (hrest : ∀ hd ∈ rest.head?, hd.isDigit = false ∧ hd ≠ '.') :
    parseUnsigned (a ++ rest) = some (digitsToNat a, 0, rest) := by
  unfold parseUnsigned
  rw [span_digits a rest ha (fun hd h => (hrest hd h).1)]
  show puTail a rest = _
  cases rest with
  | nil =>
      rw [puTail_nil, if_neg (by rw [List.isEmpty_iff]; exact hne)]
  | cons c t =>
      have hc := hrest c rfl
      rw [puTail_cons, if_neg hc.2, if_neg (by rw [List.isEmpty_iff]; exact hne)]

theorem parseUnsigned_decimal (a b rest : List Char) (ha : ∀ c ∈ a, c.isDigit = true)
    (hane : a ≠ []) (hbd : ∀ c ∈ b, c.isDigit = true)
    (hrest : ∀ hd ∈ rest.head?, hd.isDigit = false) :
    parseUnsigned (a ++ '.' :: (b ++ rest)) =
      some (digitsToNat (a ++ b), b.length, rest) := by
  unfold parseUnsigned
  rw [span_digits a ('.' :: (b ++ rest)) ha (by intro hd h; injection h with h'; subst h'; rfl)]
  show puTail a ('.' :: (b ++ rest)) = _
  rw [puTail_cons, if_pos rfl, span_digits b rest hbd hrest]
  show puFrac a b rest = _
  unfold puFrac
  rw [if_neg (by
    rw [Bool.and_eq_true]
    intro hcon
    rw [List.isEmpty_iff] at hcon
    exact hane hcon.1)]

theorem parseNum_digits (a rest : List Char) (ha : ∀ c ∈ a, c.isDigit = true)
    (hne : a ≠ []) (hrest : ∀ hd ∈ rest.head?, hd.isDigit = false ∧ hd ≠ '.') :
    parseNum? (a ++ rest) = some (⟨(digitsToNat a : Int), 0⟩, rest) := by
  obtain ⟨c, cs, hcs⟩ := List.exists_cons_of_ne_nil hne
  subst hcs
  rw [List.cons_append, parseNum?_cons,
    if_neg (digit_not_special c (ha c (List.mem_cons_self _ _))).2.2.2.2.2.1,
    ← List.cons_append, parseUnsigned_digits _ rest ha hne hrest]
  rfl

theorem parseNum_natDigits (n : Nat) (rest : List Char)
    (hrest : ∀ hd ∈ rest.head?, hd.isDigit = false ∧ hd ≠ '.') :
    parseNum? (natDigits n ++ rest) = some (⟨(n : Int), 0⟩, rest) := by
  obtain ⟨hdig, hne, hval⟩ := natDigits_spec n
  rw [parseNum_digits _ rest hdig hne hrest, hval]

theorem decTok_digits_or_dot (h : Dec) : ∀ c ∈ decTok h, c.isDigit = true ∨ c = '.' := by
  intro c hc
  unfold decTok at hc
  by_cases he : h.e = 0
  · rw [if_pos he] at hc
    exact Or.inl ((natDigits_spec _).1 c hc)
  · rw [if_neg he] at hc
    rcases List.mem_append.1 hc with hm | hm
    · exact Or.inl ((natDigits_spec _).1 c hm)
    · rcases List.mem_cons.1 hm with rfl | hm'
      · exact Or.inr rfl
      · exact Or.inl ((padDigitsAux_spec h.e h.m.toNat).1 c hm')

theorem decTok_head_digit (h : Dec) : ∀ hd ∈ (decTok h).head?, hd.isDigit = true := by
  intro hd hh
  unfold decTok at hh
  by_cases he : h.e = 0
  · rw [if_pos he] at hh
    obtain ⟨c, cs, hcs⟩ := List.exists_cons_of_ne_nil (natDigits_spec h.m.toNat).2.1
    rw [hcs] at hh
    injection hh with h'
    rw [← h']
    exact (natDigits_spec h.m.toNat).1 c (by rw [hcs]; exact List.mem_cons_self _ _)
  · rw [if_neg he] at hh
    obtain ⟨c, cs, hcs⟩ := List.exists_cons_of_ne_nil (natDigits_spec (h.m.toNat / 10 ^ h.e)).2.1
    rw [hcs, List.cons_append] at hh
    injection hh with h'
    rw [← h']
    exact (natDigits_spec (h.m.toNat / 10 ^ h.e)).1 c
      (by rw [hcs]; exact List.mem_cons_self _ _)

theorem parseNum_decTok (h : Dec) (hm : 0 ≤ h.m) (hnorm : Dec.make h.m h.e = h)
    (rest : List Char) (hrest : ∀ hd ∈ rest.head?, hd.isDigit = false ∧ hd ≠ '.') :
    parseNum? (decTok h ++ rest) = some (h, rest) := by
  unfold decTok
  by_cases he : h.e = 0
  · rw [if_pos he, parseNum_natDigits _ rest hrest]
    have : ((h.m.toNat : Int)) = h.m := Int.toNat_of_nonneg hm
    rw [this]
    have hh : (⟨h.m, 0⟩ : Dec) = h := by
      rw [← hnorm, he]
      rfl
    rw [hh]
  · rw [if_neg he]
    obtain ⟨had, hane, haval⟩ := natDigits_spec (h.m.toNat / 10 ^ h.e)
    obtain ⟨hbd, hblen, hbval⟩ := padDigitsAux_spec h.e h.m.toNat
    rw [List.append_assoc, List.cons_append]
    obtain ⟨c, cs, hcs⟩ := List.exists_cons_of_ne_nil hane
    rw [hcs, List.cons_append, parseNum?_cons,
      if_neg (digit_not_special c (had c (by rw [hcs]; exact List.mem_cons_self _ _))).2.2.2.2.2.1,
      ← List.cons_append, ← hcs,
      parseUnsigned_decimal _ _ rest had hane hbd (fun hd hh => (hrest hd hh).1)]
    have hsum : digitsToNat (natDigits (h.m.toNat / 10 ^ h.e) ++ padDigitsAux h.e h.m.toNat) =
        h.m.toNat := by
      rw [digitsToNat_append, haval, hblen, hbval, mul_comm]
      exact Nat.div_add_mod h.m.toNat (10 ^ h.e)
    show some (Dec.make ((digitsToNat (natDigits (h.m.toNat / 10 ^ h.e) ++
        padDigitsAux h.e h.m.toNat) : Int)) (padDigitsAux h.e h.m.toNat).length, rest) =
      some (h, rest)
    rw [hsum, hblen, Int.toNat_of_nonneg hm, hnorm]

theorem pyInt_natDigits (n : Nat) : pyInt? (natDigits n) = some (n : Int) := by
  obtain ⟨hdig, hne, hval⟩ := natDigits_spec n
  obtain ⟨c, cs, hcs⟩ := List.exists_cons_of_ne_nil hne
  have hc := hdig c (by rw [hcs]; exact List.mem_cons_self _ _)
  have hspec := digit_not_special c hc
  have hdw : (natDigits n).dropWhile (fun c => c = ' ') = c :: cs := by
    rw [hcs]
    simp [List.dropWhile_cons, hspec.2.2.2.2.2.2.1]
  have hspan : (c :: cs).span Char.isDigit = (c :: cs, []) := by
    have h0 := span_digits (natDigits n) [] hdig (by intro hd hh; cases hh)
    rw [List.append_nil, hcs] at h0
    exact h0
  unfold pyInt?
  rw [hdw]
  dsimp only
  rw [if_neg hspec.2.2.2.2.2.1, if_neg hspec.2.2.2.2.2.2.2, hspan]
  dsimp only
  rw [if_neg (by simp), if_pos (by rfl), ← hcs, hval]
  rfl

theorem upsertA_of_lookup_none {α β : Type} [DecidableEq α] :
    ∀ (xs : List (α × β)) (k : α) (v : β), lookupA xs k = none →
      upsertA xs k v = xs ++ [(k, v)] := by
  intro xs
  induction xs with
  | nil => intro k v _; rfl
  | cons p rest ih =>
      intro k v h
      cases p with
      | mk k' v' =>
          rw [lookupA_cons] at h
          by_cases hk : k' = k
          · rw [if_pos hk] at h
            exact Option.noConfusion h
          · rw [if_neg hk] at h
            rw [upsertA_cons, if_neg hk, ih k v h, List.cons_append]

theorem lookupA_append_of_none {α β : Type} [DecidableEq α] :
    ∀ (xs ys : List (α × β)) (k : α), lookupA xs k = none →
      lookupA (xs ++ ys) k = lookupA ys k := by
  intro xs
  induction xs with
  | nil => intro ys k _; rfl
  | cons p rest ih =>
      intro ys k h
      cases p with
      | mk k' v' =>
          rw [lookupA_cons] at h
          by_cases hk : k' = k
          · rw [if_pos hk] at h
            exact Option.noConfusion h
          · rw [if_neg hk] at h
            rw [List.cons_append, lookupA_cons, if_neg hk]
            exact ih ys k h

theorem encEntryF_eq_num (F : Nat) (kv : Dec × NVal) (h : Dec) (hv : kv.2 = .num h) :
    encEntryF (F + 1) kv = natDigits kv.1.m.toNat ++ ':' :: decTok h := by
  cases kv with
  | mk k v =>
      cases hv
      rfl

theorem joinComma_cons₂ (x y : List Char) (xs : List (List Char)) :
    joinComma (x :: y :: xs) = x ++ ',' :: joinComma (y :: xs) := rfl

theorem evalEntriesF_succ (f : Nat) (s : List Char) (acc : List (Dec × Dec)) :
    evalEntriesF (f + 1) s acc =
      match parseNum? s with
      | none => .error .synErr
      | some (k, s1) =>
          match s1 with
          | c :: s2 =>
              if c = ':' then
                match parseNum? s2 with
                | none => .error .synErr
                | some (v, s3) =>
                    match s3 with
                    | [] => .ok (upsertA acc k v)
                    | c' :: s4 =>
                        if c' = ',' then evalEntriesF f s4 (upsertA acc k v)
                        else .error .synErr
              else .error .synErr
          | [] => .error .synErr := rfl

theorem intCast_toNat_key {k : Dec} (h1 : 0 ≤ k.m) (h2 : k.e = 0) :
    (⟨(k.m.toNat : Int), 0⟩ : Dec) = k := by
  cases k with
  | mk m e =>
      dsimp only at h1 h2
      subst h2
      rw [Int.toNat_of_nonneg h1]

theorem shallow_cons (kv : Dec × NVal) (tl : NDict) :
    shallow (kv :: tl) =
      (kv.1, match kv.2 with | .num h => h | .pair _ h => h) :: shallow tl := rfl

theorem colon_head_fact :
    ∀ hd ∈ (((':' : Char) :: r).head? : Option Char), hd.isDigit = false ∧ hd ≠ '.' := by
  intro hd hh
  injection hh with h'
  subst h'
  exact ⟨by decide, by decide⟩

theorem comma_head_fact (r : List Char) :
    ∀ hd ∈ (((',' : Char) :: r).head? : Option Char), hd.isDigit = false ∧ hd ≠ '.' := by
  intro hd hh
  injection hh with h'
  subst h'
  exact ⟨by decide, by decide⟩

theorem evalEntriesF_flat : ∀ (es : NDict) (acc : List (Dec × Dec)) (f F : Nat),
    (∀ kv ∈ es, 0 ≤ kv.1.m ∧ kv.1.e = 0 ∧
      ∃ h, kv.2 = .num h ∧ Dec.make h.m h.e = h ∧ 0 ≤ h.m) →
    (es.map Prod.fst).Nodup →
    (∀ kv ∈ es, lookupA acc kv.1 = none) →
    es ≠ [] →
    (joinComma (es.map (encEntryF (F + 1)))).length < f →
    evalEntriesF f (joinComma (es.map (encEntryF (F + 1)))) acc = .ok (acc ++ shallow es) := by
  intro es
  induction es with
  | nil => intro acc f F _ _ _ hne _; exact absurd rfl hne
  | cons kv tl ih =>
      intro acc f F hgood hnodup hfresh _ hlen
      obtain ⟨hk1, hk2, h0, hv0, hnorm0, hm0⟩ := hgood kv (List.mem_cons_self _ _)
      have henc : encEntryF (F + 1) kv = natDigits kv.1.m.toNat ++ ':' :: decTok h0 :=
        encEntryF_eq_num F kv h0 hv0
      have hfr0 : lookupA acc kv.1 = none := hfresh kv (List.mem_cons_self _ _)
      cases f with
      | zero => omega
      | succ f =>
          cases tl with
          | nil =>
              rw [show joinComma ((kv :: []).map (encEntryF (F + 1))) = encEntryF (F + 1) kv
                  from rfl, henc, evalEntriesF_succ,
                parseNum_natDigits _ _ colon_head_fact]
              dsimp only
              rw [if_pos rfl, ← List.append_nil (decTok h0),
                parseNum_decTok h0 hm0 hnorm0 [] (by intro hd hh; cases hh)]
              dsimp only
              rw [intCast_toNat_key hk1 hk2, upsertA_of_lookup_none acc kv.1 h0 hfr0,
                shallow_cons, hv0]
              rfl
          | cons kv' tl' =>
              rw [List.map_cons, List.map_cons, joinComma_cons₂, henc, List.append_assoc,
                List.cons_append, evalEntriesF_succ, parseNum_natDigits _ _ colon_head_fact]
              dsimp only
              rw [if_pos rfl, parseNum_decTok h0 hm0 hnorm0 _ (comma_head_fact _)]
              dsimp only
              rw [if_pos rfl, intCast_toNat_key hk1 hk2,
                upsertA_of_lookup_none acc kv.1 h0 hfr0]
              have hknotin : kv.1 ∉ (kv' :: tl').map Prod.fst := (List.nodup_cons.1 hnodup).1
              have ihres := ih (acc ++ [(kv.1, h0)]) f F
                (fun q hq => hgood q (List.mem_cons_of_mem _ hq))
                (List.nodup_cons.1 hnodup).2
                (by
                  intro q hq
                  rw [lookupA_append_of_none _ _ _ (hfresh q (List.mem_cons_of_mem _ hq)),
                    lookupA_cons, if_neg (by
                      intro hcon
                      exact hknotin (by rw [hcon]; exact List.mem_map_of_mem Prod.fst hq))]
                  rfl)
                (by intro hcon; exact List.noConfusion hcon)
                (by
                  rw [List.map_cons, List.map_cons, joinComma_cons₂, henc] at hlen
                  rw [List.length_append, List.length_cons] at hlen
                  rw [List.map_cons]
                  omega)
              rw [List.map_cons] at ihres
              have hsh : shallow (kv :: kv' :: tl') = (kv.1, h0) :: shallow (kv' :: tl') := by
                cases kv with
                | mk a b =>
                    dsimp only at hv0
                    cases hv0
                    rfl
              rw [ihres, hsh, List.append_assoc]
              rfl

theorem renderL_append : ∀ (a b : List Seg), renderL (a ++ b) = renderL a ++ renderL b := by
  intro a b
  induction a with
  | nil => rfl
  | cons s ss ih => rw [List.cons_append]; show segStr s ++ renderL (ss ++ b) = _
                    rw [ih]; show _ = segStr s ++ renderL ss ++ renderL b
                    rw [List.append_assoc]

theorem renderF_append : ∀ (a b : List Seg), renderF (a ++ b) = renderF a ++ renderF b := by
  intro a b
  induction a with
  | nil => rfl
  | cons s ss ih => rw [List.cons_append]; show segFlat s ++ renderF (ss ++ b) = _
                    rw [ih]; show _ = segFlat s ++ renderF ss ++ renderF b
                    rw [List.append_assoc]

theorem itemsSegs_append : ∀ (a b : List Seg), itemsSegs (a ++ b) = itemsSegs a ++ itemsSegs b := by
  intro a b
  induction a with
  | nil => rfl
  | cons s ss ih =>
      cases s with
      | txt cs => rw [List.cons_append]; show itemsSegs (ss ++ b) = itemsSegs (.txt cs :: ss) ++ _
                  rw [ih]; rfl
      | sg n h es => rw [List.cons_append]
                     show (some ⟨(n : Int), 0⟩, es) :: itemsSegs (ss ++ b) = _
                     rw [ih]; rfl

theorem pairsSegs_append : ∀ (a : List Seg) (i : Nat) (b : List Seg),
    pairsSegs i (a ++ b) = pairsSegs i a ++ pairsSegs (i + (renderL a).length) b := by
  intro a
  induction a with
  | nil => intro i b; rfl
  | cons s ss ih =>
      intro i b
      cases s with
      | txt cs =>
          rw [List.cons_append]
          show pairsSegs (i + cs.length) (ss ++ b) = pairsSegs (i + cs.length) ss ++ _
          rw [ih]
          have hl : (renderL (.txt cs :: ss)).length = cs.length + (renderL ss).length := by
            show (cs ++ renderL ss).length = _
            rw [List.length_append]
          rw [hl]
          have : i + cs.length + (renderL ss).length = i + (cs.length + (renderL ss).length) := by omega
          rw [this]
      | sg n h es =>
          rw [List.cons_append]
          show (i, i + (joinComma (es.map flatEnc)).length + 1) :: pairsSegs (i + (segStr (.sg n h es)).length) (ss ++ b) = _
          rw [ih]
          have hl : (renderL (.sg n h es :: ss)).length = (segStr (.sg n h es)).length + (renderL ss).length := by
            show ((segStr (.sg n h es)) ++ renderL ss).length = _
            rw [List.length_append]
          rw [hl]
          have : i + (segStr (.sg n h es)).length + (renderL ss).length
              = i + ((segStr (.sg n h es)).length + (renderL ss).length) := by omega
          rw [this]
          rfl

theorem scanPairs_cons (lv : Int) (c : Char) (rest : List Char) (i : Nat) (cl : Int)
    (st : Nat) (acc : List (Nat × Nat)) :
    scanPairs lv (c :: rest) (i, cl, st, acc) =
      if c = '(' then scanPairs lv rest (i + 1, cl + 1, if cl + 1 = lv then i else st, acc)
      else if c = ')' then
        scanPairs lv rest (i + 1, cl - 1, st, if cl = lv then acc ++ [(st, i)] else acc)
      else scanPairs lv rest (i + 1, cl, st, acc) := rfl

theorem findPairsAux_eq_scan (lv : Int) : ∀ (cs : List Char) (i : Nat) (cl : Int) (st : Nat)
    (acc : List (Nat × Nat)),
    findPairsAux lv cs i cl st acc = (scanPairs lv cs (i, cl, st, acc)).2.2.2 := by
  intro cs
  induction cs with
  | nil => intro i cl st acc; rfl
  | cons c rest ih =>
      intro i cl st acc
      rw [scanPairs_cons]
      by_cases h1 : c = '('
      · rw [if_pos h1]
        show (if c = '(' then _ else _) = _
        rw [if_pos h1]
        exact ih _ _ _ _
      · rw [if_neg h1]
        by_cases h2 : c = ')'
        · rw [if_pos h2]
          show (if c = '(' then _ else _) = _
          rw [if_neg h1, if_pos h2]
          exact ih _ _ _ _
        · rw [if_neg h2]
          show (if c = '(' then _ else _) = _
          rw [if_neg h1, if_neg h2]
          exact ih _ _ _ _

theorem scanPairs_append (lv : Int) : ∀ (xs ys : List Char) (s : Nat × Int × Nat × List (Nat × Nat)),
    scanPairs lv (xs ++ ys) s = scanPairs lv ys (scanPairs lv xs s) := by
  intro xs
  induction xs with
  | nil => intro ys s; rfl
  | cons c xs ih =>
      intro ys s
      obtain ⟨i, cl, st, acc⟩ := s
      rw [List.cons_append, scanPairs_cons, scanPairs_cons]
      by_cases h1 : c = '('
      · rw [if_pos h1, if_pos h1, ih]
      · rw [if_neg h1, if_neg h1]
        by_cases h2 : c = ')'
        · rw [if_pos h2, if_pos h2, ih]
        · rw [if_neg h2, if_neg h2, ih]

theorem noParen_append {a b : List Char} (ha : NoParen a) (hb : NoParen b) :
    NoParen (a ++ b) := by
  intro c hc
  rcases List.mem_append.1 hc with h | h
  · exact ha c h
  · exact hb c h

theorem scanPairs_inert (lv : Int) : ∀ (T : List Char) (i : Nat) (cl : Int) (st : Nat)
    (acc : List (Nat × Nat)), NoParen T →
    scanPairs lv T (i, cl, st, acc) = (i + T.length, cl, st, acc) := by
  intro T
  induction T with
  | nil => intro i cl st acc _; rfl
  | cons c rest ih =>
      intro i cl st acc hT
      rw [scanPairs_cons, if_neg (hT c (by exact List.mem_cons_self c rest)).1,
        if_neg (hT c (by exact List.mem_cons_self c rest)).2,
        ih (i + 1) cl st acc (fun x hx => hT x (List.mem_cons_of_mem c hx))]
      have : i + 1 + rest.length = i + (c :: rest).length := by
        rw [List.length_cons]; omega
      rw [this]

theorem flatEnc_noParen (kv : Dec × Dec) : NoParen (flatEnc kv) := by
  intro c hc
  rcases List.mem_append.1 hc with h | h
  · have hd := (natDigits_spec kv.1.m.toNat).1 c h
    exact ⟨(digit_not_special c hd).2.2.2.1, (digit_not_special c hd).2.2.2.2.1⟩
  · rcases List.mem_cons.1 h with rfl | h
    · exact ⟨by decide, by decide⟩
    · rcases decTok_digits_or_dot kv.2 c h with hd | rfl
      · exact ⟨(digit_not_special c hd).2.2.2.1, (digit_not_special c hd).2.2.2.2.1⟩
      · exact ⟨by decide, by decide⟩

theorem joinComma_noParen : ∀ (es : List (Dec × Dec)), NoParen (joinComma (es.map flatEnc)) := by
  intro es
  induction es with
  | nil => intro c hc; exact absurd hc (List.not_mem_nil c)
  | cons kv tl ih =>
      cases tl with
      | nil => exact flatEnc_noParen kv
      | cons kv' tl' =>
          rw [List.map_cons, List.map_cons, joinComma_cons₂]
          refine noParen_append (flatEnc_noParen kv) ?_
          intro c hc
          rcases List.mem_cons.1 hc with rfl | h
          · exact ⟨by decide, by decide⟩
          · rw [← List.map_cons] at h
            exact ih c h

theorem segsE_num (F t : Nat) (k h : Dec) :
    segsE (F + 1) t (k, .num h) = [.txt (flatEnc (k, h))] := rfl

theorem segsE_pair0 (F : Nat) (k h : Dec) (sub : NDict) :
    segsE (F + 1) 0 (k, .pair sub h) = [.txt (flatEnc (k, h))] := rfl

theorem segsE_pair1 (F : Nat) (k h : Dec) (sub : NDict) :
    segsE (F + 1) 1 (k, .pair sub h) = [.sg k.m.toNat h (shallow sub)] := rfl

theorem segsE_pair2 (F t : Nat) (k h : Dec) (sub : NDict) :
    segsE (F + 1) (t + 2) (k, .pair sub h) =
      .txt ['('] :: segsD F (t + 1) sub ++ [.txt (')' :: flatEnc (k, h))] := rfl

theorem joinSegs_cons₂ (x y : List Seg) (xs : List (List Seg)) :
    joinSegs (x :: y :: xs) = x ++ .txt [','] :: joinSegs (y :: xs) := rfl

theorem segsD_cons₂ (F t : Nat) (kv kv' : Dec × NVal) (tl : NDict) :
    segsD F t (kv :: kv' :: tl) =
      segsE F t kv ++ .txt [','] :: segsD F t (kv' :: tl) := rfl

theorem renderL_single (s : Seg) : renderL [s] = segStr s := by
  show segStr s ++ renderL [] = _
  rw [show renderL [] = [] from rfl, List.append_nil]

theorem renderF_single (s : Seg) : renderF [s] = segFlat s := by
  show segFlat s ++ renderF [] = _
  rw [show renderF [] = [] from rfl, List.append_nil]

theorem renderL_txtCons (T : List Char) (ss : List Seg) :
    renderL (.txt T :: ss) = T ++ renderL ss := rfl

theorem renderF_txtCons (T : List Char) (ss : List Seg) :
    renderF (.txt T :: ss) = T ++ renderF ss := rfl

theorem pairsSegs_txtCons (i : Nat) (T : List Char) (ss : List Seg) :
    pairsSegs i (.txt T :: ss) = pairsSegs (i + T.length) ss := rfl

theorem allTxtNP_append {a b : List Seg} (ha : AllTxtNP a) (hb : AllTxtNP b) :
    AllTxtNP (a ++ b) := by
  intro s hs
  rcases List.mem_append.1 hs with h | h
  · exact ha s h
  · exact hb s h

theorem renderL_noParen : ∀ {ss : List Seg}, AllTxtNP ss → NoParen (renderL ss) := by
  intro ss
  induction ss with
  | nil => intro _ c hc; exact absurd hc (List.not_mem_nil c)
  | cons s ss ih =>
      intro hA c hc
      obtain ⟨T, rfl, hT⟩ := hA s (List.mem_cons_self s ss)
      rcases List.mem_append.1 hc with h | h
      · exact hT c h
      · exact ih (fun x hx => hA x (List.mem_cons_of_mem _ hx)) c h

theorem pairsSegs_allTxt : ∀ {ss : List Seg}, AllTxtNP ss → ∀ i, pairsSegs i ss = [] := by
  intro ss
  induction ss with
  | nil => intro _ i; rfl
  | cons s ss ih =>
      intro hA i
      obtain ⟨T, rfl, _⟩ := hA s (List.mem_cons_self s ss)
      rw [pairsSegs_txtCons]
      exact ih (fun x hx => hA x (List.mem_cons_of_mem _ hx)) _

theorem itemsSegs_allTxt : ∀ {ss : List Seg}, AllTxtNP ss → itemsSegs ss = [] := by
  intro ss
  induction ss with
  | nil => intro _; rfl
  | cons s ss ih =>
      intro hA
      obtain ⟨T, rfl, _⟩ := hA s (List.mem_cons_self s ss)
      show itemsSegs ss = []
      exact ih (fun x hx => hA x (List.mem_cons_of_mem _ hx))

theorem joinSegs_allTxt : ∀ {L : List (List Seg)}, (∀ x ∈ L, AllTxtNP x) →
    AllTxtNP (joinSegs L) := by
  intro L
  induction L with
  | nil => intro _ s hs; exact absurd hs (List.not_mem_nil s)
  | cons x ys ih =>
      intro hL
      cases ys with
      | nil => exact hL x (List.mem_cons_self x [])
      | cons y xs =>
          rw [joinSegs_cons₂]
          refine allTxtNP_append (hL x (List.mem_cons_self x _)) ?_
          intro s hs
          rcases List.mem_cons.1 hs with rfl | h
          · exact ⟨[','], rfl, fun c hc => by
              rcases List.mem_singleton.1 hc with rfl
              exact ⟨by decide, by decide⟩⟩
          · exact ih (fun z hz => hL z (List.mem_cons_of_mem x hz)) s h

theorem segsD_zero_allTxt : ∀ (t : Nat) (d : NDict), AllTxtNP (segsD 0 t d) := by
  intro t d
  refine joinSegs_allTxt ?_
  intro x hx
  rcases List.mem_map.1 hx with ⟨kv, _, rfl⟩
  intro s hs
  exact absurd hs (List.not_mem_nil s)

theorem segsD_flat_allTxt : ∀ (F : Nat) (d : NDict), AllTxtNP (segsD F 0 d) := by
  intro F d
  refine joinSegs_allTxt ?_
  intro x hx
  rcases List.mem_map.1 hx with ⟨kv, _, rfl⟩
  cases F with
  | zero => intro s hs; exact absurd hs (List.not_mem_nil s)
  | succ F =>
      obtain ⟨k, v⟩ := kv
      cases v with
      | num h =>
          rw [segsE_num]
          intro s hs
          rcases List.mem_singleton.1 hs with rfl
          exact ⟨flatEnc (k, h), rfl, flatEnc_noParen _⟩
      | pair sub h =>
          rw [segsE_pair0]
          intro s hs
          rcases List.mem_singleton.1 hs with rfl
          exact ⟨flatEnc (k, h), rfl, flatEnc_noParen _⟩

theorem scanPairs_sg (lv : Int) (n : Nat) (h : Dec) (es : List (Dec × Dec)) (i st : Nat)
    (acc : List (Nat × Nat)) :
    scanPairs lv (segStr (.sg n h es)) (i, lv - 1, st, acc) =
      (i + (segStr (.sg n h es)).length, lv - 1, i,
        acc ++ [(i, i + (joinComma (es.map flatEnc)).length + 1)]) := by
  have hlen : (segStr (Seg.sg n h es)).length =
      (joinComma (es.map flatEnc)).length + (flatEnc (⟨(n : Int), 0⟩, h)).length + 2 := by
    show ('(' :: (joinComma (es.map flatEnc) ++ ')' :: flatEnc (⟨(n : Int), 0⟩, h))).length = _
    rw [List.length_cons, List.length_append, List.length_cons]
    omega
  show scanPairs lv ('(' :: (joinComma (es.map flatEnc) ++ ')' :: flatEnc (⟨(n : Int), 0⟩, h)))
      (i, lv - 1, st, acc) = _
  rw [scanPairs_cons, if_pos rfl]
  have h1 : lv - 1 + 1 = lv := by omega
  rw [h1, if_pos rfl, scanPairs_append, scanPairs_inert lv _ _ _ _ _ (joinComma_noParen es),
    scanPairs_cons, if_neg (by decide : ¬((')' : Char) = '(')), if_pos rfl, if_pos rfl,
    scanPairs_inert lv _ _ _ _ _ (flatEnc_noParen _)]
  have h2 : lv - 1 = lv - 1 := rfl
  have h3 : i + 1 + (joinComma (es.map flatEnc)).length + 1 + (flatEnc (⟨(n : Int), 0⟩, h)).length
      = i + (segStr (Seg.sg n h es)).length := by
    rw [hlen]; omega
  have h4 : i + 1 + (joinComma (es.map flatEnc)).length
      = i + (joinComma (es.map flatEnc)).length + 1 := by omega
  rw [h3, h4]

theorem scan_segsE_of (lv : Int) (F : Nat)
    (IH : ∀ (t : Nat) (d : NDict) (i st : Nat) (acc : List (Nat × Nat)), 1 ≤ t →
      ∃ st2, scanPairs lv (renderL (segsD F t d)) (i, lv - t, st, acc) =
        (i + (renderL (segsD F t d)).length, lv - t, st2, acc ++ pairsSegs i (segsD F t d))) :
    ∀ (t : Nat) (kv : Dec × NVal) (i st : Nat) (acc : List (Nat × Nat)), 1 ≤ t →
      ∃ st2, scanPairs lv (renderL (segsE (F + 1) t kv)) (i, lv - t, st, acc) =
        (i + (renderL (segsE (F + 1) t kv)).length, lv - t, st2,
          acc ++ pairsSegs i (segsE (F + 1) t kv)) := by
  intro t kv i st acc ht
  obtain ⟨k, v⟩ := kv
  cases v with
  | num h =>
      refine ⟨st, ?_⟩
      rw [segsE_num, renderL_single,
        show segStr (Seg.txt (flatEnc (k, h))) = flatEnc (k, h) from rfl,
        scanPairs_inert lv _ _ _ _ _ (flatEnc_noParen _)]
      rw [show pairsSegs i [Seg.txt (flatEnc (k, h))] = [] from rfl, List.append_nil]
  | pair sub h =>
      match t, ht with
      | 1, _ =>
          refine ⟨i, ?_⟩
          rw [segsE_pair1, renderL_single, Nat.cast_one, scanPairs_sg]
          rfl
      | t' + 2, _ =>
          rw [segsE_pair2]
          have hrw : renderL (Seg.txt ['('] :: segsD F (t' + 1) sub ++ [.txt (')' :: flatEnc (k, h))])
              = '(' :: (renderL (segsD F (t' + 1) sub) ++ (')' :: flatEnc (k, h))) := by
            rw [show (Seg.txt ['('] :: segsD F (t' + 1) sub ++ [Seg.txt (')' :: flatEnc (k, h))])
                = Seg.txt ['('] :: (segsD F (t' + 1) sub ++ [Seg.txt (')' :: flatEnc (k, h))]) from rfl,
              renderL_txtCons, renderL_append, renderL_single]
            rfl
          rw [hrw]
          rw [scanPairs_cons, if_pos rfl]
          have h1 : ¬(lv - ((t' + 2 : Nat) : Int) + 1 = lv) := by
            push_cast
            omega
          rw [if_neg h1]
          have h2 : lv - ((t' + 2 : Nat) : Int) + 1 = lv - ((t' + 1 : Nat) : Int) := by
            push_cast
            omega
          rw [h2, scanPairs_append]
          obtain ⟨st2, hsub⟩ := IH (t' + 1) sub (i + 1) st acc (by omega)
          rw [hsub, scanPairs_cons, if_neg (by decide : ¬((')' : Char) = '(')), if_pos rfl]
          have h3 : ¬(lv - ((t' + 1 : Nat) : Int) = lv) := by
            push_cast
            omega
          rw [if_neg h3]
          have h4 : lv - ((t' + 1 : Nat) : Int) - 1 = lv - ((t' + 2 : Nat) : Int) := by
            push_cast
            omega
          rw [h4, scanPairs_inert lv _ _ _ _ _ (flatEnc_noParen _)]
          refine ⟨st2, ?_⟩
          have h5 : i + 1 + (renderL (segsD F (t' + 1) sub)).length + 1 + (flatEnc (k, h)).length
              = i + ('(' :: (renderL (segsD F (t' + 1) sub) ++ (')' :: flatEnc (k, h)))).length := by
            rw [List.length_cons, List.length_append, List.length_cons]
            omega
          rw [← hrw] at h5
          rw [h5]
          have h6 : pairsSegs i (Seg.txt ['('] :: segsD F (t' + 1) sub ++ [.txt (')' :: flatEnc (k, h))])
              = pairsSegs (i + 1) (segsD F (t' + 1) sub) := by
            rw [show (Seg.txt ['('] :: segsD F (t' + 1) sub ++ [.txt (')' :: flatEnc (k, h))])
                = Seg.txt ['('] :: (segsD F (t' + 1) sub ++ [.txt (')' :: flatEnc (k, h))]) from rfl,
              pairsSegs_txtCons, pairsSegs_append]
            rw [show pairsSegs ((i + ['('].length) + (renderL (segsD F (t' + 1) sub)).length)
                [Seg.txt (')' :: flatEnc (k, h))] = [] from rfl, List.append_nil]
            rfl
          rw [h6, hrw]

theorem scan_segsD (lv : Int) : ∀ (F t : Nat) (d : NDict) (i st : Nat) (acc : List (Nat × Nat)),
    1 ≤ t →
    ∃ st2, scanPairs lv (renderL (segsD F t d)) (i, lv - t, st, acc) =
      (i + (renderL (segsD F t d)).length, lv - t, st2, acc ++ pairsSegs i (segsD F t d)) := by
  intro F
  induction F with
  | zero =>
      intro t d i st acc _
      refine ⟨st, ?_⟩
      rw [scanPairs_inert lv _ _ _ _ _ (renderL_noParen (segsD_zero_allTxt t d)),
        pairsSegs_allTxt (segsD_zero_allTxt t d), List.append_nil]
  | succ F ihF =>
      intro t d
      induction d with
      | nil =>
          intro i st acc _
          refine ⟨st, ?_⟩
          rw [show renderL (segsD (F + 1) t []) = [] from rfl,
            show pairsSegs i (segsD (F + 1) t []) = [] from rfl,
            List.append_nil]
          rfl
      | cons kv rest ihd =>
          cases rest with
          | nil =>
              intro i st acc ht
              exact scan_segsE_of lv F ihF t kv i st acc ht
          | cons kv' tl =>
              intro i st acc ht
              rw [show segsD (F + 1) t (kv :: kv' :: tl)
                  = segsE (F + 1) t kv ++ .txt [','] :: segsD (F + 1) t (kv' :: tl) from rfl,
                renderL_append, renderL_txtCons, scanPairs_append]
              obtain ⟨st2, hE⟩ := scan_segsE_of lv F ihF t kv i st acc ht
              rw [hE, show ([','] ++ renderL (segsD (F + 1) t (kv' :: tl)))
                  = ',' :: renderL (segsD (F + 1) t (kv' :: tl)) from rfl,
                scanPairs_cons, if_neg (by decide : ¬((',' : Char) = '(')),
                if_neg (by decide : ¬((',' : Char) = ')'))]
              obtain ⟨st3, hR⟩ := ihd (i + (renderL (segsE (F + 1) t kv)).length + 1) st2
                (acc ++ pairsSegs i (segsE (F + 1) t kv)) ht
              rw [hR]
              refine ⟨st3, ?_⟩
              rw [pairsSegs_append, pairsSegs_txtCons, List.append_assoc]
              have hlen : (renderL (segsE (F + 1) t kv) ++ [','] ++ renderL (segsD (F + 1) t (kv' :: tl))).length
                  = (renderL (segsE (F + 1) t kv)).length + 1 + (renderL (segsD (F + 1) t (kv' :: tl))).length := by
                rw [List.length_append, List.length_append]
                rfl
              have h7 : i + (renderL (segsE (F + 1) t kv)).length + 1 + (renderL (segsD (F + 1) t (kv' :: tl))).length
                  = i + (renderL (segsE (F + 1) t kv) ++ [','] ++ renderL (segsD (F + 1) t (kv' :: tl))).length := by
                rw [hlen]
                omega
              have h8 : i + (renderL (segsE (F + 1) t kv)).length + [','].length
                  = i + (renderL (segsE (F + 1) t kv)).length + 1 := rfl
              rw [h8, h7, List.append_assoc (renderL (segsE (F + 1) t kv)) [','], List.singleton_append]

theorem findPairs_eq_scan (s : List Char) (lv : Int) :
    findPairs s lv = (scanPairs lv s (0, 0, 0, [])).2.2.2 :=
  findPairsAux_eq_scan lv s 0 0 0 []

theorem findPairs_top (lv : Int) (F t : Nat) (d : NDict) (h2 : 2 ≤ lv)
    (ht : (t : Int) = lv - 1) :
    findPairs ('(' :: (renderL (segsD F t d) ++ [')', ':'])) lv = pairsSegs 1 (segsD F t d) := by
  rw [findPairs_eq_scan, scanPairs_cons, if_pos rfl, ite_self]
  have h01 : (0 : Int) + 1 = lv - (t : Int) := by omega
  rw [h01, scanPairs_append]
  obtain ⟨st2, hsc⟩ := scan_segsD lv F t d 1 0 [] (by omega)
  rw [hsc, scanPairs_cons, if_neg (by decide : ¬((')' : Char) = '(')), if_pos rfl,
    if_neg (by omega : ¬(lv - (t : Int) = lv)), scanPairs_cons,
    if_neg (by decide : ¬((':' : Char) = '(')), if_neg (by decide : ¬((':' : Char) = ')'))]
  rfl

theorem findPairs_trunk (ss : List Seg) (hA : AllTxtNP ss) :
    findPairs ('(' :: (renderL ss ++ [')', ':'])) 1 = [(0, (renderL ss).length + 1)] := by
  rw [findPairs_eq_scan, scanPairs_cons, if_pos rfl, ite_self, scanPairs_append,
    scanPairs_inert 1 _ _ _ _ _ (renderL_noParen hA), scanPairs_cons,
    if_neg (by decide : ¬((')' : Char) = '(')), if_pos rfl,
    if_pos (by omega : (0 : Int) + 1 = 1), scanPairs_cons,
    if_neg (by decide : ¬((':' : Char) = '(')), if_neg (by decide : ¬((':' : Char) = ')'))]
  have h1 : 1 + (renderL ss).length = (renderL ss).length + 1 := by omega
  rw [h1]
  rfl

theorem findIdx_colon : ∀ (pre R : List Char) (j : Nat), (∀ c ∈ pre, c ≠ ':') →
    List.findIdx? (fun x => decide (x = ':')) (pre ++ ':' :: R) j = some (pre.length + j) := by
  intro pre
  induction pre with
  | nil =>
      intro R j _
      rw [List.nil_append, List.findIdx?_cons, if_pos (by decide)]
      rw [List.length_nil, Nat.zero_add]
  | cons c pre ih =>
      intro R j hc
      rw [List.cons_append, List.findIdx?_cons,
        if_neg (by simpa using hc c (List.mem_cons_self c pre)),
        ih R (j + 1) (fun x hx => hc x (List.mem_cons_of_mem _ hx))]
      rw [List.length_cons]
      have : pre.length + (j + 1) = pre.length + 1 + j := by omega
      rw [this]

theorem slice_mid (X Y Z : List Char) :
    pySliceNN (X ++ (Y ++ Z)) X.length (X.length + Y.length) = Y := by
  unfold pySliceNN
  rw [← List.append_assoc, ← List.length_append,
    List.take_left (X ++ Y) Z, List.drop_left X Y]

theorem isEmpty_false_of_ne_nil {l : List Char} (h : l ≠ []) : l.isEmpty = false := by
  cases l with
  | nil => exact absurd rfl h
  | cons a l => rfl

theorem processPair_grp (A I R : List Char) (n : Nat) (items : Items)
    (es : List (Dec × Dec)) (hEval : evalDict I = .ok es) :
    processPair ((A ++ '(' :: I) ++ ')' :: (natDigits n ++ ':' :: R), items)
      (A.length, A.length + I.length + 1) =
      .ok (A ++ (natDigits n ++ ':' :: R), upsertA items (some ⟨(n : Int), 0⟩) es) := by
  have hX1 : (A ++ '(' :: I).length = A.length + I.length + 1 := by
    rw [List.length_append, List.length_cons]
    omega
  have hlen2 : (A ++ '(' :: I ++ [')']).length = A.length + I.length + 1 + 1 := by
    simp
    omega
  have hfind : pyFind ((A ++ '(' :: I) ++ ')' :: (natDigits n ++ ':' :: R)) ':'
      (A.length + I.length + 1)
      = ((A.length + I.length + 1 + (1 + (natDigits n).length) : Nat) : Int) := by
    unfold pyFind
    rw [← hX1, List.drop_left, List.findIdx?_cons, if_neg (by decide),
      findIdx_colon _ _ _
        (fun c hc => (digit_not_special c ((natDigits_spec n).1 c hc)).2.2.1)]
    show (((A ++ '(' :: I).length + ((natDigits n).length + (0 + 1)) : Nat) : Int) = _
    rw [hX1]
    omega
  have hsplit : (A ++ '(' :: I) ++ ')' :: (natDigits n ++ ':' :: R)
      = (A ++ '(' :: I ++ [')']) ++ (natDigits n ++ (':' :: R)) := by
    simp
  have hslice1 : pySliceNN ((A ++ '(' :: I) ++ ')' :: (natDigits n ++ ':' :: R))
      (A.length + I.length + 1 + 1) (A.length + I.length + 1 + (1 + (natDigits n).length))
      = natDigits n := by
    rw [hsplit]
    have key := slice_mid (A ++ '(' :: I ++ [')']) (natDigits n) (':' :: R)
    rw [hlen2] at key
    have hb : A.length + I.length + 1 + (1 + (natDigits n).length)
        = A.length + I.length + 1 + 1 + (natDigits n).length := by omega
    rw [hb]
    exact key
  have hslice2 : pySliceNN ((A ++ '(' :: I) ++ ')' :: (natDigits n ++ ':' :: R))
      (A.length + 1) (A.length + I.length + 1) = I := by
    have hsplit2 : (A ++ '(' :: I) ++ ')' :: (natDigits n ++ ':' :: R)
        = (A ++ ['(']) ++ (I ++ (')' :: (natDigits n ++ ':' :: R))) := by
      simp
    rw [hsplit2]
    have key := slice_mid (A ++ ['(']) I (')' :: (natDigits n ++ ':' :: R))
    have hlen3 : (A ++ ['(']).length = A.length + 1 := by simp
    rw [hlen3] at key
    have hb : A.length + I.length + 1 = A.length + 1 + I.length := by omega
    rw [hb]
    exact key
  have htake : ((A ++ '(' :: I) ++ ')' :: (natDigits n ++ ':' :: R)).take A.length = A := by
    rw [List.append_assoc]
    exact List.take_left A _
  have hdrop : ((A ++ '(' :: I) ++ ')' :: (natDigits n ++ ':' :: R)).drop
      (A.length + I.length + 1 + 1) = natDigits n ++ ':' :: R := by
    rw [hsplit, ← hlen2]
    exact List.drop_left _ _
  simp only [processPair]
  rw [hfind,
    if_neg (by omega :
      ¬(((A.length + I.length + 1 + (1 + (natDigits n).length) : Nat) : Int) < 0)),
    Int.toNat_natCast, hslice1, isEmpty_false_of_ne_nil (natDigits_spec n).2.1,
    if_neg (by decide : ¬(false = true)), pyInt_natDigits n, hslice2, hEval, htake, hdrop]
  rfl

theorem processPair_trunk (I : List Char) (items : Items) (es : List (Dec × Dec))
    (hEval : evalDict I = .ok es) :
    processPair ('(' :: (I ++ [')', ':']), items) (0, I.length + 1) =
      .ok ([':'], upsertA items none es) := by
  have hsplitA : ('(' :: (I ++ [')', ':'])) = ('(' :: I) ++ [')', ':'] := by simp
  have hsplitB : ('(' :: (I ++ [')', ':'])) = ('(' :: I ++ [')']) ++ [':'] := by simp
  have hlenA : ('(' :: I).length = I.length + 1 := by simp
  have hlenB : ('(' :: I ++ [')']).length = I.length + 1 + 1 := by simp
  have hfind : pyFind ('(' :: (I ++ [')', ':'])) ':' (I.length + 1)
      = ((I.length + 1 + 1 : Nat) : Int) := by
    unfold pyFind
    rw [hsplitA, ← hlenA, List.drop_left, List.findIdx?_cons, if_neg (by decide),
      List.findIdx?_cons, if_pos (by decide)]
  have hslice1 : pySliceNN ('(' :: (I ++ [')', ':'])) (I.length + 1 + 1) (I.length + 1 + 1)
      = [] := by
    unfold pySliceNN
    rw [hsplitB, ← hlenB, List.take_left, List.drop_length]
  have hslice2 : pySliceNN ('(' :: (I ++ [')', ':'])) (0 + 1) (I.length + 1) = I := by
    have key := slice_mid ['('] I [')', ':']
    have h1 : (['('] : List Char).length = 0 + 1 := rfl
    have h2 : (['('] : List Char).length + I.length = I.length + 1 := by
      simp
      omega
    rw [h2, h1] at key
    exact key
  have hdrop : ('(' :: (I ++ [')', ':'])).drop (I.length + 1 + 1) = [':'] := by
    rw [hsplitB, ← hlenB]
    exact List.drop_left _ _
  simp only [processPair]
  rw [hfind,
    if_neg (by omega : ¬(((I.length + 1 + 1 : Nat) : Int) < 0)),
    Int.toNat_natCast, hslice1]
  rw [if_pos (by decide : ([] : List Char).isEmpty = true)]
  rw [hslice2, hEval, List.take_zero, hdrop]
  rfl

theorem map_enc_wrap : ∀ (es : List (Dec × Dec)) (F : Nat),
    (es.map (fun x => (x.1, NVal.num x.2))).map (encEntryF (F + 1)) = es.map flatEnc := by
  intro es F
  induction es with
  | nil => rfl
  | cons kv tl ih =>
      rw [List.map_cons, List.map_cons, List.map_cons, ih]
      rfl

theorem shallow_wrap : ∀ (es : List (Dec × Dec)),
    shallow (es.map (fun x => (x.1, NVal.num x.2))) = es := by
  intro es
  induction es with
  | nil => rfl
  | cons kv tl ih =>
      rw [List.map_cons, shallow_cons, ih]

theorem flatEnc_ne_nil (kv : Dec × Dec) : flatEnc kv ≠ [] := by
  intro h
  obtain ⟨-, h2⟩ := List.append_eq_nil.1 h
  exact List.noConfusion h2

theorem joinComma_flatEnc_ne_nil (kv : Dec × Dec) (tl : List (Dec × Dec)) :
    joinComma ((kv :: tl).map flatEnc) ≠ [] := by
  cases tl with
  | nil => exact flatEnc_ne_nil kv
  | cons kv' tl' =>
      rw [List.map_cons, List.map_cons, joinComma_cons₂]
      intro h
      obtain ⟨h1, -⟩ := List.append_eq_nil.1 h
      exact flatEnc_ne_nil kv h1

theorem evalDict_flat (es : List (Dec × Dec))
    (hgood : ∀ kv ∈ es, 0 ≤ kv.1.m ∧ kv.1.e = 0 ∧ Dec.make kv.2.m kv.2.e = kv.2 ∧ 0 ≤ kv.2.m)
    (hnd : (es.map Prod.fst).Nodup) :
    evalDict (joinComma (es.map flatEnc)) = .ok es := by
  cases es with
  | nil => rfl
  | cons kv tl =>
      have hwrap := map_enc_wrap (kv :: tl) 0
      have hne := joinComma_flatEnc_ne_nil kv tl
      unfold evalDict
      rw [isEmpty_false_of_ne_nil hne, if_neg (by decide : ¬(false = true))]
      have happ := evalEntriesF_flat ((kv :: tl).map (fun x => (x.1, NVal.num x.2))) []
        ((joinComma ((kv :: tl).map flatEnc)).length + 1) 0
        (by
          intro x hx
          rcases List.mem_map.1 hx with ⟨y, hy, rfl⟩
          obtain ⟨h1, h2, h3, h4⟩ := hgood y hy
          exact ⟨h1, h2, y.2, rfl, h3, h4⟩)
        (by
          rw [show ((kv :: tl).map (fun x => (x.1, NVal.num x.2))).map Prod.fst
              = (kv :: tl).map Prod.fst from by
            rw [List.map_map]
            rfl]
          exact hnd)
        (fun x _ => rfl)
        (by
          intro h
          exact List.noConfusion (List.map_eq_nil_iff.1 h))
        (by
          rw [hwrap]
          omega)
      rw [hwrap] at happ
      rw [happ, shallow_wrap]
      rfl

theorem lookupA_none_of_not_mem {α β : Type} [DecidableEq α] :
    ∀ (xs : List (α × β)) (k : α), k ∉ xs.map Prod.fst → lookupA xs k = none := by
  intro xs
  induction xs with
  | nil => intro k _; rfl
  | cons p rest ih =>
      intro k hk
      rw [lookupA_cons p.1 p.2]
      rw [if_neg (fun he => hk (by rw [List.map_cons, ← he]; exact List.mem_cons_self _ _))]
      exact ih k (fun hm => hk (by rw [List.map_cons]; exact List.mem_cons_of_mem _ hm))

theorem foldPairs : ∀ (ss : List Seg) (C0 tail : List Char) (items : Items),
    (∀ s ∈ ss, sgOK s) →
    ((items ++ (itemsSegs ss).reverse).map Prod.fst).Nodup →
    (pairsSegs C0.length ss).reverse.foldlM processPair (C0 ++ renderL ss ++ tail, items) =
      .ok (C0 ++ renderF ss ++ tail, items ++ (itemsSegs ss).reverse) := by
  intro ss
  induction ss using List.reverseRecOn with
  | nil =>
      intro C0 tail items _ _
      rw [show itemsSegs [] = [] from rfl, show pairsSegs C0.length [] = [] from rfl,
        show renderL [] = [] from rfl, show renderF [] = [] from rfl, List.append_nil,
        show (([] : List (Nat × Nat)).reverse) = [] from rfl,
        show (([] : Items).reverse) = [] from rfl, List.append_nil]
      rfl
  | append_singleton ss s ih =>
      intro C0 tail items hOK hND
      have hOK' : ∀ x ∈ ss, sgOK x := fun x hx => hOK x (List.mem_append_left _ hx)
      cases s with
      | txt T =>
          have hIT : itemsSegs (ss ++ [Seg.txt T]) = itemsSegs ss := by
            rw [itemsSegs_append, show itemsSegs [Seg.txt T] = [] from rfl, List.append_nil]
          have hP : pairsSegs C0.length (ss ++ [Seg.txt T]) = pairsSegs C0.length ss := by
            rw [pairsSegs_append, show ∀ j, pairsSegs j [Seg.txt T] = [] from fun j => rfl,
              List.append_nil]
          have hR1 : C0 ++ renderL (ss ++ [Seg.txt T]) ++ tail
              = C0 ++ renderL ss ++ (T ++ tail) := by
            rw [renderL_append, renderL_single, show segStr (Seg.txt T) = T from rfl]
            simp
          have hR2 : C0 ++ renderF (ss ++ [Seg.txt T]) ++ tail
              = C0 ++ renderF ss ++ (T ++ tail) := by
            rw [renderF_append, renderF_single, show segFlat (Seg.txt T) = T from rfl]
            simp
          have hND' : ((items ++ (itemsSegs ss).reverse).map Prod.fst).Nodup := by
            rw [hIT] at hND
            exact hND
          rw [hP, hR1, hR2, hIT]
          exact ih C0 (T ++ tail) items hOK' hND'
      | sg n h es =>
          have hsg : sgOK (Seg.sg n h es) :=
            hOK _ (List.mem_append_right _ (List.mem_singleton.2 rfl))
          have hEval : evalDict (joinComma (es.map flatEnc)) = .ok es :=
            evalDict_flat es hsg.1 hsg.2
          have hIT : itemsSegs (ss ++ [Seg.sg n h es])
              = itemsSegs ss ++ [(some (⟨(n : Int), 0⟩ : Dec), es)] := by
            rw [itemsSegs_append]
            rfl
          have hITr : (itemsSegs (ss ++ [Seg.sg n h es])).reverse
              = (some (⟨(n : Int), 0⟩ : Dec), es) :: (itemsSegs ss).reverse := by
            rw [hIT, List.reverse_append]
            rfl
          have hP : pairsSegs C0.length (ss ++ [Seg.sg n h es])
              = pairsSegs C0.length ss ++
                [(C0.length + (renderL ss).length,
                  C0.length + (renderL ss).length + (joinComma (es.map flatEnc)).length + 1)] := by
            rw [pairsSegs_append]
            rfl
          have hPrev : (pairsSegs C0.length (ss ++ [Seg.sg n h es])).reverse
              = (C0.length + (renderL ss).length,
                  C0.length + (renderL ss).length + (joinComma (es.map flatEnc)).length + 1) ::
                  (pairsSegs C0.length ss).reverse := by
            rw [hP, List.reverse_append]
            rfl
          have hstr : C0 ++ renderL (ss ++ [Seg.sg n h es]) ++ tail
              = ((C0 ++ renderL ss) ++ '(' :: joinComma (es.map flatEnc))
                  ++ ')' :: (natDigits n ++ ':' :: (decTok h ++ tail)) := by
            rw [renderL_append, renderL_single]
            simp [segStr, flatEnc, Int.toNat_natCast]
          have harg : (C0 ++ renderL ss).length = C0.length + (renderL ss).length :=
            List.length_append _ _
          rw [hPrev, List.foldlM_cons, hstr]
          have hpp := processPair_grp (C0 ++ renderL ss) (joinComma (es.map flatEnc))
            (decTok h ++ tail) n items es hEval
          rw [harg] at hpp
          rw [hpp, exBind_ok]
          have hND' : ((items ++ ((some (⟨(n : Int), 0⟩ : Dec), es) :: (itemsSegs ss).reverse)).map
              Prod.fst).Nodup := by
            rw [hITr] at hND
            exact hND
          have hfresh : lookupA items (some (⟨(n : Int), 0⟩ : Dec)) = none := by
            apply lookupA_none_of_not_mem
            intro hmem
            rw [List.map_append] at hND'
            have hdisj := (List.nodup_append.1 hND').2.2
            exact hdisj hmem (by rw [List.map_cons]; exact List.mem_cons_self _ _)
          rw [upsertA_of_lookup_none items _ es hfresh]
          have hstr2 : (C0 ++ renderL ss) ++ (natDigits n ++ ':' :: (decTok h ++ tail))
              = C0 ++ renderL ss ++ (segFlat (Seg.sg n h es) ++ tail) := by
            simp [segFlat, flatEnc, Int.toNat_natCast]
          rw [hstr2]
          have hND2 : (((items ++ [(some (⟨(n : Int), 0⟩ : Dec), es)]) ++ (itemsSegs ss).reverse).map
              Prod.fst).Nodup := by
            rw [List.append_assoc, List.singleton_append]
            exact hND'
          rw [ih C0 (segFlat (Seg.sg n h es) ++ tail) (items ++ [(some (⟨(n : Int), 0⟩ : Dec), es)])
            hOK' hND2]
          have hR2 : C0 ++ renderF ss ++ (segFlat (Seg.sg n h es) ++ tail)
              = C0 ++ renderF (ss ++ [Seg.sg n h es]) ++ tail := by
            rw [renderF_append, renderF_single]
            simp
          have hfin : (items ++ [(some (⟨(n : Int), 0⟩ : Dec), es)]) ++ (itemsSegs ss).reverse
              = items ++ ((some (⟨(n : Int), 0⟩ : Dec), es) :: (itemsSegs ss).reverse) := by
            rw [List.append_assoc]
            rfl
          rw [hR2, hITr, hfin]

theorem processLevel_step (F t : Nat) (d : NDict) (lv : Int) (items : Items)
    (h2 : 2 ≤ lv) (ht : (t : Int) = lv - 1)
    (hOK : ∀ s ∈ segsD F t d, sgOK s)
    (hND : ((items ++ (itemsSegs (segsD F t d)).reverse).map Prod.fst).Nodup) :
    processLevel ('(' :: (renderL (segsD F t d) ++ [')', ':']), items) lv =
      .ok ('(' :: (renderF (segsD F t d) ++ [')', ':']),
        items ++ (itemsSegs (segsD F t d)).reverse) := by
  unfold processLevel
  rw [findPairs_top lv F t d h2 ht]
  have hfp := foldPairs (segsD F t d) ['('] [')', ':'] items hOK hND
  rw [show (['('] : List Char).length = 1 from rfl] at hfp
  exact hfp

theorem renderL_segsD_flat : ∀ (F : Nat) (d : NDict),
    renderL (segsD (F + 1) 0 d) = joinComma ((shallow d).map flatEnc) := by
  intro F d
  induction d with
  | nil => rfl
  | cons kv tl ih =>
      cases tl with
      | nil =>
          obtain ⟨k, v⟩ := kv
          cases v with
          | num h =>
              rw [show segsD (F + 1) 0 [(k, NVal.num h)] = segsE (F + 1) 0 (k, .num h) from rfl,
                segsE_num, renderL_single]
              rfl
          | pair sub h =>
              rw [show segsD (F + 1) 0 [(k, NVal.pair sub h)]
                  = segsE (F + 1) 0 (k, .pair sub h) from rfl,
                segsE_pair0, renderL_single]
              rfl
      | cons kv' tl' =>
          rw [segsD_cons₂, renderL_append, renderL_txtCons, ih]
          have hE : renderL (segsE (F + 1) 0 kv) = flatEnc (kv.1, hgt kv.2) := by
            obtain ⟨k, v⟩ := kv
            cases v with
            | num h => rw [segsE_num, renderL_single]; rfl
            | pair sub h => rw [segsE_pair0, renderL_single]; rfl
          rw [hE]
          rw [show shallow (kv :: kv' :: tl') = (kv.1, hgt kv.2) :: shallow (kv' :: tl') from by
            rw [shallow_cons]; cases kv.2 <;> rfl]
          rw [List.map_cons]
          rw [show shallow (kv' :: tl') = (kv'.1, hgt kv'.2) :: shallow tl' from by
            rw [shallow_cons]; cases kv'.2 <;> rfl, List.map_cons, joinComma_cons₂,
            ← List.map_cons]
          rw [show ((kv'.1, hgt kv'.2) :: shallow tl') = shallow (kv' :: tl') from by
            rw [shallow_cons]; cases kv'.2 <;> rfl]
          simp

theorem processLevel_trunk (F : Nat) (d : NDict) (items : Items)
    (hgood : ∀ kv ∈ shallow d, 0 ≤ kv.1.m ∧ kv.1.e = 0 ∧
      Dec.make kv.2.m kv.2.e = kv.2 ∧ 0 ≤ kv.2.m)
    (hnd : ((shallow d).map Prod.fst).Nodup) :
    processLevel ('(' :: (renderL (segsD (F + 1) 0 d) ++ [')', ':']), items) 1 =
      .ok ([':'], upsertA items none (shallow d)) := by
  unfold processLevel
  rw [findPairs_trunk _ (segsD_flat_allTxt (F + 1) d), renderL_segsD_flat F d]
  rw [show ([((0 : Nat), (joinComma ((shallow d).map flatEnc)).length + 1)]).reverse
      = [((0 : Nat), (joinComma ((shallow d).map flatEnc)).length + 1)] from rfl]
  rw [List.foldlM_cons,
    processPair_trunk (joinComma ((shallow d).map flatEnc)) items (shallow d)
      (evalDict_flat (shallow d) hgood hnd), exBind_ok]
  rfl

theorem ndOk_cons {F : Nat} {kv : Dec × NVal} {tl : NDict}
    (h : ndOkF (F + 1) (kv :: tl) = true) :
    ((decide (0 ≤ kv.1.m) && decide (kv.1.e = 0) &&
      (match kv.2 with
       | .num h2 => decide (Dec.make h2.m h2.e = h2) && decide (0 ≤ h2.m)
       | .pair sub h2 =>
           decide (Dec.make h2.m h2.e = h2) && decide (0 ≤ h2.m) && ndOkF F sub)) = true)
      ∧ ndOkF (F + 1) tl = true := by
  have h2 : ((decide (0 ≤ kv.1.m) && decide (kv.1.e = 0) &&
      (match kv.2 with
       | .num h2 => decide (Dec.make h2.m h2.e = h2) && decide (0 ≤ h2.m)
       | .pair sub h2 =>
           decide (Dec.make h2.m h2.e = h2) && decide (0 ≤ h2.m) && ndOkF F sub))
      && ndOkF (F + 1) tl) = true := h
  rw [Bool.and_eq_true] at h2
  exact h2

theorem ndOk_sub {F : Nat} {kv : Dec × NVal} {tl : NDict}
    (h : ndOkF (F + 1) (kv :: tl) = true) :
    (match kv.2 with | NVal.num _ => True | NVal.pair sub _ => ndOkF F sub = true) := by
  have h1 := (ndOk_cons h).1
  obtain ⟨k, v⟩ := kv
  cases v with
  | num h2 => exact trivial
  | pair sub h2 =>
      dsimp only at h1
      rw [Bool.and_eq_true] at h1
      have h3 := h1.2
      rw [Bool.and_eq_true] at h3
      exact h3.2

theorem flatten_segsE (F t : Nat) (kv : Dec × NVal)
    (hok : match kv.2 with | NVal.num _ => True | NVal.pair sub _ => ndOkF F sub = true)
    (IH : ∀ (t2 : Nat) (d2 : NDict), ndOkF F d2 = true →
      renderF (segsD F (t2 + 1) d2) = renderL (segsD F t2 d2)) :
    renderF (segsE (F + 1) (t + 1) kv) = renderL (segsE (F + 1) t kv) := by
  obtain ⟨k, v⟩ := kv
  cases v with
  | num h =>
      rw [segsE_num, segsE_num, renderF_single, renderL_single]
      rfl
  | pair sub h =>
      have hsub : ndOkF F sub = true := hok
      cases t with
      | zero =>
          rw [segsE_pair1, segsE_pair0, renderF_single, renderL_single]
          rfl
      | succ t' =>
          cases t' with
          | zero =>
              rw [segsE_pair2, segsE_pair1, renderL_single]
              rw [renderF_append, renderF_txtCons, renderF_single]
              cases F with
              | zero =>
                  rw [show ndOkF 0 sub = false from rfl] at hsub
                  exact Bool.noConfusion hsub
              | succ F2 =>
                  rw [IH 0 sub hsub, renderL_segsD_flat F2 sub]
                  rfl
          | succ t'' =>
              rw [segsE_pair2, segsE_pair2]
              rw [renderF_append, renderF_txtCons, renderF_single,
                renderL_append, renderL_txtCons, renderL_single]
              rw [IH (t'' + 1) sub hsub]
              rfl

theorem flatten_core (F : Nat)
    (IH : ∀ (t2 : Nat) (d2 : NDict), ndOkF F d2 = true →
      renderF (segsD F (t2 + 1) d2) = renderL (segsD F t2 d2)) :
    ∀ (t : Nat) (d : NDict), ndOkF (F + 1) d = true →
      renderF (segsD (F + 1) (t + 1) d) = renderL (segsD (F + 1) t d) := by
  intro t d
  induction d with
  | nil => intro _; rfl
  | cons kv tl ihd =>
      intro hok
      have hkv := ndOk_sub hok
      have htl := (ndOk_cons hok).2
      cases tl with
      | nil =>
          rw [show segsD (F + 1) (t + 1) [kv] = segsE (F + 1) (t + 1) kv from rfl,
            show segsD (F + 1) t [kv] = segsE (F + 1) t kv from rfl]
          exact flatten_segsE F t kv hkv IH
      | cons kv' tl' =>
          rw [segsD_cons₂, segsD_cons₂, renderF_append, renderL_append,
            renderF_txtCons, renderL_txtCons, flatten_segsE F t kv hkv IH, ihd htl]

theorem flatten_segsD : ∀ (F t : Nat) (d : NDict), ndOkF (F + 1) d = true →
    renderF (segsD (F + 1) (t + 1) d) = renderL (segsD (F + 1) t d) := by
  intro F
  induction F with
  | zero =>
      exact flatten_core 0 (fun t2 d2 h => by
        rw [show ndOkF 0 d2 = false from rfl] at h
        exact Bool.noConfusion h)
  | succ F2 ihF => exact flatten_core (F2 + 1) ihF

theorem gd_cons (F : Nat) (kv : Dec × NVal) (tl : NDict) :
    gdF (F + 1) (kv :: tl) = max (gdF (F + 1) tl)
      (match kv.2 with | NVal.num _ => 0 | NVal.pair sub _ => gdF F sub + 1) := rfl

theorem gd_zero_flat : ∀ {F : Nat} {sub : NDict}, gdF (F + 1) sub = 0 →
    ∀ kv ∈ sub, ∃ h2, kv.2 = NVal.num h2 := by
  intro F sub
  induction sub with
  | nil => intro _ kv hm; exact absurd hm (List.not_mem_nil kv)
  | cons kv tl ih =>
      intro h0 x hx
      rw [gd_cons] at h0
      rcases List.mem_cons.1 hx with rfl | hm
      · obtain ⟨k, v⟩ := x
        cases v with
        | num h2 => exact ⟨h2, rfl⟩
        | pair sub2 h2 =>
            dsimp only at h0
            omega
      · exact ih (by omega) x hm

theorem map_enc_flat : ∀ {F : Nat} {sub : NDict},
    (∀ kv ∈ sub, ∃ h2, kv.2 = NVal.num h2) →
    sub.map (encEntryF (F + 1)) = (shallow sub).map flatEnc := by
  intro F sub
  induction sub with
  | nil => intro _; rfl
  | cons kv tl ih =>
      intro hflat
      obtain ⟨h2, hv⟩ := hflat kv (List.mem_cons_self kv tl)
      obtain ⟨k, v⟩ := kv
      dsimp only at hv
      subst hv
      rw [List.map_cons, shallow_cons, List.map_cons,
        ih (fun x hx => hflat x (List.mem_cons_of_mem _ hx))]
      rfl

theorem init_segsE (F t : Nat) (kv : Dec × NVal)
    (hok : match kv.2 with | NVal.num _ => True | NVal.pair sub _ => ndOkF F sub = true)
    (hgd : (match kv.2 with | NVal.num _ => 0 | NVal.pair sub _ => gdF F sub + 1) ≤ t)
    (IH : ∀ (t2 : Nat) (d2 : NDict), ndOkF F d2 = true → gdF F d2 ≤ t2 →
      renderL (segsD F t2 d2) = joinComma (d2.map (encEntryF F))) :
    renderL (segsE (F + 1) t kv) = encEntryF (F + 1) kv := by
  obtain ⟨k, v⟩ := kv
  cases v with
  | num h =>
      rw [segsE_num, renderL_single]
      rfl
  | pair sub h =>
      have hsub : ndOkF F sub = true := hok
      have hgd' : gdF F sub + 1 ≤ t := hgd
      cases F with
      | zero =>
          rw [show ndOkF 0 sub = false from rfl] at hsub
          exact Bool.noConfusion hsub
      | succ F2 =>
          cases t with
          | zero => omega
          | succ t' =>
              cases t' with
              | zero =>
                  rw [segsE_pair1, renderL_single]
                  have hflat := gd_zero_flat (show gdF (F2 + 1) sub = 0 from by omega)
                  show segStr (Seg.sg k.m.toNat h (shallow sub)) = _
                  rw [show segStr (Seg.sg k.m.toNat h (shallow sub))
                      = '(' :: joinComma ((shallow sub).map flatEnc)
                        ++ ')' :: flatEnc (⟨(k.m.toNat : Int), 0⟩, h) from rfl,
                    ← map_enc_flat hflat]
                  rfl
              | succ t'' =>
                  rw [segsE_pair2, renderL_append, renderL_txtCons, renderL_single,
                    IH (t'' + 1) sub hsub (by omega)]
                  rfl

theorem init_core (F : Nat)
    (IH : ∀ (t2 : Nat) (d2 : NDict), ndOkF F d2 = true → gdF F d2 ≤ t2 →
      renderL (segsD F t2 d2) = joinComma (d2.map (encEntryF F))) :
    ∀ (t : Nat) (d : NDict), ndOkF (F + 1) d = true → gdF (F + 1) d ≤ t →
      renderL (segsD (F + 1) t d) = joinComma (d.map (encEntryF (F + 1))) := by
  intro t d
  induction d with
  | nil => intro _ _; rfl
  | cons kv tl ihd =>
      intro hok hgd
      have hkv := ndOk_sub hok
      have htl := (ndOk_cons hok).2
      rw [gd_cons] at hgd
      have hgdE : (match kv.2 with
          | NVal.num _ => 0 | NVal.pair sub _ => gdF F sub + 1) ≤ t := by omega
      have hgdT : gdF (F + 1) tl ≤ t := by omega
      cases tl with
      | nil =>
          rw [show segsD (F + 1) t [kv] = segsE (F + 1) t kv from rfl,
            init_segsE F t kv hkv hgdE IH]
          rfl
      | cons kv' tl' =>
          have hmap : joinComma ((kv :: kv' :: tl').map (encEntryF (F + 1)))
              = encEntryF (F + 1) kv ++ ',' :: joinComma ((kv' :: tl').map (encEntryF (F + 1))) := by
            rw [List.map_cons, List.map_cons, joinComma_cons₂, ← List.map_cons]
          rw [segsD_cons₂, renderL_append, renderL_txtCons,
            init_segsE F t kv hkv hgdE IH, ihd htl hgdT, hmap]
          simp

theorem init_segsD : ∀ (F t : Nat) (d : NDict), ndOkF (F + 1) d = true →
    gdF (F + 1) d ≤ t →
    renderL (segsD (F + 1) t d) = joinComma (d.map (encEntryF (F + 1))) := by
  intro F
  induction F with
  | zero =>
      exact init_core 0 (fun t2 d2 h _ => by
        rw [show ndOkF 0 d2 = false from rfl] at h
        exact Bool.noConfusion h)
  | succ F2 ihF => exact init_core (F2 + 1) ihF

theorem dFin_cons (c : Char) (r : List Char) (cl : Int) :
    dFin (c :: r) cl = dFin r (dstep c cl) := rfl

theorem dMax_cons (c : Char) (r : List Char) (cl : Int) :
    dMax (c :: r) cl = max cl (dMax r (dstep c cl)) := rfl

theorem dMax_ge : ∀ (cs : List Char) (cl : Int), cl ≤ dMax cs cl := by
  intro cs
  induction cs with
  | nil => intro cl; exact le_refl cl
  | cons c r ih => intro cl; rw [dMax_cons]; exact le_max_left _ _

theorem dFin_append : ∀ (a b : List Char) (cl : Int),
    dFin (a ++ b) cl = dFin b (dFin a cl) := by
  intro a
  induction a with
  | nil => intro b cl; rfl
  | cons c r ih => intro b cl; rw [List.cons_append, dFin_cons, dFin_cons, ih]

theorem dMax_append : ∀ (a b : List Char) (cl : Int),
    dMax (a ++ b) cl = max (dMax a cl) (dMax b (dFin a cl)) := by
  intro a
  induction a with
  | nil =>
      intro b cl
      show dMax b cl = max cl (dMax b cl)
      have := dMax_ge b cl
      omega
  | cons c r ih =>
      intro b cl
      rw [List.cons_append, dMax_cons, ih, dMax_cons, dFin_cons]
      omega

theorem dstep_inert {c : Char} (h : c ≠ '(' ∧ c ≠ ')') (cl : Int) : dstep c cl = cl := by
  unfold dstep
  rw [if_neg h.1, if_neg h.2]

theorem dFin_inert : ∀ {T : List Char}, NoParen T → ∀ cl, dFin T cl = cl := by
  intro T
  induction T with
  | nil => intro _ cl; rfl
  | cons c r ih =>
      intro h cl
      rw [dFin_cons, dstep_inert (h c (List.mem_cons_self c r)),
        ih (fun x hx => h x (List.mem_cons_of_mem _ hx))]

theorem dMax_inert : ∀ {T : List Char}, NoParen T → ∀ cl, dMax T cl = cl := by
  intro T
  induction T with
  | nil => intro _ cl; rfl
  | cons c r ih =>
      intro h cl
      rw [dMax_cons, dstep_inert (h c (List.mem_cons_self c r)),
        ih (fun x hx => h x (List.mem_cons_of_mem _ hx))]
      omega

theorem maxLevelAux_eq : ∀ (cs : List Char) (cl m : Int), cl ≤ m →
    maxLevelAux cs cl m = max m (dMax cs cl) := by
  intro cs
  induction cs with
  | nil =>
      intro cl m h
      show m = max m cl
      omega
  | cons c rest ih =>
      intro cl m h
      show maxLevelAux rest (dstep c cl) (max m (dstep c cl)) = _
      rw [ih (dstep c cl) (max m (dstep c cl)) (le_max_right _ _), dMax_cons]
      have := dMax_ge rest (dstep c cl)
      omega

theorem dm_encE (F : Nat)
    (IH : ∀ (d2 : NDict), ndOkF F d2 = true → ∀ cl : Int,
      dFin (joinComma (d2.map (encEntryF F))) cl = cl ∧
        dMax (joinComma (d2.map (encEntryF F))) cl = cl + gdF F d2) :
    ∀ (kv : Dec × NVal),
      (match kv.2 with | NVal.num _ => True | NVal.pair sub _ => ndOkF F sub = true) →
      ∀ cl : Int, dFin (encEntryF (F + 1) kv) cl = cl ∧
        dMax (encEntryF (F + 1) kv) cl
          = cl + (((match kv.2 with
              | NVal.num _ => 0
              | NVal.pair sub _ => gdF F sub + 1) : Nat) : Int) := by
  intro kv hok cl
  obtain ⟨k, v⟩ := kv
  cases v with
  | num h =>
      rw [show encEntryF (F + 1) (k, NVal.num h) = flatEnc (k, h) from rfl]
      refine ⟨dFin_inert (flatEnc_noParen _) cl, ?_⟩
      show dMax (flatEnc (k, h)) cl = cl + (((0 : Nat)) : Int)
      rw [dMax_inert (flatEnc_noParen _) cl]
      omega
  | pair sub h =>
      have hsub : ndOkF F sub = true := hok
      have hIH := IH sub hsub
      have hE : encEntryF (F + 1) (k, NVal.pair sub h)
          = '(' :: (joinComma (sub.map (encEntryF F))
              ++ ')' :: (natDigits k.m.toNat ++ ':' :: decTok h)) := rfl
      have hfe : NoParen (natDigits k.m.toNat ++ ':' :: decTok h) := flatEnc_noParen (k, h)
      have hsO : dstep '(' cl = cl + 1 := by
        unfold dstep
        rw [if_pos rfl]
      have hsC : ∀ x : Int, dstep ')' x = x - 1 := by
        intro x
        unfold dstep
        rw [if_neg (by decide), if_pos rfl]
      have hmatch : (match (k, NVal.pair sub h).2 with
          | NVal.num _ => 0 | NVal.pair sub _ => gdF F sub + 1) = gdF F sub + 1 := rfl
      constructor
      · rw [hE, dFin_cons, hsO, dFin_append, (hIH (cl + 1)).1, dFin_cons, hsC,
          dFin_inert hfe]
        omega
      · rw [hE, dMax_cons, hsO, dMax_append, (hIH (cl + 1)).2, (hIH (cl + 1)).1,
          dMax_cons, hsC, dMax_inert hfe, hmatch]
        have := gdF F sub
        omega

theorem dm_core (F : Nat)
    (IH : ∀ (d2 : NDict), ndOkF F d2 = true → ∀ cl : Int,
      dFin (joinComma (d2.map (encEntryF F))) cl = cl ∧
        dMax (joinComma (d2.map (encEntryF F))) cl = cl + gdF F d2) :
    ∀ (d : NDict), ndOkF (F + 1) d = true → ∀ cl : Int,
      dFin (joinComma (d.map (encEntryF (F + 1)))) cl = cl ∧
        dMax (joinComma (d.map (encEntryF (F + 1)))) cl = cl + gdF (F + 1) d := by
  intro d
  induction d with
  | nil =>
      intro _ cl
      exact ⟨rfl, by show cl = cl + 0; omega⟩
  | cons kv tl ihd =>
      intro hok cl
      have hkv := ndOk_sub hok
      have htl := (ndOk_cons hok).2
      have hEkv := dm_encE F IH kv hkv
      cases tl with
      | nil =>
          rw [show (([kv].map (encEntryF (F + 1)))) = [encEntryF (F + 1) kv] from rfl,
            show joinComma [encEntryF (F + 1) kv] = encEntryF (F + 1) kv from rfl]
          refine ⟨(hEkv cl).1, ?_⟩
          rw [(hEkv cl).2, gd_cons]
          have : gdF (F + 1) ([] : NDict) = 0 := rfl
          omega
      | cons kv' tl' =>
          have hmap : joinComma ((kv :: kv' :: tl').map (encEntryF (F + 1)))
              = encEntryF (F + 1) kv
                ++ ',' :: joinComma ((kv' :: tl').map (encEntryF (F + 1))) := by
            rw [List.map_cons, List.map_cons, joinComma_cons₂, ← List.map_cons]
          have hcm : ∀ x : Int, dstep ',' x = x := by
            intro x
            unfold dstep
            rw [if_neg (by decide), if_neg (by decide)]
          constructor
          · rw [hmap, dFin_append, (hEkv cl).1, dFin_cons, hcm, (ihd htl _).1]
          · rw [hmap, dMax_append, (hEkv cl).2, (hEkv cl).1, dMax_cons, hcm,
              (ihd htl cl).2, gd_cons F kv (kv' :: tl')]
            omega

theorem dm_enc : ∀ (F : Nat) (d : NDict), ndOkF (F + 1) d = true → ∀ cl : Int,
    dFin (joinComma (d.map (encEntryF (F + 1)))) cl = cl ∧
      dMax (joinComma (d.map (encEntryF (F + 1)))) cl = cl + gdF (F + 1) d := by
  intro F
  induction F with
  | zero =>
      exact dm_core 0 (fun d2 h => by
        rw [show ndOkF 0 d2 = false from rfl] at h
        exact Bool.noConfusion h)
  | succ F2 ihF => exact dm_core (F2 + 1) ihF

theorem maxLevel_enc (F : Nat) (d : NDict) (hok : ndOkF (F + 1) d = true) :
    maxLevel (encodeTrunkF (F + 1) d) = (gdF (F + 1) d : Int) + 1 := by
  have hdm := dm_enc F d hok
  unfold maxLevel
  rw [show encodeTrunkF (F + 1) d
      = '(' :: (joinComma (d.map (encEntryF (F + 1))) ++ [')', ':']) from by
    unfold encodeTrunkF
    simp]
  rw [maxLevelAux_eq _ 0 0 (le_refl 0), dMax_cons,
    show dstep '(' 0 = 1 from by decide,
    dMax_append, (hdm 1).2, (hdm 1).1,
    show dMax [')', ':'] 1 = 1 from by decide]
  omega

theorem branchItems_num (F : Nat) (k h : Dec) (tl : NDict) :
    branchItems (F + 1) ((k, NVal.num h) :: tl) = branchItems (F + 1) tl := rfl

theorem branchItems_pair (F : Nat) (k h : Dec) (sub tl : NDict) :
    branchItems (F + 1) ((k, NVal.pair sub h) :: tl)
      = (some k, shallow sub) :: (branchItems F sub ++ branchItems (F + 1) tl) := rfl

theorem branchKeys_num (F : Nat) (k h : Dec) (tl : NDict) :
    branchKeysF (F + 1) ((k, NVal.num h) :: tl) = branchKeysF (F + 1) tl := rfl

theorem branchKeys_pair (F : Nat) (k h : Dec) (sub tl : NDict) :
    branchKeysF (F + 1) ((k, NVal.pair sub h) :: tl)
      = k :: (branchKeysF F sub ++ branchKeysF (F + 1) tl) := rfl

theorem leafKeys_num (F : Nat) (k h : Dec) (tl : NDict) :
    leafKeysF (F + 1) ((k, NVal.num h) :: tl) = k :: leafKeysF (F + 1) tl := rfl

theorem leafKeys_pair (F : Nat) (k h : Dec) (sub tl : NDict) :
    leafKeysF (F + 1) ((k, NVal.pair sub h) :: tl)
      = leafKeysF F sub ++ leafKeysF (F + 1) tl := rfl

theorem shallow_keys : ∀ (d : NDict), (shallow d).map Prod.fst = d.map Prod.fst := by
  intro d
  induction d with
  | nil => rfl
  | cons kv tl ih =>
      rw [shallow_cons, List.map_cons, List.map_cons, ih]

theorem keys_sublist_deep : ∀ (F : Nat) (d : NDict),
    (d.map Prod.fst).Sublist (deepKeysF (F + 1) d) := by
  intro F d
  induction d with
  | nil => exact List.Sublist.refl []
  | cons kv tl ih =>
      rw [List.map_cons, deepKeysF_cons]
      rw [show (kv.1 :: (match kv.2 with | NVal.num _ => [] | NVal.pair sub _ => deepKeysF F sub))
            ++ deepKeysF (F + 1) tl
          = kv.1 :: ((match kv.2 with | NVal.num _ => [] | NVal.pair sub _ => deepKeysF F sub)
            ++ deepKeysF (F + 1) tl) from rfl]
      exact List.Sublist.cons₂ kv.1 (List.Sublist.trans ih (List.sublist_append_right _ _))

theorem bk_deep_core (F : Nat)
    (IH : ∀ d2 : NDict, (branchKeysF F d2).Sublist (deepKeysF F d2)) :
    ∀ d : NDict, (branchKeysF (F + 1) d).Sublist (deepKeysF (F + 1) d) := by
  intro d
  induction d with
  | nil => exact List.Sublist.refl []
  | cons kv tl ih =>
      obtain ⟨k, v⟩ := kv
      cases v with
      | num h =>
          rw [branchKeys_num]
          show (branchKeysF (F + 1) tl).Sublist (k :: deepKeysF (F + 1) tl)
          exact List.Sublist.cons k ih
      | pair sub h =>
          rw [branchKeys_pair]
          show (k :: (branchKeysF F sub ++ branchKeysF (F + 1) tl)).Sublist
            (k :: (deepKeysF F sub ++ deepKeysF (F + 1) tl))
          exact List.Sublist.cons₂ k (List.Sublist.append (IH sub) ih)

theorem branchKeys_sublist_deep : ∀ (F : Nat) (d : NDict),
    (branchKeysF F d).Sublist (deepKeysF F d) := by
  intro F
  induction F with
  | zero => intro d; exact List.nil_sublist _
  | succ F2 ihF => exact bk_deep_core F2 ihF

theorem bi_keys_core (F : Nat)
    (IH : ∀ d2 : NDict, (branchItems F d2).map Prod.fst = (branchKeysF F d2).map some) :
    ∀ d : NDict, (branchItems (F + 1) d).map Prod.fst = (branchKeysF (F + 1) d).map some := by
  intro d
  induction d with
  | nil => rfl
  | cons kv tl ih =>
      obtain ⟨k, v⟩ := kv
      cases v with
      | num h => rw [branchItems_num, branchKeys_num]; exact ih
      | pair sub h =>
          rw [branchItems_pair, branchKeys_pair, List.map_cons, List.map_append,
            List.map_cons, List.map_append, IH sub, ih]

theorem branchItems_keys : ∀ (F : Nat) (d : NDict),
    (branchItems F d).map Prod.fst = (branchKeysF F d).map some := by
  intro F
  induction F with
  | zero => intro d; rfl
  | succ F2 ihF => exact bi_keys_core F2 ihF

theorem deep_split_core (F : Nat)
    (IH : ∀ d2 : NDict, (↑(deepKeysF F d2) : Multiset Dec)
      = ↑(leafKeysF F d2) + ↑(branchKeysF F d2)) :
    ∀ d : NDict, (↑(deepKeysF (F + 1) d) : Multiset Dec)
      = ↑(leafKeysF (F + 1) d) + ↑(branchKeysF (F + 1) d) := by
  intro d
  induction d with
  | nil => rfl
  | cons kv tl ih =>
      obtain ⟨k, v⟩ := kv
      cases v with
      | num h =>
          rw [show deepKeysF (F + 1) ((k, NVal.num h) :: tl)
              = k :: deepKeysF (F + 1) tl from rfl, leafKeys_num, branchKeys_num,
            ← Multiset.cons_coe, ← Multiset.cons_coe, ih, Multiset.cons_add]
      | pair sub h =>
          rw [show deepKeysF (F + 1) ((k, NVal.pair sub h) :: tl)
              = k :: (deepKeysF F sub ++ deepKeysF (F + 1) tl) from rfl,
            leafKeys_pair, branchKeys_pair,
            ← Multiset.cons_coe, ← Multiset.coe_add, ih, IH sub, ← Multiset.coe_add,
            ← Multiset.cons_coe, ← Multiset.coe_add,
            ← Multiset.singleton_add, ← Multiset.singleton_add]
          abel

theorem deep_split : ∀ (F : Nat) (d : NDict),
    (↑(deepKeysF F d) : Multiset Dec) = ↑(leafKeysF F d) + ↑(branchKeysF F d) := by
  intro F
  induction F with
  | zero => intro d; rfl
  | succ F2 ihF => exact deep_split_core F2 ihF

theorem ndOk_key {F : Nat} {kv : Dec × NVal} {tl : NDict}
    (h : ndOkF (F + 1) (kv :: tl) = true) : 0 ≤ kv.1.m ∧ kv.1.e = 0 := by
  have h1 := (ndOk_cons h).1
  rw [Bool.and_eq_true] at h1
  have h2 := h1.1
  rw [Bool.and_eq_true] at h2
  exact ⟨of_decide_eq_true h2.1, of_decide_eq_true h2.2⟩

theorem itemsSegs_segsE_num (F t : Nat) (k h : Dec) :
    itemsSegs (segsE (F + 1) t (k, NVal.num h)) = [] := by
  rw [segsE_num]
  rfl

theorem itemsSegs_segsE_pair2 (F t : Nat) (k h : Dec) (sub : NDict) :
    itemsSegs (segsE (F + 1) (t + 2) (k, NVal.pair sub h))
      = itemsSegs (segsD F (t + 1) sub) := by
  rw [segsE_pair2,
    show (Seg.txt ['('] :: segsD F (t + 1) sub ++ [Seg.txt (')' :: flatEnc (k, h))])
      = Seg.txt ['('] :: (segsD F (t + 1) sub ++ [Seg.txt (')' :: flatEnc (k, h))]) from rfl,
    show itemsSegs (Seg.txt ['('] :: (segsD F (t + 1) sub ++ [Seg.txt (')' :: flatEnc (k, h))]))
      = itemsSegs (segsD F (t + 1) sub ++ [Seg.txt (')' :: flatEnc (k, h))]) from rfl,
    itemsSegs_append, show itemsSegs [Seg.txt (')' :: flatEnc (k, h))] = [] from rfl,
    List.append_nil]

theorem itemsSegs_segsD_cons (F t : Nat) (kv : Dec × NVal) (rest : NDict) :
    itemsSegs (segsD (F + 1) t (kv :: rest))
      = itemsSegs (segsE (F + 1) t kv) ++ itemsSegs (segsD (F + 1) t rest) := by
  cases rest with
  | nil =>
      rw [show segsD (F + 1) t [kv] = segsE (F + 1) t kv from rfl,
        show itemsSegs (segsD (F + 1) t []) = [] from rfl, List.append_nil]
  | cons kv' tl' =>
      rw [segsD_cons₂, itemsSegs_append,
        show itemsSegs (Seg.txt [','] :: segsD (F + 1) t (kv' :: tl'))
          = itemsSegs (segsD (F + 1) t (kv' :: tl')) from rfl]

theorem itemsAll_split_ms : ∀ (k F : Nat) (kv : Dec × NVal) (rest : NDict),
    (↑(itemsAll (F + 1) k (kv :: rest)) : Multiset (Ident × List (Dec × Dec)))
      = ↑(itemsAllE (F + 1) k kv) + ↑(itemsAll (F + 1) k rest) := by
  intro k
  induction k with
  | zero => intro F kv rest; simp [itemsAll, itemsAllE]
  | succ k ih =>
      intro F kv rest
      rw [show itemsAll (F + 1) (k + 1) (kv :: rest)
          = (itemsSegs (segsD (F + 1) (k + 1) (kv :: rest))).reverse
            ++ itemsAll (F + 1) k (kv :: rest) from rfl,
        show itemsAllE (F + 1) (k + 1) kv
          = (itemsSegs (segsE (F + 1) (k + 1) kv)).reverse ++ itemsAllE (F + 1) k kv from rfl,
        show itemsAll (F + 1) (k + 1) rest
          = (itemsSegs (segsD (F + 1) (k + 1) rest)).reverse
            ++ itemsAll (F + 1) k rest from rfl,
        itemsSegs_segsD_cons]
      simp only [← Multiset.coe_add, Multiset.coe_reverse]
      rw [ih F kv rest]
      abel

theorem itemsAllE_num : ∀ (k F : Nat) (k2 h : Dec),
    itemsAllE (F + 1) k (k2, NVal.num h) = [] := by
  intro k
  induction k with
  | zero => intro F k2 h; rfl
  | succ k ih =>
      intro F k2 h
      rw [show itemsAllE (F + 1) (k + 1) (k2, NVal.num h)
          = (itemsSegs (segsE (F + 1) (k + 1) (k2, NVal.num h))).reverse
            ++ itemsAllE (F + 1) k (k2, NVal.num h) from rfl,
        itemsSegs_segsE_num, ih]
      rfl

theorem itemsAllE_pair_ms : ∀ (k F : Nat) (k2 h : Dec) (sub : NDict),
    0 ≤ k2.m → k2.e = 0 →
    (↑(itemsAllE (F + 1) (k + 1) (k2, NVal.pair sub h))
        : Multiset (Ident × List (Dec × Dec)))
      = (some k2, shallow sub) ::ₘ ↑(itemsAll F k sub) := by
  intro k
  induction k with
  | zero =>
      intro F k2 h sub h1 h2
      rw [show itemsAllE (F + 1) 1 (k2, NVal.pair sub h)
          = (itemsSegs (segsE (F + 1) 1 (k2, NVal.pair sub h))).reverse
            ++ itemsAllE (F + 1) 0 (k2, NVal.pair sub h) from rfl,
        segsE_pair1,
        show itemsSegs [Seg.sg k2.m.toNat h (shallow sub)]
          = [(some (⟨(k2.m.toNat : Int), 0⟩ : Dec), shallow sub)] from rfl,
        intCast_toNat_key h1 h2]
      simp [itemsAll, itemsAllE]
  | succ k ih =>
      intro F k2 h sub h1 h2
      rw [show itemsAllE (F + 1) (k + 2) (k2, NVal.pair sub h)
          = (itemsSegs (segsE (F + 1) (k + 2) (k2, NVal.pair sub h))).reverse
            ++ itemsAllE (F + 1) (k + 1) (k2, NVal.pair sub h) from rfl,
        itemsSegs_segsE_pair2,
        show itemsAll F (k + 1) sub
          = (itemsSegs (segsD F (k + 1) sub)).reverse ++ itemsAll F k sub from rfl]
      simp only [← Multiset.coe_add, Multiset.coe_reverse]
      rw [ih F k2 h sub h1 h2, ← Multiset.singleton_add, ← Multiset.singleton_add]
      abel

theorem itemsAll_ms_core (F : Nat)
    (IH : ∀ (k : Nat) (d2 : NDict), ndOkF F d2 = true → gdF F d2 ≤ k →
      (↑(itemsAll F k d2) : Multiset (Ident × List (Dec × Dec))) = ↑(branchItems F d2)) :
    ∀ (k : Nat) (d : NDict), ndOkF (F + 1) d = true → gdF (F + 1) d ≤ k →
      (↑(itemsAll (F + 1) k d) : Multiset (Ident × List (Dec × Dec)))
        = ↑(branchItems (F + 1) d) := by
  intro k d
  induction d with
  | nil =>
      intro _ _
      cases k with
      | zero => rfl
      | succ k2 =>
          rw [show itemsAll (F + 1) (k2 + 1) ([] : NDict)
              = (itemsSegs (segsD (F + 1) (k2 + 1) [])).reverse
                ++ itemsAll (F + 1) k2 ([] : NDict) from rfl]
          have : ∀ j : Nat, (↑(itemsAll (F + 1) j ([] : NDict))
              : Multiset (Ident × List (Dec × Dec))) = 0 := by
            intro j
            induction j with
            | zero => rfl
            | succ j2 ihj =>
                rw [show itemsAll (F + 1) (j2 + 1) ([] : NDict)
                    = (itemsSegs (segsD (F + 1) (j2 + 1) [])).reverse
                      ++ itemsAll (F + 1) j2 ([] : NDict) from rfl]
                simp only [← Multiset.coe_add, Multiset.coe_reverse]
                rw [ihj]
                rfl
          rw [show ((itemsSegs (segsD (F + 1) (k2 + 1) [])).reverse
                ++ itemsAll (F + 1) k2 ([] : NDict)) = itemsAll (F + 1) (k2 + 1) ([] : NDict)
              from rfl, this (k2 + 1)]
          rfl
  | cons kv tl ihd =>
      intro hok hgd
      have hkey := ndOk_key hok
      have hsub := ndOk_sub hok
      have htl := (ndOk_cons hok).2
      rw [gd_cons] at hgd
      rw [itemsAll_split_ms k F kv tl, ihd htl (by omega)]
      obtain ⟨k1, v⟩ := kv
      cases v with
      | num h =>
          rw [itemsAllE_num, branchItems_num]
          rfl
      | pair sub h =>
          have hgdE : gdF F sub + 1 ≤ k := by
            have : (match (k1, NVal.pair sub h).2 with
                | NVal.num _ => 0 | NVal.pair sub _ => gdF F sub + 1) = gdF F sub + 1 := rfl
            omega
          have hsub2 : ndOkF F sub = true := hsub
          cases k with
          | zero => omega
          | succ k2 =>
              cases F with
              | zero =>
                  rw [show ndOkF 0 sub = false from rfl] at hsub2
                  exact Bool.noConfusion hsub2
              | succ F2 =>
                  rw [itemsAllE_pair_ms k2 (F2 + 1) k1 h sub hkey.1 hkey.2,
                    IH k2 sub hsub2 (by omega), branchItems_pair]
                  simp only [← Multiset.cons_coe, ← Multiset.coe_add,
                    ← Multiset.singleton_add]
                  abel

theorem itemsAll_ms : ∀ (F k : Nat) (d : NDict), ndOkF (F + 1) d = true →
    gdF (F + 1) d ≤ k →
    (↑(itemsAll (F + 1) k d) : Multiset (Ident × List (Dec × Dec)))
      = ↑(branchItems (F + 1) d) := by
  intro F
  induction F with
  | zero =>
      exact fun k d h => itemsAll_ms_core 0 (fun k2 d2 h2 _ => by
        rw [show ndOkF 0 d2 = false from rfl] at h2
        exact Bool.noConfusion h2) k d h
  | succ F2 ihF => exact fun k d h => itemsAll_ms_core (F2 + 1) (fun k2 d2 h2 hg2 =>
      ihF k2 d2 h2 hg2) k d h

theorem ndOk_height {F : Nat} {kv : Dec × NVal} {tl : NDict}
    (h : ndOkF (F + 1) (kv :: tl) = true) :
    Dec.make (hgt kv.2).m (hgt kv.2).e = hgt kv.2 ∧ 0 ≤ (hgt kv.2).m := by
  have h1 := (ndOk_cons h).1
  rw [Bool.and_eq_true] at h1
  have h2 := h1.2
  obtain ⟨k, v⟩ := kv
  cases v with
  | num h3 =>
      have h4 : (decide (Dec.make h3.m h3.e = h3) && decide (0 ≤ h3.m)) = true := h2
      rw [Bool.and_eq_true] at h4
      exact ⟨of_decide_eq_true h4.1, of_decide_eq_true h4.2⟩
  | pair sub h3 =>
      have h4 : (decide (Dec.make h3.m h3.e = h3) && decide (0 ≤ h3.m)
          && ndOkF F sub) = true := h2
      rw [Bool.and_eq_true] at h4
      have h5 := h4.1
      rw [Bool.and_eq_true] at h5
      exact ⟨of_decide_eq_true h5.1, of_decide_eq_true h5.2⟩

theorem ndOk_shallow : ∀ {F : Nat} {sub : NDict}, ndOkF (F + 1) sub = true →
    ∀ kv ∈ shallow sub, 0 ≤ kv.1.m ∧ kv.1.e = 0 ∧
      Dec.make kv.2.m kv.2.e = kv.2 ∧ 0 ≤ kv.2.m := by
  intro F sub
  induction sub with
  | nil => intro _ kv hm; exact absurd hm (List.not_mem_nil kv)
  | cons kv2 tl ih =>
      intro hok x hx
      rw [show shallow (kv2 :: tl)
          = (kv2.1, hgt kv2.2) :: shallow tl from by
        rw [shallow_cons]; cases kv2.2 <;> rfl] at hx
      rcases List.mem_cons.1 hx with rfl | hm
      · exact ⟨(ndOk_key hok).1, (ndOk_key hok).2, (ndOk_height hok).1, (ndOk_height hok).2⟩
      · exact ih (ndOk_cons hok).2 x hm

theorem deep_sub_sublist {F : Nat} (k : Dec) (sub : NDict) (h2 : Dec) (tl : NDict) :
    (deepKeysF F sub).Sublist (deepKeysF (F + 1) ((k, NVal.pair sub h2) :: tl)) := by
  rw [deepKeysF_cons]
  show (deepKeysF F sub).Sublist ((k :: deepKeysF F sub) ++ deepKeysF (F + 1) tl)
  rw [show ((k :: deepKeysF F sub) ++ deepKeysF (F + 1) tl)
      = k :: (deepKeysF F sub ++ deepKeysF (F + 1) tl) from rfl]
  exact List.Sublist.cons k (List.sublist_append_left _ _)

theorem deep_tl_sublist {F : Nat} (kv : Dec × NVal) (tl : NDict) :
    (deepKeysF (F + 1) tl).Sublist (deepKeysF (F + 1) (kv :: tl)) := by
  rw [deepKeysF_cons]
  exact List.sublist_append_right _ _

theorem sgOK_core (F : Nat)
    (IH : ∀ (t : Nat) (d2 : NDict), ndOkF F d2 = true → (deepKeysF F d2).Nodup →
      ∀ s ∈ segsD F t d2, sgOK s) :
    ∀ (t : Nat) (d : NDict), ndOkF (F + 1) d = true → (deepKeysF (F + 1) d).Nodup →
      ∀ s ∈ segsD (F + 1) t d, sgOK s := by
  intro t d
  induction d with
  | nil => intro _ _ s hs; exact absurd hs (List.not_mem_nil s)
  | cons kv tl ihd =>
      intro hok hnd s hs
      have hE : ∀ s2 ∈ segsE (F + 1) t kv, sgOK s2 := by
        intro s2 hs2
        obtain ⟨k, v⟩ := kv
        cases v with
        | num h =>
            rw [segsE_num] at hs2
            rcases List.mem_singleton.1 hs2 with rfl
            exact trivial
        | pair sub h =>
            have hsub : ndOkF F sub = true := ndOk_sub hok
            cases t with
            | zero =>
                rw [segsE_pair0] at hs2
                rcases List.mem_singleton.1 hs2 with rfl
                exact trivial
            | succ t' =>
                cases t' with
                | zero =>
                    rw [segsE_pair1] at hs2
                    rcases List.mem_singleton.1 hs2 with rfl
                    cases F with
                    | zero =>
                        rw [show ndOkF 0 sub = false from rfl] at hsub
                        exact Bool.noConfusion hsub
                    | succ F2 =>
                        refine ⟨ndOk_shallow hsub, ?_⟩
                        rw [shallow_keys]
                        exact ((hnd.sublist (deep_sub_sublist k sub h tl)).sublist
                          (keys_sublist_deep F2 sub))
                | succ t'' =>
                    rw [segsE_pair2] at hs2
                    rcases List.mem_cons.1 hs2 with rfl | hs3
                    · exact trivial
                    · rcases List.mem_append.1 hs3 with hs4 | hs5
                      · exact IH (t'' + 1) sub hsub
                          (hnd.sublist (deep_sub_sublist k sub h tl)) s2 hs4
                      · rcases List.mem_singleton.1 hs5 with rfl
                        exact trivial
      have htl : ndOkF (F + 1) tl = true := (ndOk_cons hok).2
      have hndtl : (deepKeysF (F + 1) tl).Nodup := hnd.sublist (deep_tl_sublist kv tl)
      cases tl with
      | nil =>
          rw [show segsD (F + 1) t [kv] = segsE (F + 1) t kv from rfl] at hs
          exact hE s hs
      | cons kv' tl' =>
          rw [segsD_cons₂] at hs
          rcases List.mem_append.1 hs with h1 | h2
          · exact hE s h1
          · rcases List.mem_cons.1 h2 with rfl | h3
            · exact trivial
            · exact ihd htl hndtl s h3

theorem segsD_sgOK : ∀ (F t : Nat) (d : NDict), ndOkF (F + 1) d = true →
    (deepKeysF (F + 1) d).Nodup → ∀ s ∈ segsD (F + 1) t d, sgOK s := by
  intro F
  induction F with
  | zero =>
      exact sgOK_core 0 (fun t2 d2 h2 _ => by
        rw [show ndOkF 0 d2 = false from rfl] at h2
        exact Bool.noConfusion h2)
  | succ F2 ihF => exact sgOK_core (F2 + 1) ihF

theorem itemsSegs_keys_some : ∀ (ss : List Seg) (x : Ident × List (Dec × Dec)),
    x ∈ itemsSegs ss → ∃ kk, x.1 = some kk := by
  intro ss
  induction ss with
  | nil => intro x hx; exact absurd hx (List.not_mem_nil x)
  | cons s ss ih =>
      intro x hx
      cases s with
      | txt T => exact ih x hx
      | sg n h es =>
          rcases List.mem_cons.1 hx with rfl | hm
          · exact ⟨⟨(n : Int), 0⟩, rfl⟩
          · exact ih x hm

theorem lookupA_rev_none (items : Items) (ss : List Seg)
    (hnone : lookupA items none = none) :
    lookupA (items ++ (itemsSegs ss).reverse) none = none := by
  rw [lookupA_append_of_none items _ none hnone]
  apply lookupA_none_of_not_mem
  intro hmem
  rcases List.mem_map.1 hmem with ⟨y, hy, hfst⟩
  obtain ⟨kk, hkk⟩ := itemsSegs_keys_some ss y (List.mem_reverse.1 hy)
  rw [hkk] at hfst
  exact Option.noConfusion hfst

theorem levels_fold : ∀ (k F : Nat) (d : NDict) (items : Items),
    ndOkF (F + 1) d = true →
    (deepKeysF (F + 1) d).Nodup →
    lookupA items none = none →
    ((items ++ itemsAll (F + 1) k d).map Prod.fst).Nodup →
    (downFrom (k + 1)).foldlM processLevel
        ('(' :: (renderL (segsD (F + 1) k d) ++ [')', ':']), items)
      = .ok ([':'], (items ++ itemsAll (F + 1) k d) ++ [(none, shallow d)]) := by
  intro k
  induction k with
  | zero =>
      intro F d items hok hnd hnone hN
      rw [show downFrom 1 = [(1 : Int)] from rfl, List.foldlM_cons,
        processLevel_trunk F d items (ndOk_shallow hok)
          (by rw [shallow_keys]; exact hnd.sublist (keys_sublist_deep F d)),
        upsertA_of_lookup_none items none (shallow d) hnone, exBind_ok, List.foldlM_nil]
      rw [show itemsAll (F + 1) 0 d = [] from rfl, List.append_nil]
      rfl
  | succ k ih =>
      intro F d items hok hnd hnone hN
      have hAll : itemsAll (F + 1) (k + 1) d
          = (itemsSegs (segsD (F + 1) (k + 1) d)).reverse ++ itemsAll (F + 1) k d := rfl
      have hsubl : ((items ++ (itemsSegs (segsD (F + 1) (k + 1) d)).reverse).map
          Prod.fst).Nodup := by
        refine hN.sublist (List.Sublist.map Prod.fst ?_)
        rw [hAll]
        exact List.Sublist.append (List.Sublist.refl items)
          (List.sublist_append_left _ _)
      rw [show downFrom (k + 2) = ((k + 2 : Nat) : Int) :: downFrom (k + 1) from rfl,
        List.foldlM_cons]
      have hstep := processLevel_step (F + 1) (k + 1) d ((k + 2 : Nat) : Int) items
        (by push_cast; omega) (by push_cast; omega)
        (segsD_sgOK F (k + 1) d hok hnd) hsubl
      rw [hstep, exBind_ok, flatten_segsD F k d hok]
      have ih2 := ih F d (items ++ (itemsSegs (segsD (F + 1) (k + 1) d)).reverse) hok hnd
        (lookupA_rev_none items _ hnone)
        (by rw [List.append_assoc, ← hAll]; exact hN)
      rw [ih2, List.append_assoc items _ (itemsAll (F + 1) k d), ← hAll]

theorem lookupA_of_mem_nodup {α β : Type} [DecidableEq α] :
    ∀ (xs : List (α × β)) (k : α) (v : β), (xs.map Prod.fst).Nodup → (k, v) ∈ xs →
      lookupA xs k = some v := by
  intro xs
  induction xs with
  | nil => intro k v _ hm; exact absurd hm (List.not_mem_nil _)
  | cons p rest ih =>
      intro k v hnd hm
      rcases List.mem_cons.1 hm with rfl | hm2
      · rw [lookupA_cons, if_pos rfl]
      · rw [List.map_cons] at hnd
        have hne : p.1 ≠ k := by
          intro he
          exact (List.nodup_cons.1 hnd).1
            (he ▸ List.mem_map.2 ⟨(k, v), hm2, rfl⟩)
        rw [lookupA_cons, if_neg hne]
        exact ih k v (List.nodup_cons.1 hnd).2 hm2

theorem branchItems_mem_top : ∀ {F : Nat} {d : NDict} {k h : Dec} {sub : NDict},
    (k, NVal.pair sub h) ∈ d → (some k, shallow sub) ∈ branchItems (F + 1) d := by
  intro F d
  induction d with
  | nil => intro k h sub hm; exact absurd hm (List.not_mem_nil _)
  | cons kv tl ih =>
      intro k h sub hm
      rcases List.mem_cons.1 hm with rfl | hm2
      · rw [branchItems_pair]
        exact List.mem_cons_self _ _
      · obtain ⟨k2, v2⟩ := kv
        cases v2 with
        | num h2 =>
            rw [branchItems_num]
            exact ih hm2
        | pair sub2 h2 =>
            rw [branchItems_pair]
            exact List.mem_cons_of_mem _ (List.mem_append_right _ (ih hm2))

theorem branchItems_mem_sub : ∀ {F : Nat} {d : NDict} {k h : Dec} {sub : NDict},
    (k, NVal.pair sub h) ∈ d → ∀ x ∈ branchItems F sub, x ∈ branchItems (F + 1) d := by
  intro F d
  induction d with
  | nil => intro k h sub hm; exact absurd hm (List.not_mem_nil _)
  | cons kv tl ih =>
      intro k h sub hm x hx
      rcases List.mem_cons.1 hm with rfl | hm2
      · rw [branchItems_pair]
        exact List.mem_cons_of_mem _ (List.mem_append_left _ hx)
      · obtain ⟨k2, v2⟩ := kv
        cases v2 with
        | num h2 =>
            rw [branchItems_num]
            exact ih hm2 x hx
        | pair sub2 h2 =>
            rw [branchItems_pair]
            exact List.mem_cons_of_mem _ (List.mem_append_right _ (ih hm2 x hx))

theorem leafKeys_mem_top : ∀ {F : Nat} {d : NDict} {k h : Dec},
    (k, NVal.num h) ∈ d → k ∈ leafKeysF (F + 1) d := by
  intro F d
  induction d with
  | nil => intro k h hm; exact absurd hm (List.not_mem_nil _)
  | cons kv tl ih =>
      intro k h hm
      rcases List.mem_cons.1 hm with rfl | hm2
      · rw [leafKeys_num]
        exact List.mem_cons_self _ _
      · obtain ⟨k2, v2⟩ := kv
        cases v2 with
        | num h2 =>
            rw [leafKeys_num]
            exact List.mem_cons_of_mem _ (ih hm2)
        | pair sub2 h2 =>
            rw [leafKeys_pair]
            exact List.mem_append_right _ (ih hm2)

theorem leafKeys_mem_sub : ∀ {F : Nat} {d : NDict} {k h : Dec} {sub : NDict},
    (k, NVal.pair sub h) ∈ d → ∀ k2 ∈ leafKeysF F sub, k2 ∈ leafKeysF (F + 1) d := by
  intro F d
  induction d with
  | nil => intro k h sub hm; exact absurd hm (List.not_mem_nil _)
  | cons kv tl ih =>
      intro k h sub hm k2 hk2
      rcases List.mem_cons.1 hm with rfl | hm2
      · rw [leafKeys_pair]
        exact List.mem_append_left _ hk2
      · obtain ⟨k3, v3⟩ := kv
        cases v3 with
        | num h3 =>
            rw [leafKeys_num]
            exact List.mem_cons_of_mem _ (ih hm2 k2 hk2)
        | pair sub3 h3 =>
            rw [leafKeys_pair]
            exact List.mem_append_right _ (ih hm2 k2 hk2)

theorem ndOk_mem_pair : ∀ {F : Nat} {d : NDict} {k h : Dec} {sub : NDict},
    ndOkF (F + 1) d = true → (k, NVal.pair sub h) ∈ d → ndOkF F sub = true := by
  intro F d
  induction d with
  | nil => intro k h sub _ hm; exact absurd hm (List.not_mem_nil _)
  | cons kv tl ih =>
      intro k h sub hok hm
      rcases List.mem_cons.1 hm with rfl | hm2
      · exact ndOk_sub hok
      · exact ih (ndOk_cons hok).2 hm2

theorem gd_mem_pair : ∀ {F : Nat} {d : NDict} {k h : Dec} {sub : NDict},
    (k, NVal.pair sub h) ∈ d → gdF F sub + 1 ≤ gdF (F + 1) d := by
  intro F d
  induction d with
  | nil => intro k h sub hm; exact absurd hm (List.not_mem_nil _)
  | cons kv tl ih =>
      intro k h sub hm
      rw [gd_cons]
      rcases List.mem_cons.1 hm with rfl | hm2
      · have : (match (k, NVal.pair sub h).2 with
            | NVal.num _ => 0 | NVal.pair sub _ => gdF F sub + 1) = gdF F sub + 1 := rfl
        omega
      · have := ih hm2
        omega

theorem gd_le_bi_core (F : Nat)
    (IH : ∀ d2 : NDict, ndOkF F d2 = true → gdF F d2 ≤ (branchItems F d2).length) :
    ∀ d : NDict, ndOkF (F + 1) d = true →
      gdF (F + 1) d ≤ (branchItems (F + 1) d).length := by
  intro d
  induction d with
  | nil => intro _; exact Nat.le_refl 0
  | cons kv tl ih =>
      intro hok
      have htl := ih (ndOk_cons hok).2
      rw [gd_cons]
      obtain ⟨k, v⟩ := kv
      cases v with
      | num h =>
          rw [branchItems_num]
          have : (match (k, NVal.num h).2 with
              | NVal.num _ => 0 | NVal.pair sub _ => gdF F sub + 1) = 0 := rfl
          omega
      | pair sub h =>
          have hsub := IH sub (ndOk_sub hok)
          rw [branchItems_pair, List.length_cons, List.length_append]
          have : (match (k, NVal.pair sub h).2 with
              | NVal.num _ => 0 | NVal.pair sub _ => gdF F sub + 1) = gdF F sub + 1 := rfl
          omega

theorem gd_le_bi : ∀ (F : Nat) (d : NDict), ndOkF (F + 1) d = true →
    gdF (F + 1) d ≤ (branchItems (F + 1) d).length := by
  intro F
  induction F with
  | zero =>
      exact gd_le_bi_core 0 (fun d2 h2 => by
        rw [show ndOkF 0 d2 = false from rfl] at h2
        exact Bool.noConfusion h2)
  | succ F2 ihF => exact gd_le_bi_core (F2 + 1) ihF

theorem collectD_fold (items : Items) (fuel : Nat) :
    ∀ (d : NDict) (acc : NDict),
      (∀ k h, (k, NVal.num h) ∈ d → lookupA items (some k) = none) →
      (∀ k sub h, (k, NVal.pair sub h) ∈ d → lookupA items (some k) = some (shallow sub)
        ∧ collectD items fuel (shallow sub) = .ok sub) →
      (shallow d).foldlM
          (fun acc2 kv2 =>
            match lookupA items (some kv2.1) with
            | some sub => do
                let sub' ← collectD items fuel sub
                Except.ok (acc2 ++ [(kv2.1, NVal.pair sub' kv2.2)])
            | none => Except.ok (acc2 ++ [(kv2.1, NVal.num kv2.2)]))
          acc
        = .ok (acc ++ d) := by
  intro d
  induction d with
  | nil =>
      intro acc _ _
      rw [show shallow [] = [] from rfl, List.foldlM_nil, List.append_nil]
      rfl
  | cons kv tl ih =>
      intro acc hleaf hbr
      obtain ⟨k, v⟩ := kv
      cases v with
      | num h =>
          rw [show shallow ((k, NVal.num h) :: tl) = (k, h) :: shallow tl from rfl,
            List.foldlM_cons]
          simp only [hleaf k h (List.mem_cons_self _ _)]
          rw [exBind_ok,
            ih (acc ++ [(k, NVal.num h)])
              (fun k2 h2 hm => hleaf k2 h2 (List.mem_cons_of_mem _ hm))
              (fun k2 sub2 h2 hm => hbr k2 sub2 h2 (List.mem_cons_of_mem _ hm)),
            List.append_assoc, List.singleton_append]
      | pair sub h =>
          rw [show shallow ((k, NVal.pair sub h) :: tl) = (k, h) :: shallow tl from rfl,
            List.foldlM_cons]
          simp only [(hbr k sub h (List.mem_cons_self _ _)).1,
            (hbr k sub h (List.mem_cons_self _ _)).2, exBind_ok]
          rw [ih (acc ++ [(k, NVal.pair sub h)])
              (fun k2 h2 hm => hleaf k2 h2 (List.mem_cons_of_mem _ hm))
              (fun k2 sub2 h2 hm => hbr k2 sub2 h2 (List.mem_cons_of_mem _ hm)),
            List.append_assoc, List.singleton_append]

theorem collectD_ok : ∀ (f F : Nat) (d : NDict) (items : Items),
    ndOkF (F + 1) d = true → gdF (F + 1) d < f →
    (∀ x ∈ branchItems (F + 1) d, lookupA items x.1 = some x.2) →
    (∀ k2 ∈ leafKeysF (F + 1) d, lookupA items (some k2) = none) →
    collectD items f (shallow d) = .ok d := by
  intro f
  induction f with
  | zero => intro F d items _ hgd _ _; omega
  | succ f ih =>
      intro F d items hok hgd hBI hLK
      rw [show collectD items (f + 1) (shallow d)
          = (shallow d).foldlM
              (fun acc2 kv2 =>
                match lookupA items (some kv2.1) with
                | some sub => do
                    let sub' ← collectD items f sub
                    Except.ok (acc2 ++ [(kv2.1, NVal.pair sub' kv2.2)])
                | none => Except.ok (acc2 ++ [(kv2.1, NVal.num kv2.2)]))
              [] from rfl,
        collectD_fold items f d []
          (fun k2 h2 hm => hLK k2 (leafKeys_mem_top hm))
          (fun k2 sub2 h2 hm => by
            have hoksub := ndOk_mem_pair hok hm
            have hF : ∃ F2, F = F2 + 1 := by
              cases F with
              | zero =>
                  rw [show ndOkF 0 sub2 = false from rfl] at hoksub
                  exact Bool.noConfusion hoksub
              | succ F2 => exact ⟨F2, rfl⟩
            obtain ⟨F2, rfl⟩ := hF
            refine ⟨hBI (some k2, shallow sub2) (branchItems_mem_top hm), ?_⟩
            refine ih F2 sub2 items hoksub ?_
              (fun x hx => hBI x (branchItems_mem_sub hm x hx))
              (fun k3 hk3 => hLK k3 (leafKeys_mem_sub hm k3 hk3))
            have := gd_mem_pair (F := F2 + 1) hm
            omega),
        List.nil_append]

theorem listCoeM : ∀ (l : List Nat),
    ((do
      let a ← l
      pure ((a : Nat) : Int)) : List Int) = l.map (fun a => ((a : Nat) : Int)) := by
  intro l
  induction l with
  | nil => rfl
  | cons x xs ih =>
      have ih2 : (xs.flatMap fun a => [((a : Nat) : Int)])
          = xs.map (fun a => ((a : Nat) : Int)) := ih
      show ((x :: xs : List Nat).flatMap fun a => [((a : Nat) : Int)]) = _
      rw [List.flatMap_cons, ih2]
      rfl

theorem levelRange_downFrom : ∀ n : Nat, levelRange ((n : Nat) : Int) = downFrom n := by
  intro n
  induction n with
  | zero => rfl
  | succ n ihn =>
      rw [show downFrom (n + 1) = ((n + 1 : Nat) : Int) :: downFrom n from rfl, ← ihn]
      unfold levelRange
      rw [Int.toNat_natCast, Int.toNat_natCast, listCoeM, listCoeM,
        List.range_succ_eq_map, List.map_map, List.map_cons, List.map_map, List.map_map]
      congr 1
      · apply List.map_congr_left
        intro i hi
        show ((n + 1 : Nat) : Int) - ((i + 1 : Nat) : Int) = ((n : Nat) : Int) - ((i : Nat) : Int)
        push_cast
        ring

/-- C4: the spec grammar writes a branch entry as `group ":" identity`; on
the well-formed-per-that-grammar string `"((1:2.0):3:4.5):"` `_parse_newick`
does not return a nested mapping but raises a `SyntaxError` (after the inner
group is excised, the trunk-level mapping-literal text is `:3:4.5`, which
`eval` rejects), refuting the claim as stated over the spec grammar. -/
theorem c4_counterexample : parseNewick sC4spec = .error .synErr := rfl

/-- C4, amended: with the branch identity written directly after the closing
parenthesis (the format `_parse_newick` actually reads back), decode
succeeds on every well-formed topology string: for every nested mapping `d`
well formed within fuel `F` with globally distinct identities
(`NDGood F d`), `_parse_newick` applied to the encoded topology string
returns exactly the fully nested mapping `d` rooted at the trunk identity,
the spans having been resolved from the deepest level upward and
right-to-left within each level. -/
theorem c4_amended_thm : ∀ (F : Nat) (d : NDict), NDGood F d →
    parseNewick (encodeTrunkF F d) = .ok d := by
  intro F d hgood
  obtain ⟨hok, hnd⟩ := hgood
  cases F with
  | zero =>
      rw [show ndOkF 0 d = false from rfl] at hok
      exact Bool.noConfusion hok
  | succ F2 =>
      have hperm : (itemsAll (F2 + 1) (gdF (F2 + 1) d) d).Perm (branchItems (F2 + 1) d) :=
        Multiset.coe_eq_coe.1 (itemsAll_ms F2 (gdF (F2 + 1) d) d hok (Nat.le_refl _))
      have hbknd : (branchKeysF (F2 + 1) d).Nodup :=
        hnd.sublist (branchKeys_sublist_deep (F2 + 1) d)
      have hIAnd : ((itemsAll (F2 + 1) (gdF (F2 + 1) d) d).map Prod.fst).Nodup := by
        refine ((hperm.map Prod.fst).nodup_iff).2 ?_
        rw [branchItems_keys]
        exact List.Nodup.map (Option.some_injective Dec) hbknd
      have hIAkeys : (itemsAll (F2 + 1) (gdF (F2 + 1) d) d).map Prod.fst
          = ((itemsAll (F2 + 1) (gdF (F2 + 1) d) d).map Prod.fst) := rfl
      have hnoneIA : lookupA (itemsAll (F2 + 1) (gdF (F2 + 1) d) d) none = none := by
        apply lookupA_none_of_not_mem
        intro hmem
        have hmem2 := ((hperm.map Prod.fst).mem_iff).1 hmem
        rw [branchItems_keys] at hmem2
        rcases List.mem_map.1 hmem2 with ⟨y, _, hy⟩
        exact Option.noConfusion hy
      have hdisj : ∀ a, a ∈ leafKeysF (F2 + 1) d → a ∈ branchKeysF (F2 + 1) d → False := by
        have hpermd : (deepKeysF (F2 + 1) d).Perm
            (leafKeysF (F2 + 1) d ++ branchKeysF (F2 + 1) d) := by
          refine Multiset.coe_eq_coe.1 ?_
          rw [deep_split (F2 + 1) d, Multiset.coe_add]
        have hnd2 : (leafKeysF (F2 + 1) d ++ branchKeysF (F2 + 1) d).Nodup :=
          (hpermd.nodup_iff).1 hnd
        exact fun a ha hb => (List.nodup_append.1 hnd2).2.2 ha hb
      have hNodup : ((([] : Items)
          ++ itemsAll (F2 + 1) (gdF (F2 + 1) d) d).map Prod.fst).Nodup := by
        rw [List.nil_append]
        exact hIAnd
      have hfold := levels_fold (gdF (F2 + 1) d) F2 d [] hok hnd rfl hNodup
      have hml : maxLevel (encodeTrunkF (F2 + 1) d)
          = ((gdF (F2 + 1) d + 1 : Nat) : Int) := by
        rw [maxLevel_enc F2 d hok]
        push_cast
        ring
      have hstr : encodeTrunkF (F2 + 1) d
          = '(' :: (renderL (segsD (F2 + 1) (gdF (F2 + 1) d) d) ++ [')', ':']) := by
        rw [init_segsD F2 (gdF (F2 + 1) d) d hok (Nat.le_refl _)]
        unfold encodeTrunkF
        simp
      unfold parseNewick parseNewickAux
      rw [hml, levelRange_downFrom (gdF (F2 + 1) d + 1), hstr, hfold, List.nil_append,
        exBind_ok]
      have hITnd : (((itemsAll (F2 + 1) (gdF (F2 + 1) d) d)
          ++ [(none, shallow d)]).map Prod.fst).Nodup := by
        rw [List.map_append]
        refine List.Nodup.append hIAnd (List.nodup_singleton _) ?_
        intro a ha hb
        rcases List.mem_singleton.1 hb with rfl
        have hmem2 := ((hperm.map Prod.fst).mem_iff).1 ha
        rw [branchItems_keys] at hmem2
        rcases List.mem_map.1 hmem2 with ⟨y, _, hy⟩
        exact Option.noConfusion hy
      have hlook : lookupA ((itemsAll (F2 + 1) (gdF (F2 + 1) d) d)
          ++ [(none, shallow d)]) none = some (shallow d) := by
        rw [lookupA_append_of_none _ _ none hnoneIA, lookupA_cons, if_pos rfl]
      rw [hlook]
      have hcol : collectD ((itemsAll (F2 + 1) (gdF (F2 + 1) d) d) ++ [(none, shallow d)])
          (((itemsAll (F2 + 1) (gdF (F2 + 1) d) d) ++ [(none, shallow d)]).length + 1)
          (shallow d) = .ok d := by
        refine collectD_ok _ F2 d _ hok ?_ ?_ ?_
        · have h1 := gd_le_bi F2 d hok
          have h2 := hperm.length_eq
          rw [List.length_append]
          omega
        · intro x hx
          refine lookupA_of_mem_nodup _ x.1 x.2 hITnd ?_
          have : x ∈ itemsAll (F2 + 1) (gdF (F2 + 1) d) d := (hperm.mem_iff).2 hx
          exact List.mem_append_left _ (show (x.1, x.2) ∈ _ from by
            rw [show (x.1, x.2) = x from rfl]
            exact this)
        · intro k2 hk2
          apply lookupA_none_of_not_mem
          intro hmem
          rw [List.map_append] at hmem
          rcases List.mem_append.1 hmem with h1 | h2
          · have hmem2 := ((hperm.map Prod.fst).mem_iff).1 h1
            rw [branchItems_keys] at hmem2
            rcases List.mem_map.1 hmem2 with ⟨y, hy, hy2⟩
            have : y = k2 := Option.some_injective Dec hy2.symm ▸ rfl
            exact hdisj k2 hk2 (by
              have := Option.some_injective Dec hy2
              exact this ▸ hy)
          · rcases List.mem_singleton.1 h2 with h3
            exact Option.noConfusion h3
      dsimp only
      rw [hcol]
      rfl

/-- C4 witness: the amended round-trip applied to the scenario-B tree
(branch 3 at height 4 merging leaves 1 and 2 at heights 1 and 1.5). -/
theorem c4_amended_witness :
    NDGood 3 dC4 ∧ parseNewick (encodeTrunkF 3 dC4) = .ok dC4 :=
  ⟨⟨by decide, by decide⟩, c4_amended_thm 3 dC4 ⟨by decide, by decide⟩⟩
